import Mathlib

/-!
Verification development for `rjboer/opcua`: worker pools, the ring-buffer deque and
the partition pool.

The file embeds four pieces of the repository:

* `internal/workerpool/workerpool.go` (namespace `workerpool`): the
  reject-after-close pool, as an interleaving step function over the pool, its
  worker goroutines and the calls that client goroutines have in flight;
* `server/internal/workerpool/workerpool.go` (namespace `serverpool`): the
  blocking-always pool, in the same style;
* `server/internal/queue/queue.go` (namespace `queue`): the generic deque;
* `internal/pool/partition.go` (namespace `pool`): pooled byte buffers, as
  operations on a heap of pools and partitions.

Go channel semantics used by the pool models (Go language specification):
a send on a buffered channel proceeds when the buffer has room, a receive
proceeds when the buffer is non-empty or the channel is closed, "a send on a
closed channel proceeds by causing a run-time panic", closing a closed channel
panics, and a `select` picks one of the cases that can proceed (any of them),
takes `default` when none can and there is one, and blocks otherwise.
A blocked goroutine is one whose next step is not enabled (`none`).
-/

/-! ## Go values shared by the two pool models -/

/-- A Go `func()` value: `none` is the nil function, `some k` the closure `k`. -/
abbrev Func := Option Nat

/-- A Go channel: the buffered elements (oldest first), the buffer capacity
and whether `close` has been called on it. -/
structure Chan (α : Type) where
  buf : List α
  cap : Nat
  closed : Bool
deriving DecidableEq, Repr

/-- The expression `make(chan T, size)`: a channel with an empty buffer of
capacity `size`. The runtime panics with "makechan: size out of range" when
`size` is negative or the buffer is more than it can allocate; `limit` is the
largest capacity it can allocate for the element type. -/
def makechan {α : Type} (limit : Nat) (size : Int) : Except String (Chan α) :=
  if size < 0 ∨ (limit : Int) < size then Except.error "makechan: size out of range"
  else Except.ok { buf := [], cap := size.toNat, closed := false }

/-- An upper bound, on every 64-bit platform, of the capacity that
`make(chan func(), n)` accepts: the buffer of `8 * n` bytes has to fit a
`uintptr`, so `n < 2^61`. -/
def chanLimit64 : Nat := 2305843009213693951

/-- The constant `math.MaxInt64`, `2^63 - 1`. -/
def MaxInt64 : Int := 9223372036854775807

/-- The state of a `sync.Once`: not yet used, its function running, finished. -/
inductive Once
  | fresh
  | active
  | done
deriving DecidableEq, Repr

/-- The two communication cases of the second `select` of `Pool.Submit`. -/
inductive SelectCase
  | send
  | stop
deriving DecidableEq, Repr

/-- A worker goroutine started by `New`: at the `range` receive, inside
`job()` for closure `k`, or returned (its deferred `wg.Done()` has run). -/
inductive Worker
  | ranging
  | running (k : Nat)
  | exited
deriving DecidableEq, Repr

/-- Worker predicate: the goroutine has not returned yet. -/
def Worker.live : Worker → Bool
  | .exited => false
  | _ => true

/-- Worker predicate: the goroutine is inside a job. -/
def Worker.busy : Worker → Bool
  | .running _ => true
  | _ => false

namespace workerpool

/-- The error values of the package: `ErrPoolClosed`. -/
inductive Err
  | ErrPoolClosed
deriving DecidableEq, Repr

/-- The struct `Pool`: `jobs chan func()`, `stopCh chan struct{}`,
`wg sync.WaitGroup` (its counter) and `once sync.Once`. -/
structure Pool where
  jobs : Chan Func
  stopCh : Chan Unit
  wg : Int
  once : Once
deriving DecidableEq, Repr

/-- Program points of a call of `Pool.Submit` and `Pool.StopWait` made by a
client goroutine.  `submitEntry`: before `if job == nil` (line 51);
`submitFirst`: at the first `select` (line 54); `submitSecond`: at the second
`select` (line 60); `submitReturned err`: returned `err` (`none` is a nil
error); `submitPanicked`: panicked by a send on the closed `jobs`.
`stopEntry`: at `p.once.Do` (line 71); `stopCloseStop`, `stopCloseJobs`,
`stopWait`: inside the once function before lines 72, 73, 74;
`stopReturned`: returned; `stopPanicked`: panicked by closing a closed channel. -/
inductive Call
  | submitEntry (job : Func)
  | submitFirst (job : Func)
  | submitSecond (job : Func)
  | submitReturned (job : Func) (err : Option Err)
  | submitPanicked (job : Func)
  | stopEntry
  | stopCloseStop
  | stopCloseJobs
  | stopWait
  | stopReturned
  | stopPanicked
deriving DecidableEq, Repr

/-- The pool together with its goroutines: the workers started by `New`, the
calls made so far by client goroutines (finished ones stay in the table with
their result) and the log of completed job executions. -/
structure State where
  p : Pool
  workers : List Worker
  calls : List Call
  executed : List Nat
deriving DecidableEq, Repr

/-- The body of the loop of `Pool.start`: `p.wg.Add(1)` and `go func() ...`. -/
def startIter (s : State) : State :=
  { s with p := { s.p with wg := s.p.wg + 1 }, workers := s.workers ++ [Worker.ranging] }

/-- `Pool.start`: `for i := 0; i < maxWorkers; i++` runs the body
`maxWorkers` times (no time when `maxWorkers <= 0`). -/
def start (s : State) (maxWorkers : Int) : State :=
  Nat.iterate startIter maxWorkers.toNat s

/-- The pool that `New(maxWorkers)` returns, when it returns: clamp to one,
both channels made, the workers started. The call with the panic of `make` is
`NewCall`. -/
def New (maxWorkers : Int) : State :=
  let maxWorkers := if maxWorkers < 1 then 1 else maxWorkers
  let p : Pool :=
    { jobs := { buf := [], cap := maxWorkers.toNat, closed := false }
      stopCh := { buf := [], cap := 0, closed := false }
      wg := 0
      once := Once.fresh }
  start { p := p, workers := [], calls := [], executed := [] } maxWorkers

/-- The call `New(maxWorkers)` (lines 21-31): clamp to one, make both
channels, start the workers, return the pool. The error is the panic of
`make(chan func(), maxWorkers)`, before which nothing is started. -/
def NewCall (limit : Nat) (maxWorkers : Int) : Except String State := do
  let maxWorkers := if maxWorkers < 1 then 1 else maxWorkers
  let jobs ← makechan limit maxWorkers
  let stopCh ← makechan limit 0
  let p : Pool := { jobs := jobs, stopCh := stopCh, wg := 0, once := Once.fresh }
  pure (start { p := p, workers := [], calls := [], executed := [] } maxWorkers)

/-- One step of the worker goroutine `i` (lines 36-43): at the `range`
receive it takes the oldest buffered job (and enters it unless it is nil),
or leaves the loop and runs `wg.Done()` when `jobs` is closed and drained, or
is blocked; inside a job, the job finishes and the worker is back at the
receive. -/
def workerStep (s : State) (i : Nat) : Option State :=
  match s.workers[i]? with
  | some Worker.ranging =>
    match s.p.jobs.buf with
    | job :: rest =>
      let p := { s.p with jobs := { s.p.jobs with buf := rest } }
      match job with
      | some k => some { s with p := p, workers := s.workers.set i (Worker.running k) }
      | none => some { s with p := p }
    | [] =>
      if s.p.jobs.closed then
        some { s with p := { s.p with wg := s.p.wg - 1 }, workers := s.workers.set i Worker.exited }
      else none
  | some (Worker.running k) =>
    some { s with workers := s.workers.set i Worker.ranging, executed := s.executed ++ [k] }
  | _ => none

/-- One step of `Pool.Submit` for call `i` (lines 50-66); `c` is the case the
second `select` picks, and is not looked at elsewhere. -/
def Submit (s : State) (i : Nat) (c : SelectCase) : Option State :=
  match s.calls[i]? with
  | some (Call.submitEntry job) =>
    if job = none then some { s with calls := s.calls.set i (Call.submitReturned job none) }
    else some { s with calls := s.calls.set i (Call.submitFirst job) }
  | some (Call.submitFirst job) =>
    if s.p.stopCh.closed then
      some { s with calls := s.calls.set i (Call.submitReturned job (some Err.ErrPoolClosed)) }
    else some { s with calls := s.calls.set i (Call.submitSecond job) }
  | some (Call.submitSecond job) =>
    match c with
    | SelectCase.send =>
      if s.p.jobs.closed then some { s with calls := s.calls.set i (Call.submitPanicked job) }
      else if s.p.jobs.buf.length < s.p.jobs.cap then
        some { s with
          p := { s.p with jobs := { s.p.jobs with buf := s.p.jobs.buf ++ [job] } }
          calls := s.calls.set i (Call.submitReturned job none) }
      else none
    | SelectCase.stop =>
      if s.p.stopCh.closed then
        some { s with calls := s.calls.set i (Call.submitReturned job (some Err.ErrPoolClosed)) }
      else none
  | _ => none

/-- One step of `Pool.StopWait` for call `i` (lines 70-76): `once.Do` runs
the function for the first caller, blocks a caller that arrives while it
runs, and returns at once when it has finished; the function closes `stopCh`,
closes `jobs` and waits for the counter of `wg` to be zero. -/
def StopWait (s : State) (i : Nat) : Option State :=
  match s.calls[i]? with
  | some Call.stopEntry =>
    match s.p.once with
    | Once.fresh =>
      some { s with p := { s.p with once := Once.active }, calls := s.calls.set i Call.stopCloseStop }
    | Once.active => none
    | Once.done => some { s with calls := s.calls.set i Call.stopReturned }
  | some Call.stopCloseStop =>
    if s.p.stopCh.closed then some { s with calls := s.calls.set i Call.stopPanicked }
    else
      some { s with
        p := { s.p with stopCh := { s.p.stopCh with closed := true } }
        calls := s.calls.set i Call.stopCloseJobs }
  | some Call.stopCloseJobs =>
    if s.p.jobs.closed then some { s with calls := s.calls.set i Call.stopPanicked }
    else
      some { s with
        p := { s.p with jobs := { s.p.jobs with closed := true } }
        calls := s.calls.set i Call.stopWait }
  | some Call.stopWait =>
    if s.p.wg = 0 then
      some { s with p := { s.p with once := Once.done }, calls := s.calls.set i Call.stopReturned }
    else none
  | _ => none

/-- What can happen next: a client goroutine calls `Submit(job)` or
`StopWait()` (the call gets the next index of the table), call `i` takes a
step, or worker `i` takes a step. -/
inductive Action
  | submit (job : Func)
  | stopWait
  | call (i : Nat) (c : SelectCase)
  | worker (i : Nat)
deriving DecidableEq, Repr

/-- The step function of the interleaving semantics; `none` when the action
is not enabled. A call steps by `Submit` or `StopWait` according to its kind. -/
def step (s : State) : Action → Option State
  | Action.submit job => some { s with calls := s.calls ++ [Call.submitEntry job] }
  | Action.stopWait => some { s with calls := s.calls ++ [Call.stopEntry] }
  | Action.call i c => (Submit s i c).orElse fun _ => StopWait s i
  | Action.worker i => workerStep s i

/-- Run a schedule (a list of actions) from a state. -/
def exec (s : State) : List Action → Option State
  | [] => some s
  | a :: as => (step s a).bind fun t => exec t as

end workerpool

namespace serverpool

/-- The struct `WorkerPool`: `tasks chan func()`, `once sync.Once` and
`wg sync.WaitGroup` (its counter). -/
structure WorkerPool where
  tasks : Chan Func
  once : Once
  wg : Int
deriving DecidableEq, Repr

/-- Program points of a call of `WorkerPool.Submit` and `WorkerPool.StopWait`.
`submitEntry`: before `if task == nil` (line 36); `submitSend`: at
`wp.tasks <- task` (line 39); `submitReturned`: returned; `submitPanicked`:
panicked by the send on the closed `tasks`. `stopEntry`: at `wp.once.Do`
(line 44); `stopClose`, `stopWait`: inside the once function before lines 45
and 46; `stopReturned`: returned; `stopPanicked`: panicked by closing the
closed `tasks`. -/
inductive Call
  | submitEntry (task : Func)
  | submitSend (task : Func)
  | submitReturned (task : Func)
  | submitPanicked (task : Func)
  | stopEntry
  | stopClose
  | stopWait
  | stopReturned
  | stopPanicked
deriving DecidableEq, Repr

/-- The pool together with its goroutines (see `workerpool.State`). -/
structure State where
  wp : WorkerPool
  workers : List Worker
  calls : List Call
  executed : List Nat
deriving DecidableEq, Repr

/-- The body of the loop of `New`: `go func() ...`. -/
def spawn (s : State) : State :=
  { s with workers := s.workers ++ [Worker.ranging] }

/-- The pool that `New(maxWorkers)` returns, when it returns: clamp to one,
the channel made, `wg.Add(maxWorkers)`, `maxWorkers` workers started. The call
with the panic of `make` is `NewCall`. -/
def New (maxWorkers : Int) : State :=
  let maxWorkers := if maxWorkers < 1 then 1 else maxWorkers
  let wp : WorkerPool :=
    { tasks := { buf := [], cap := maxWorkers.toNat, closed := false }
      once := Once.fresh
      wg := 0 }
  let wp := { wp with wg := wp.wg + maxWorkers }
  Nat.iterate spawn maxWorkers.toNat { wp := wp, workers := [], calls := [], executed := [] }

/-- The call `New(maxWorkers)` (lines 13-32): clamp to one, make the channel,
`wg.Add(maxWorkers)`, start the workers, return the pool. The error is the
panic of `make(chan func(), maxWorkers)`, before which nothing is started. -/
def NewCall (limit : Nat) (maxWorkers : Int) : Except String State := do
  let maxWorkers := if maxWorkers < 1 then 1 else maxWorkers
  let tasks ← makechan limit maxWorkers
  let wp : WorkerPool := { tasks := tasks, once := Once.fresh, wg := 0 }
  let wp := { wp with wg := wp.wg + maxWorkers }
  pure (Nat.iterate spawn maxWorkers.toNat
    { wp := wp, workers := [], calls := [], executed := [] })

/-- One step of the worker goroutine `i` (lines 22-29), as in
`workerpool.workerStep`. -/
def workerStep (s : State) (i : Nat) : Option State :=
  match s.workers[i]? with
  | some Worker.ranging =>
    match s.wp.tasks.buf with
    | task :: rest =>
      let wp := { s.wp with tasks := { s.wp.tasks with buf := rest } }
      match task with
      | some k => some { s with wp := wp, workers := s.workers.set i (Worker.running k) }
      | none => some { s with wp := wp }
    | [] =>
      if s.wp.tasks.closed then
        some { s with wp := { s.wp with wg := s.wp.wg - 1 }, workers := s.workers.set i Worker.exited }
      else none
  | some (Worker.running k) =>
    some { s with workers := s.workers.set i Worker.ranging, executed := s.executed ++ [k] }
  | _ => none

/-- One step of `WorkerPool.Submit` for call `i` (lines 35-40). -/
def Submit (s : State) (i : Nat) : Option State :=
  match s.calls[i]? with
  | some (Call.submitEntry task) =>
    if task = none then some { s with calls := s.calls.set i (Call.submitReturned task) }
    else some { s with calls := s.calls.set i (Call.submitSend task) }
  | some (Call.submitSend task) =>
    if s.wp.tasks.closed then some { s with calls := s.calls.set i (Call.submitPanicked task) }
    else if s.wp.tasks.buf.length < s.wp.tasks.cap then
      some { s with
        wp := { s.wp with tasks := { s.wp.tasks with buf := s.wp.tasks.buf ++ [task] } }
        calls := s.calls.set i (Call.submitReturned task) }
    else none
  | _ => none

/-- One step of `WorkerPool.StopWait` for call `i` (lines 43-48). -/
def StopWait (s : State) (i : Nat) : Option State :=
  match s.calls[i]? with
  | some Call.stopEntry =>
    match s.wp.once with
    | Once.fresh =>
      some { s with wp := { s.wp with once := Once.active }, calls := s.calls.set i Call.stopClose }
    | Once.active => none
    | Once.done => some { s with calls := s.calls.set i Call.stopReturned }
  | some Call.stopClose =>
    if s.wp.tasks.closed then some { s with calls := s.calls.set i Call.stopPanicked }
    else
      some { s with
        wp := { s.wp with tasks := { s.wp.tasks with closed := true } }
        calls := s.calls.set i Call.stopWait }
  | some Call.stopWait =>
    if s.wp.wg = 0 then
      some { s with wp := { s.wp with once := Once.done }, calls := s.calls.set i Call.stopReturned }
    else none
  | _ => none

/-- What can happen next (see `workerpool.Action`; there is no `select`). -/
inductive Action
  | submit (task : Func)
  | stopWait
  | call (i : Nat)
  | worker (i : Nat)
deriving DecidableEq, Repr

/-- The step function of the interleaving semantics. -/
def step (s : State) : Action → Option State
  | Action.submit task => some { s with calls := s.calls ++ [Call.submitEntry task] }
  | Action.stopWait => some { s with calls := s.calls ++ [Call.stopEntry] }
  | Action.call i => (Submit s i).orElse fun _ => StopWait s i
  | Action.worker i => workerStep s i

/-- Run a schedule from a state. -/
def exec (s : State) : List Action → Option State
  | [] => some s
  | a :: as => (step s a).bind fun t => exec t as

end serverpool

namespace queue

/-- The ways an operation of the package aborts: the explicit `panic(msg)` of
the pop and peek methods, and the run-time panics of Go for an index out of
range, slice bounds out of range and an integer division by zero. -/
inductive Panic
  | message (msg : String)
  | indexOutOfRange
  | sliceBounds
  | divideByZero
deriving DecidableEq, Repr

/-- The struct `Deque[T]`; `buf` is a slice whose length equals its capacity
(it is nil or comes from `make([]T, newCap)`), the other fields are `int`. -/
structure Deque (T : Type) where
  buf : List T
  head : Int
  tail : Int
  count : Int
deriving DecidableEq, Repr

/-- The zero value `var d Deque[T]`. -/
def Deque.zero {T : Type} : Deque T := { buf := [], head := 0, tail := 0, count := 0 }

/-- `len(buf)` as an `int`. -/
def len {T : Type} (buf : List T) : Int := (buf.length : Int)

/-- The read `buf[i]`. -/
def index {T : Type} (buf : List T) (i : Int) : Except Panic T :=
  match (if 0 ≤ i then buf[i.toNat]? else none) with
  | some v => Except.ok v
  | none => Except.error Panic.indexOutOfRange

/-- The write `buf[i] = v`. -/
def assign {T : Type} (buf : List T) (i : Int) (v : T) : Except Panic (List T) :=
  if 0 ≤ i ∧ i < len buf then Except.ok (buf.set i.toNat v) else Except.error Panic.indexOutOfRange

/-- The slice expression `buf[lo:hi]`. -/
def slice {T : Type} (buf : List T) (lo hi : Int) : Except Panic (List T) :=
  if 0 ≤ lo ∧ lo ≤ hi ∧ hi ≤ len buf then Except.ok ((buf.drop lo.toNat).take (hi - lo).toNat)
  else Except.error Panic.sliceBounds

/-- The builtin `copy(dst[at:], src)` as a new value of `dst`: the first
`min(len(dst) - at, len(src))` elements of `src` overwrite `dst` from `at`. -/
def copyAt {T : Type} (dst : List T) (start : Nat) (src : List T) : List T :=
  dst.take start ++ src.take (dst.length - start) ++ dst.drop (start + src.length)

/-- The remainder `a % b` of Go on `int`. -/
def rem (a b : Int) : Except Panic Int :=
  if b = 0 then Except.error Panic.divideByZero else Except.ok (Int.tmod a b)

/-- `Deque.Len`. -/
def Len {T : Type} (d : Deque T) : Int := d.count

/-- `Deque.grow`. -/
def grow {T : Type} [Inhabited T] (d : Deque T) : Except Panic (Deque T) := do
  let newCap := len d.buf
  let newCap := if newCap = 0 then 1 else newCap * 2
  let newBuf : List T := List.replicate newCap.toNat default
  let newBuf ←
    if d.count > 0 then
      if d.head < d.tail then do
        let src ← slice d.buf d.head d.tail
        pure (copyAt newBuf 0 src)
      else do
        let src ← slice d.buf d.head (len d.buf)
        let n := min newBuf.length src.length
        let newBuf := copyAt newBuf 0 src
        let src ← slice d.buf 0 d.tail
        pure (copyAt newBuf n src)
    else pure newBuf
  pure { buf := newBuf, head := 0, tail := d.count, count := d.count }

/-- `Deque.PushBack`. -/
def PushBack {T : Type} [Inhabited T] (d : Deque T) (v : T) : Except Panic (Deque T) := do
  let d ← if d.count = len d.buf then grow d else pure d
  let buf ← assign d.buf d.tail v
  let tail := d.tail + 1
  let tail := if tail = len buf then 0 else tail
  pure { buf := buf, head := d.head, tail := tail, count := d.count + 1 }

/-- `Deque.PopFront`: the removed element and the deque after the call. -/
def PopFront {T : Type} [Inhabited T] (d : Deque T) : Except Panic (T × Deque T) := do
  if d.count = 0 then
    throw (Panic.message "queue: PopFront called on empty deque")
  let v ← index d.buf d.head
  let buf ← assign d.buf d.head default
  let head := d.head + 1
  let head := if head = len buf then 0 else head
  pure (v, { buf := buf, head := head, tail := d.tail, count := d.count - 1 })

/-- `Deque.PopBack`: the removed element and the deque after the call. -/
def PopBack {T : Type} [Inhabited T] (d : Deque T) : Except Panic (T × Deque T) := do
  if d.count = 0 then
    throw (Panic.message "queue: PopBack called on empty deque")
  let tail := d.tail - 1
  let tail := if tail < 0 then len d.buf - 1 else tail
  let v ← index d.buf tail
  let buf ← assign d.buf tail default
  pure (v, { buf := buf, head := d.head, tail := tail, count := d.count - 1 })

/-- `Deque.Front`. -/
def Front {T : Type} (d : Deque T) : Except Panic T := do
  if d.count = 0 then
    throw (Panic.message "queue: Front called on empty deque")
  index d.buf d.head

/-- `Deque.Back`. -/
def Back {T : Type} (d : Deque T) : Except Panic T := do
  if d.count = 0 then
    throw (Panic.message "queue: Back called on empty deque")
  let idx := d.tail - 1
  let idx := if idx < 0 then len d.buf - 1 else idx
  index d.buf idx

/-- The body of the loop of `Deque.Clear` for the loop variable `i`. -/
def clearIter {T : Type} [Inhabited T] (head : Int) (buf : List T) (i : Nat) :
    Except Panic (List T) := do
  let idx ← rem (head + (i : Int)) (len buf)
  assign buf idx default

/-- `Deque.Clear`; the loop `for i := 0; i < d.count; i++` runs for
`i = 0, ..., d.count - 1`. -/
def Clear {T : Type} [Inhabited T] (d : Deque T) : Except Panic (Deque T) := do
  if d.count = 0 then
    return d
  let buf ← (List.range d.count.toNat).foldlM (clearIter d.head) d.buf
  pure { buf := buf, head := 0, tail := 0, count := 0 }

/-- `PushBack` of each element of `xs`, in order. -/
def pushAll {T : Type} [Inhabited T] (d : Deque T) : List T → Except Panic (Deque T)
  | [] => pure d
  | x :: xs => do
    let d ← PushBack d x
    pushAll d xs

/-- `n` successive calls of `PopFront`: the values returned, in order, and
the deque after the last call. -/
def popFrontN {T : Type} [Inhabited T] (d : Deque T) : Nat → Except Panic (List T × Deque T)
  | 0 => pure ([], d)
  | n + 1 => do
    let (v, d) ← PopFront d
    let (vs, d) ← popFrontN d n
    pure (v :: vs, d)

/-- The logical sequence of a deque, front to back: the `count` elements
found from `head` on, wrapping around the end of `buf`. -/
def toList {T : Type} [Inhabited T] (d : Deque T) : List T :=
  (List.range d.count.toNat).map fun i => d.buf.getD ((d.head.toNat + i) % d.buf.length) default

/-- The ring-buffer invariant. -/
def Inv {T : Type} (d : Deque T) : Prop :=
  0 ≤ d.count ∧ d.count ≤ len d.buf ∧
  (len d.buf = 0 → d.head = 0 ∧ d.tail = 0 ∧ d.count = 0) ∧
  (0 < len d.buf → 0 ≤ d.head ∧ d.head < len d.buf ∧ 0 ≤ d.tail ∧ d.tail < len d.buf ∧
    d.tail = (d.head + d.count) % len d.buf)

/-- The deques reachable from the zero value, each with the sequence of
elements its history of calls leaves in it (front first): `PushBack(v)` adds
`v` at the back, `PopFront` removes the first element, `PopBack` the last,
`Clear` all of them; `Front` and `Back` change nothing. -/
inductive Holds {T : Type} [Inhabited T] : Deque T → List T → Prop
  | zero : Holds Deque.zero []
  | pushBack {d e : Deque T} {s : List T} (v : T) :
      Holds d s → PushBack d v = Except.ok e → Holds e (s ++ [v])
  | popFront {d e : Deque T} {s : List T} {v : T} :
      Holds d s → PopFront d = Except.ok (v, e) → Holds e s.tail
  | popBack {d e : Deque T} {s : List T} {v : T} :
      Holds d s → PopBack d = Except.ok (v, e) → Holds e s.dropLast
  | clear {d e : Deque T} {s : List T} :
      Holds d s → Clear d = Except.ok e → Holds e []

end queue


/-! ## Proof devices for the reject-after-close pool -/

namespace workerpool

/-- Call predicate: a `Submit` of a non-nil job that returned a nil error. -/
def Call.accepted : Call → Bool
  | .submitReturned (some _) none => true
  | _ => false

/-- The facts that hold in every state reachable from `New`. -/
structure Invariant (s : State) : Prop where
  wg_eq : s.p.wg = (s.workers.countP Worker.live : Int)
  balance : ∀ k, s.calls.count (Call.submitReturned (some k) none) =
    s.p.jobs.buf.count (some k) + s.workers.count (Worker.running k) + s.executed.count k
  total : s.calls.countP Call.accepted =
    s.p.jobs.buf.countP Option.isSome + s.workers.countP Worker.busy + s.executed.length
  drained : 0 < s.workers.count Worker.exited → s.p.jobs.closed = true ∧ s.p.jobs.buf = []
  workers_len : s.workers.length = s.p.jobs.cap ∧ 0 < s.p.jobs.cap
  room : s.p.jobs.buf.length ≤ s.p.jobs.cap
  in_once : s.calls.count Call.stopCloseStop + s.calls.count Call.stopCloseJobs +
    s.calls.count Call.stopWait = if s.p.once = Once.active then 1 else 0
  stop_closed : s.p.stopCh.closed = true ↔
    s.p.once ≠ Once.fresh ∧ s.calls.count Call.stopCloseStop = 0
  jobs_closed : s.p.jobs.closed = true ↔
    s.p.once ≠ Once.fresh ∧ s.calls.count Call.stopCloseStop = 0 ∧
      s.calls.count Call.stopCloseJobs = 0
  done_wg : s.p.once = Once.done → s.p.wg = 0
  returned_done : 0 < s.calls.count Call.stopReturned → s.p.once = Once.done
  no_stop_panic : s.calls.count Call.stopPanicked = 0

/-- The transitions of `step`, one constructor per branch of `Submit`,
`StopWait` and `workerStep`, with the goroutine table split around the
goroutine that moves. -/
inductive Step : State → State → Prop
  | submit (s : State) (job : Func) : Step s { s with calls := s.calls ++ [Call.submitEntry job] }
  | stopWait (s : State) : Step s { s with calls := s.calls ++ [Call.stopEntry] }
  | nilJob (p : Pool) (ws : List Worker) (pre post : List Call) (ex : List Nat) :
      Step ⟨p, ws, pre ++ Call.submitEntry none :: post, ex⟩
        ⟨p, ws, pre ++ Call.submitReturned none none :: post, ex⟩
  | nonNilJob (p : Pool) (ws : List Worker) (pre post : List Call) (ex : List Nat) (k : Nat) :
      Step ⟨p, ws, pre ++ Call.submitEntry (some k) :: post, ex⟩
        ⟨p, ws, pre ++ Call.submitFirst (some k) :: post, ex⟩
  | firstStop (p : Pool) (ws : List Worker) (pre post : List Call) (ex : List Nat) (job : Func) :
      p.stopCh.closed = true →
      Step ⟨p, ws, pre ++ Call.submitFirst job :: post, ex⟩
        ⟨p, ws, pre ++ Call.submitReturned job (some Err.ErrPoolClosed) :: post, ex⟩
  | firstDefault (p : Pool) (ws : List Worker) (pre post : List Call) (ex : List Nat)
      (job : Func) :
      p.stopCh.closed = false →
      Step ⟨p, ws, pre ++ Call.submitFirst job :: post, ex⟩
        ⟨p, ws, pre ++ Call.submitSecond job :: post, ex⟩
  | sendPanic (p : Pool) (ws : List Worker) (pre post : List Call) (ex : List Nat) (job : Func) :
      p.jobs.closed = true →
      Step ⟨p, ws, pre ++ Call.submitSecond job :: post, ex⟩
        ⟨p, ws, pre ++ Call.submitPanicked job :: post, ex⟩
  | send (p : Pool) (ws : List Worker) (pre post : List Call) (ex : List Nat) (job : Func) :
      p.jobs.closed = false → p.jobs.buf.length < p.jobs.cap →
      Step ⟨p, ws, pre ++ Call.submitSecond job :: post, ex⟩
        ⟨{ p with jobs := { p.jobs with buf := p.jobs.buf ++ [job] } }, ws,
          pre ++ Call.submitReturned job none :: post, ex⟩
  | secondStop (p : Pool) (ws : List Worker) (pre post : List Call) (ex : List Nat)
      (job : Func) :
      p.stopCh.closed = true →
      Step ⟨p, ws, pre ++ Call.submitSecond job :: post, ex⟩
        ⟨p, ws, pre ++ Call.submitReturned job (some Err.ErrPoolClosed) :: post, ex⟩
  | onceFirst (p : Pool) (ws : List Worker) (pre post : List Call) (ex : List Nat) :
      p.once = Once.fresh →
      Step ⟨p, ws, pre ++ Call.stopEntry :: post, ex⟩
        ⟨{ p with once := Once.active }, ws, pre ++ Call.stopCloseStop :: post, ex⟩
  | onceLater (p : Pool) (ws : List Worker) (pre post : List Call) (ex : List Nat) :
      p.once = Once.done →
      Step ⟨p, ws, pre ++ Call.stopEntry :: post, ex⟩
        ⟨p, ws, pre ++ Call.stopReturned :: post, ex⟩
  | closeStopPanic (p : Pool) (ws : List Worker) (pre post : List Call) (ex : List Nat) :
      p.stopCh.closed = true →
      Step ⟨p, ws, pre ++ Call.stopCloseStop :: post, ex⟩
        ⟨p, ws, pre ++ Call.stopPanicked :: post, ex⟩
  | closeStop (p : Pool) (ws : List Worker) (pre post : List Call) (ex : List Nat) :
      p.stopCh.closed = false →
      Step ⟨p, ws, pre ++ Call.stopCloseStop :: post, ex⟩
        ⟨{ p with stopCh := { p.stopCh with closed := true } }, ws,
          pre ++ Call.stopCloseJobs :: post, ex⟩
  | closeJobsPanic (p : Pool) (ws : List Worker) (pre post : List Call) (ex : List Nat) :
      p.jobs.closed = true →
      Step ⟨p, ws, pre ++ Call.stopCloseJobs :: post, ex⟩
        ⟨p, ws, pre ++ Call.stopPanicked :: post, ex⟩
  | closeJobs (p : Pool) (ws : List Worker) (pre post : List Call) (ex : List Nat) :
      p.jobs.closed = false →
      Step ⟨p, ws, pre ++ Call.stopCloseJobs :: post, ex⟩
        ⟨{ p with jobs := { p.jobs with closed := true } }, ws,
          pre ++ Call.stopWait :: post, ex⟩
  | waitDone (p : Pool) (ws : List Worker) (pre post : List Call) (ex : List Nat) :
      p.wg = 0 →
      Step ⟨p, ws, pre ++ Call.stopWait :: post, ex⟩
        ⟨{ p with once := Once.done }, ws, pre ++ Call.stopReturned :: post, ex⟩
  | receive (p : Pool) (pre post : List Worker) (cs : List Call) (ex : List Nat) (k : Nat)
      (rest : List Func) :
      p.jobs.buf = some k :: rest →
      Step ⟨p, pre ++ Worker.ranging :: post, cs, ex⟩
        ⟨{ p with jobs := { p.jobs with buf := rest } }, pre ++ Worker.running k :: post, cs, ex⟩
  | receiveNil (p : Pool) (pre post : List Worker) (cs : List Call) (ex : List Nat)
      (rest : List Func) :
      p.jobs.buf = none :: rest →
      Step ⟨p, pre ++ Worker.ranging :: post, cs, ex⟩
        ⟨{ p with jobs := { p.jobs with buf := rest } }, pre ++ Worker.ranging :: post, cs, ex⟩
  | leave (p : Pool) (pre post : List Worker) (cs : List Call) (ex : List Nat) :
      p.jobs.buf = [] → p.jobs.closed = true →
      Step ⟨p, pre ++ Worker.ranging :: post, cs, ex⟩
        ⟨{ p with wg := p.wg - 1 }, pre ++ Worker.exited :: post, cs, ex⟩
  | finish (p : Pool) (pre post : List Worker) (cs : List Call) (ex : List Nat) (k : Nat) :
      Step ⟨p, pre ++ Worker.running k :: post, cs, ex⟩
        ⟨p, pre ++ Worker.ranging :: post, cs, ex ++ [k]⟩

end workerpool

/-! ## Proof devices for the blocking-always pool -/

namespace serverpool

/-- The facts that hold in every state reachable from `New`. -/
structure Invariant (s : State) : Prop where
  in_once : s.calls.count Call.stopClose + s.calls.count Call.stopWait =
    if s.wp.once = Once.active then 1 else 0
  tasks_closed : s.wp.tasks.closed = true ↔
    s.wp.once ≠ Once.fresh ∧ s.calls.count Call.stopClose = 0
  returned_done : 0 < s.calls.count Call.stopReturned ↔ s.wp.once = Once.done
  no_stop_panic : s.calls.count Call.stopPanicked = 0

/-- The transitions of `step`, one constructor per branch of `Submit`,
`StopWait` and `workerStep`, with the goroutine table split around the
goroutine that moves. -/
inductive Step : State → State → Prop
  | submit (s : State) (task : Func) :
      Step s { s with calls := s.calls ++ [Call.submitEntry task] }
  | stopWait (s : State) : Step s { s with calls := s.calls ++ [Call.stopEntry] }
  | nilTask (wp : WorkerPool) (ws : List Worker) (pre post : List Call) (ex : List Nat) :
      Step ⟨wp, ws, pre ++ Call.submitEntry none :: post, ex⟩
        ⟨wp, ws, pre ++ Call.submitReturned none :: post, ex⟩
  | nonNilTask (wp : WorkerPool) (ws : List Worker) (pre post : List Call) (ex : List Nat)
      (k : Nat) :
      Step ⟨wp, ws, pre ++ Call.submitEntry (some k) :: post, ex⟩
        ⟨wp, ws, pre ++ Call.submitSend (some k) :: post, ex⟩
  | sendPanic (wp : WorkerPool) (ws : List Worker) (pre post : List Call) (ex : List Nat)
      (task : Func) :
      wp.tasks.closed = true →
      Step ⟨wp, ws, pre ++ Call.submitSend task :: post, ex⟩
        ⟨wp, ws, pre ++ Call.submitPanicked task :: post, ex⟩
  | send (wp : WorkerPool) (ws : List Worker) (pre post : List Call) (ex : List Nat)
      (task : Func) :
      wp.tasks.closed = false → wp.tasks.buf.length < wp.tasks.cap →
      Step ⟨wp, ws, pre ++ Call.submitSend task :: post, ex⟩
        ⟨{ wp with tasks := { wp.tasks with buf := wp.tasks.buf ++ [task] } }, ws,
          pre ++ Call.submitReturned task :: post, ex⟩
  | onceFirst (wp : WorkerPool) (ws : List Worker) (pre post : List Call) (ex : List Nat) :
      wp.once = Once.fresh →
      Step ⟨wp, ws, pre ++ Call.stopEntry :: post, ex⟩
        ⟨{ wp with once := Once.active }, ws, pre ++ Call.stopClose :: post, ex⟩
  | onceLater (wp : WorkerPool) (ws : List Worker) (pre post : List Call) (ex : List Nat) :
      wp.once = Once.done →
      Step ⟨wp, ws, pre ++ Call.stopEntry :: post, ex⟩
        ⟨wp, ws, pre ++ Call.stopReturned :: post, ex⟩
  | closePanic (wp : WorkerPool) (ws : List Worker) (pre post : List Call) (ex : List Nat) :
      wp.tasks.closed = true →
      Step ⟨wp, ws, pre ++ Call.stopClose :: post, ex⟩
        ⟨wp, ws, pre ++ Call.stopPanicked :: post, ex⟩
  | close (wp : WorkerPool) (ws : List Worker) (pre post : List Call) (ex : List Nat) :
      wp.tasks.closed = false →
      Step ⟨wp, ws, pre ++ Call.stopClose :: post, ex⟩
        ⟨{ wp with tasks := { wp.tasks with closed := true } }, ws,
          pre ++ Call.stopWait :: post, ex⟩
  | waitDone (wp : WorkerPool) (ws : List Worker) (pre post : List Call) (ex : List Nat) :
      wp.wg = 0 →
      Step ⟨wp, ws, pre ++ Call.stopWait :: post, ex⟩
        ⟨{ wp with once := Once.done }, ws, pre ++ Call.stopReturned :: post, ex⟩
  | receive (wp : WorkerPool) (pre post : List Worker) (cs : List Call) (ex : List Nat)
      (k : Nat) (rest : List Func) :
      wp.tasks.buf = some k :: rest →
      Step ⟨wp, pre ++ Worker.ranging :: post, cs, ex⟩
        ⟨{ wp with tasks := { wp.tasks with buf := rest } }, pre ++ Worker.running k :: post,
          cs, ex⟩
  | receiveNil (wp : WorkerPool) (pre post : List Worker) (cs : List Call) (ex : List Nat)
      (rest : List Func) :
      wp.tasks.buf = none :: rest →
      Step ⟨wp, pre ++ Worker.ranging :: post, cs, ex⟩
        ⟨{ wp with tasks := { wp.tasks with buf := rest } }, pre ++ Worker.ranging :: post,
          cs, ex⟩
  | leave (wp : WorkerPool) (pre post : List Worker) (cs : List Call) (ex : List Nat) :
      wp.tasks.buf = [] → wp.tasks.closed = true →
      Step ⟨wp, pre ++ Worker.ranging :: post, cs, ex⟩
        ⟨{ wp with wg := wp.wg - 1 }, pre ++ Worker.exited :: post, cs, ex⟩
  | finish (wp : WorkerPool) (pre post : List Worker) (cs : List Call) (ex : List Nat)
      (k : Nat) :
      Step ⟨wp, pre ++ Worker.running k :: post, cs, ex⟩
        ⟨wp, pre ++ Worker.ranging :: post, cs, ex ++ [k]⟩

end serverpool

/-! ## Schedules used as concrete runs -/

namespace workerpool

/-- A run on `New(1)`: job 10 is submitted and started, job 11 is submitted
and still queued when `StopWait` closes both channels; the worker then
finishes 10, runs 11 and leaves, and `StopWait` returns. -/
def drainRun : List Action :=
  [Action.submit (some 10), Action.call 0 SelectCase.send, Action.call 0 SelectCase.send,
    Action.call 0 SelectCase.send, Action.worker 0,
    Action.submit (some 11), Action.call 1 SelectCase.send, Action.call 1 SelectCase.send,
    Action.call 1 SelectCase.send,
    Action.stopWait, Action.call 2 SelectCase.send, Action.call 2 SelectCase.send,
    Action.call 2 SelectCase.send,
    Action.worker 0, Action.worker 0, Action.worker 0, Action.worker 0,
    Action.call 2 SelectCase.send]

/-- The state `drainRun` ends in. -/
def drained : State :=
  { p := { jobs := { buf := [], cap := 1, closed := true }
           stopCh := { buf := [], cap := 0, closed := true }
           wg := 0
           once := Once.done }
    workers := [Worker.exited]
    calls := [Call.submitReturned (some 10) none, Call.submitReturned (some 11) none,
      Call.stopReturned]
    executed := [10, 11] }

end workerpool

namespace workerpool

/-- Call predicate: the call has returned or panicked. -/
def Call.finished : Call → Bool
  | .submitReturned _ _ => true
  | .submitPanicked _ => true
  | .stopReturned => true
  | .stopPanicked => true
  | _ => false

/-- Call predicate: a `Submit` before its nil check. -/
def Call.atEntry : Call → Bool
  | .submitEntry _ => true
  | _ => false

/-- Call predicate: a `Submit` at its first `select`. -/
def Call.atFirst : Call → Bool
  | .submitFirst _ => true
  | _ => false

/-- Call predicate: a `Submit` at its second `select`. -/
def Call.atSecond : Call → Bool
  | .submitSecond _ => true
  | _ => false

/-- Call predicate: a `Submit` that panicked. -/
def Call.crashed : Call → Bool
  | .submitPanicked _ => true
  | _ => false

/-- Call predicate: a `Submit` that returned a non-nil error. -/
def Call.failed : Call → Bool
  | .submitReturned _ (some _) => true
  | _ => false

/-- The step function for a single client goroutine that makes its calls one
after the other: a new call is made only when every earlier call has returned
or panicked. Workers and the call in flight step as in `step`. -/
def stepSeq (s : State) (a : Action) : Option State :=
  match a with
  | Action.submit _ => if s.calls.all Call.finished then step s a else none
  | Action.stopWait => if s.calls.all Call.finished then step s a else none
  | _ => step s a

/-- Run a schedule of a sequential client. -/
def execSeq (s : State) : List Action → Option State
  | [] => some s
  | a :: as => (stepSeq s a).bind fun t => execSeq t as

/-- The number of calls in flight. -/
def inFlight (cs : List Call) : Nat :=
  cs.countP Call.atEntry + cs.countP Call.atFirst + cs.countP Call.atSecond +
    cs.count Call.stopEntry + cs.count Call.stopCloseStop + cs.count Call.stopCloseJobs +
    cs.count Call.stopWait

/-- The further facts that hold in every state a sequential client reaches. -/
structure SeqInvariant (s : State) : Prop where
  one_call : inFlight s.calls ≤ 1
  second_open : 0 < s.calls.countP Call.atSecond → s.p.stopCh.closed = false
  no_crash : s.calls.countP Call.crashed = 0
  failed_closed : 0 < s.calls.countP Call.failed → s.p.stopCh.closed = true

/-- A sequential run: `Submit(1)`, `StopWait()` (the worker runs the job and
leaves), then `Submit(2)`, a second `StopWait()` and `Submit(nil)`. -/
def seqRun : List Action :=
  [Action.submit (some 1), Action.call 0 SelectCase.send, Action.call 0 SelectCase.send,
    Action.call 0 SelectCase.send,
    Action.stopWait, Action.call 1 SelectCase.send, Action.call 1 SelectCase.send,
    Action.call 1 SelectCase.send,
    Action.worker 0, Action.worker 0, Action.worker 0, Action.call 1 SelectCase.send,
    Action.submit (some 2), Action.call 2 SelectCase.send, Action.call 2 SelectCase.send,
    Action.stopWait, Action.call 3 SelectCase.send,
    Action.submit none, Action.call 4 SelectCase.send]

/-- The state `seqRun` ends in. -/
def seqEnd : State :=
  { p := { jobs := { buf := [], cap := 1, closed := true }
           stopCh := { buf := [], cap := 0, closed := true }
           wg := 0
           once := Once.done }
    workers := [Worker.exited]
    calls := [Call.submitReturned (some 1) none, Call.stopReturned,
      Call.submitReturned (some 2) (some Err.ErrPoolClosed), Call.stopReturned,
      Call.submitReturned none none]
    executed := [1] }

end workerpool

namespace serverpool

/-- Call predicate: the call has returned or panicked. -/
def Call.finished : Call → Bool
  | .submitReturned _ => true
  | .submitPanicked _ => true
  | .stopReturned => true
  | .stopPanicked => true
  | _ => false

/-- Call predicate: a `Submit` of the nil task before its nil check. -/
def Call.atEntryNil : Call → Bool
  | .submitEntry none => true
  | _ => false

/-- Call predicate: a `Submit` of a non-nil task before its nil check. -/
def Call.atEntry : Call → Bool
  | .submitEntry (some _) => true
  | _ => false

/-- Call predicate: a `Submit` at its send. -/
def Call.atSend : Call → Bool
  | .submitSend _ => true
  | _ => false

/-- Call predicate: a `Submit` that panicked. -/
def Call.crashed : Call → Bool
  | .submitPanicked _ => true
  | _ => false

/-- The step function for a single client goroutine that makes its calls one
after the other and keeps the precondition of the blocking-always policy: a
new call is made only when every earlier call has returned or panicked, and
`Submit` of a non-nil task only when no `StopWait` has been called before. -/
def stepSeq (s : State) (a : Action) : Option State :=
  match a with
  | Action.submit (some k) =>
    if s.calls.all Call.finished ∧ Call.stopReturned ∉ s.calls then
      step s (Action.submit (some k))
    else none
  | Action.submit none => if s.calls.all Call.finished then step s a else none
  | Action.stopWait => if s.calls.all Call.finished then step s a else none
  | _ => step s a

/-- Run a schedule of a sequential client. -/
def execSeq (s : State) : List Action → Option State
  | [] => some s
  | a :: as => (stepSeq s a).bind fun t => execSeq t as

/-- The number of calls in flight. -/
def inFlight (cs : List Call) : Nat :=
  cs.countP Call.atEntryNil + cs.countP Call.atEntry + cs.countP Call.atSend +
    cs.count Call.stopEntry + cs.count Call.stopClose + cs.count Call.stopWait

/-- The further facts that hold in every state a sequential client reaches. -/
structure SeqInvariant (s : State) : Prop where
  one_call : inFlight s.calls ≤ 1
  send_open : 0 < s.calls.countP Call.atEntry + s.calls.countP Call.atSend →
    s.wp.once = Once.fresh
  no_crash : s.calls.countP Call.crashed = 0

/-- A sequential run: `Submit(1)`, `StopWait()` (the worker runs the task and
leaves), a second `StopWait()` and `Submit(nil)`. -/
def seqRun : List Action :=
  [Action.submit (some 1), Action.call 0, Action.call 0,
    Action.stopWait, Action.call 1, Action.call 1,
    Action.worker 0, Action.worker 0, Action.worker 0, Action.call 1,
    Action.stopWait, Action.call 2,
    Action.submit none, Action.call 3]

/-- The state `seqRun` ends in. -/
def seqEnd : State :=
  { wp := { tasks := { buf := [], cap := 1, closed := true }
            once := Once.done
            wg := 0 }
    workers := [Worker.exited]
    calls := [Call.submitReturned (some 1), Call.stopReturned, Call.stopReturned,
      Call.submitReturned none]
    executed := [1] }

/-- The run that breaks the blocking-always pool: `StopWait()` returns, then
`Submit(7)` is called. -/
def lateSubmit : List Action :=
  [Action.stopWait, Action.call 0, Action.call 0, Action.worker 0, Action.call 0,
    Action.submit (some 7), Action.call 1, Action.call 1]

end serverpool

namespace serverpool

/-- A run on `New(1)`: task 10 is submitted and started, task 11 is submitted
and still queued when `StopWait` closes `tasks`; the worker then finishes 10,
runs 11 and leaves, and `StopWait` returns. -/
def drainRun : List Action :=
  [Action.submit (some 10), Action.call 0, Action.call 0, Action.worker 0,
    Action.submit (some 11), Action.call 1, Action.call 1,
    Action.stopWait, Action.call 2, Action.call 2,
    Action.worker 0, Action.worker 0, Action.worker 0, Action.worker 0,
    Action.call 2]

/-- The state `drainRun` ends in. -/
def drained : State :=
  { wp := { tasks := { buf := [], cap := 1, closed := true }
            once := Once.done
            wg := 0 }
    workers := [Worker.exited]
    calls := [Call.submitReturned (some 10), Call.submitReturned (some 11), Call.stopReturned]
    executed := [10, 11] }

end serverpool

namespace workerpool

/-- The race of `Submit(7)` with `StopWait()` on `New(1)`, up to the second
`select` of `Submit`: `Submit` passes its nil check and its first `select`
(`stopCh` is still open, so `default` is taken), then `StopWait` enters the
once function and closes `stopCh` and `jobs`. -/
def raceRun : List Action :=
  [Action.submit (some 7), Action.call 0 SelectCase.send, Action.call 0 SelectCase.send,
    Action.stopWait, Action.call 1 SelectCase.send, Action.call 1 SelectCase.send,
    Action.call 1 SelectCase.send]

/-- The state `raceRun` ends in: both channels closed, `Submit` at its second
`select`, `StopWait` waiting for the worker. -/
def raced : State :=
  { p := { jobs := { buf := [], cap := 1, closed := true }
           stopCh := { buf := [], cap := 0, closed := true }
           wg := 1
           once := Once.active }
    workers := [Worker.ranging]
    calls := [Call.submitSecond (some 7), Call.stopWait]
    executed := [] }

/-- A run on `New(1)`: job 1 is submitted and started (it does not finish),
then job 2 is submitted. -/
def eagerRun : List Action :=
  [Action.submit (some 1), Action.call 0 SelectCase.send, Action.call 0 SelectCase.send,
    Action.call 0 SelectCase.send, Action.worker 0,
    Action.submit (some 2), Action.call 1 SelectCase.send, Action.call 1 SelectCase.send,
    Action.call 1 SelectCase.send]

/-- The state `eagerRun` ends in: job 1 running, job 2 queued, both calls of
`Submit` returned with a nil error. -/
def eager : State :=
  { p := { jobs := { buf := [some 2], cap := 1, closed := false }
           stopCh := { buf := [], cap := 0, closed := false }
           wg := 1
           once := Once.fresh }
    workers := [Worker.running 1]
    calls := [Call.submitReturned (some 1) none, Call.submitReturned (some 2) none]
    executed := [] }

end workerpool

/-! ## The partition pool (`internal/pool/partition.go`)

Partitions and pools are heap objects: a reference is the index of the object
in the heap, `none` is the nil pointer. A result `none` of an operation means
that the operation does not return (a panic, or a reference that is not in
the heap, which Go cannot produce). A nil byte slice is the empty list.

The library types follow the Go standard library. `bytes.Buffer` holds a
slice `buf` and a read offset `off`; the unread portion is `buf[off:]`. When
it has to allocate, the allocator of the call (`Alloc`, chosen by the caller
of the model) decides: the new capacity is the requested minimum plus its
`slack`, and when that exceeds its `limit` the buffer cannot grow and the
call panics with `bytes.ErrTooLarge`. `sync.Pool` is the list of the cached
objects; `Get` returns any one of them or the result of `New`, as the caller
of the model chooses, and the pool may drop a cached object at any time. -/

namespace pool

/-- The error values the package returns: the four `errors.New` messages,
`io.ErrShortWrite`, and `io.EOF` from `bytes.Buffer.Read`. -/
inductive Error
  | nilPartition
  | useAfterReset
  | noBackingPool
  | negativeOffset
  | ErrShortWrite
  | EOF
deriving DecidableEq, Repr

/-- The library type `bytes.Buffer`: `buf[0:len]`, the offset `off` of the
next read, and `cap(buf)`. -/
structure Buffer where
  buf : List Nat
  off : Nat
  cap : Nat
deriving DecidableEq, Repr

/-- What the runtime does for an allocation made during a call: it cannot
provide storage of more than `limit` bytes, and it rounds a request up by
`slack` bytes. On a 64-bit platform `limit` is at most the runtime's
`maxAlloc`, which is `2^48` on linux/amd64. -/
structure Alloc where
  limit : Nat
  slack : Nat
deriving DecidableEq, Repr

/-- The zero value of `bytes.Buffer`. -/
def Buffer.zero : Buffer := { buf := [], off := 0, cap := 0 }

/-- `Buffer.Len`: `len(b.buf) - b.off`. -/
def Buffer.Len (b : Buffer) : Int := (b.buf.length : Int) - (b.off : Int)

/-- `Buffer.Bytes`: `b.buf[b.off:]`. -/
def Buffer.Bytes (b : Buffer) : List Nat := b.buf.drop b.off

/-- The expression `cap(b.Bytes())`: the capacity of `b.buf[b.off:]`. -/
def Buffer.capBytes (b : Buffer) : Int := (b.cap : Int) - (b.off : Int)

/-- `Buffer.Reset`: `b.buf = b.buf[:0]; b.off = 0`; the storage is kept. -/
def Buffer.Reset (b : Buffer) : Buffer := { buf := [], off := 0, cap := b.cap }

/-- The internal `Buffer.grow(n)` up to the final reslice: afterwards `n` more
bytes fit behind the unread portion. An empty buffer is reset first; if there
is room nothing else moves; if the unread portion is small it slides to the
front of the same storage; otherwise new storage of at least
`len(b.buf) + n` bytes is allocated. `none` is the panic `ErrTooLarge`: the
new storage cannot be allocated. -/
def Buffer.grow (b : Buffer) (n : Nat) (a : Alloc) : Option Buffer :=
  let b := if b.buf.length - b.off = 0 ∧ b.off ≠ 0 then b.Reset else b
  if n ≤ b.cap - b.buf.length then some b
  else if n ≤ b.cap / 2 - (b.buf.length - b.off) then
    some { buf := b.buf.drop b.off, off := 0, cap := b.cap }
  else if a.limit < b.buf.length + n + a.slack then none
  else some { buf := b.buf.drop b.off, off := 0, cap := b.buf.length + n + a.slack }

/-- `Buffer.Grow(n)`: panics for a negative `n`, and with `ErrTooLarge` when
the buffer cannot grow. -/
def Buffer.Grow (b : Buffer) (n : Int) (a : Alloc) : Option Buffer :=
  if n < 0 then none else b.grow n.toNat a

/-- `Buffer.Write(p)`: appends `p`, growing the buffer as needed; the result
is the buffer and `len(p)` (the error is always nil). `none` is the panic
`ErrTooLarge` of `grow`. -/
def Buffer.Write (b : Buffer) (p : List Nat) (a : Alloc) : Option (Buffer × Int) :=
  let b := if p.length ≤ b.cap - b.buf.length then some b else b.grow p.length a
  b.map fun b => ({ b with buf := b.buf ++ p }, (p.length : Int))

/-- `Buffer.Read(p)` for a slice `p` of length `n`: the buffer, the bytes
copied into `p` (their number is the `int` result) and the error. -/
def Buffer.Read (b : Buffer) (n : Nat) : Buffer × List Nat × Option Error :=
  if b.buf.length ≤ b.off then
    if n = 0 then (b.Reset, [], none) else (b.Reset, [], some Error.EOF)
  else
    let got := (b.buf.drop b.off).take n
    ({ b with off := b.off + got.length }, got, none)

/-- The struct `partition`: `pool *PartitionPool`, `buf bytes.Buffer`,
`released bool`. -/
structure partition where
  pool : Option Nat
  buf : Buffer
  released : Bool
deriving DecidableEq, Repr

/-- The struct `PartitionPool`: `size int` and `pool sync.Pool` (the
references of the cached partitions; its `New` is `poolNew`). -/
structure PartitionPool where
  size : Int
  pool : List Nat
deriving DecidableEq, Repr

/-- The heap: the pools and the partitions allocated so far. -/
structure Heap where
  pools : List PartitionPool
  parts : List partition
deriving DecidableEq, Repr

/-- The heap before any allocation. -/
def Heap.empty : Heap := { pools := [], parts := [] }

/-- `NewPartitionPool(size)`: the reference of the new pool and the heap. -/
def NewPartitionPool (h : Heap) (size : Int) : Nat × Heap :=
  let size := if size < 0 then 0 else size
  (h.pools.length, { h with pools := h.pools ++ [{ size := size, pool := [] }] })

/-- The function `p.pool.New` set by `NewPartitionPool` (lines 31-37), for the
pool `p` of size `size`: the reference of the new partition and the heap. -/
def poolNew (h : Heap) (p : Nat) (size : Int) (a : Alloc) : Option (Nat × Heap) :=
  let part : partition := { pool := some p, buf := Buffer.zero, released := false }
  let part : Option partition :=
    if size > 0 then (part.buf.Grow size a).map fun b => { part with buf := b }
    else some part
  part.map fun part => (h.parts.length, { h with parts := h.parts ++ [part] })

/-- `sync.Pool.Get` on the pool `p`: with `choice = some i` the `i`-th cached
partition is taken out of the cache, otherwise `New` runs. -/
def poolGet (h : Heap) (p : Nat) (choice : Option Nat) (a : Alloc) : Option (Nat × Heap) :=
  match h.pools[p]? with
  | none => none
  | some P =>
    match choice.bind fun i => P.pool[i]?.map fun id => (i, id) with
    | some (i, id) =>
      some (id, { h with pools := h.pools.set p { P with pool := P.pool.eraseIdx i } })
    | none => poolNew h p P.size a

/-- `sync.Pool.Put` on the pool `p`. -/
def poolPut (h : Heap) (p : Nat) (id : Nat) : Option Heap :=
  match h.pools[p]? with
  | none => none
  | some P => some { h with pools := h.pools.set p { P with pool := id :: P.pool } }

/-- `PartitionPool.get`: the reference of the partition and the heap. -/
def get (h : Heap) (p : Nat) (choice : Option Nat) (a : Alloc) : Option (Nat × Heap) :=
  match h.pools[p]? with
  | none => none
  | some P =>
    match poolGet h p choice a with
    | none => none
    | some (id, h) =>
      match h.parts[id]? with
      | none => none
      | some part =>
        let part := { part with pool := some p, released := false, buf := part.buf.Reset }
        let part : Option partition :=
          if P.size > 0 then
            let currentCap := part.buf.capBytes
            if currentCap < P.size then
              (part.buf.Grow (P.size - currentCap) a).map fun b => { part with buf := b }
            else some part
          else some part
        part.map fun part => (id, { h with parts := h.parts.set id part })

/-- `NewPartition(p)`: nil for the nil pool, else `p.get()`. -/
def NewPartition (h : Heap) (p : Option Nat) (choice : Option Nat) (a : Alloc) :
    Option (Option Nat × Heap) :=
  match p with
  | none => some (none, h)
  | some p => (get h p choice a).map fun r => (some r.1, r.2)

/-- `partition.ensureActive`: `none` is the nil error. The first argument is
the partition behind the receiver, `none` for the nil receiver. -/
def ensureActive (p : Option partition) : Option Error :=
  match p with
  | none => some Error.nilPartition
  | some part =>
    if part.released then some Error.useAfterReset
    else if part.pool = none then some Error.noBackingPool
    else none

/-- The partition behind a receiver: `some none` for the nil receiver,
`none` for a reference that is not in the heap. -/
def deref (h : Heap) (p : Option Nat) : Option (Option partition) :=
  match p with
  | none => some none
  | some id => (h.parts[id]?).map some

/-- Store a partition back at its place in the heap. -/
def store (h : Heap) (p : Option Nat) (part : partition) : Heap :=
  match p with
  | none => h
  | some id => { h with parts := h.parts.set id part }

/-- `partition.Read(b)` for a slice `b` of length `n`: the bytes read (their
number is the `int` result), the error and the heap. -/
def Read (h : Heap) (p : Option Nat) (n : Nat) : Option (List Nat × Option Error × Heap) :=
  match deref h p with
  | none => none
  | some part =>
    match ensureActive part, part with
    | some err, _ => some ([], some err, h)
    | none, none => none
    | none, some part =>
      let r := part.buf.Read n
      some (r.2.1, r.2.2, store h p { part with buf := r.1 })

/-- `partition.Write(b)`: the `int` result, the error and the heap; `none`
when `bytes.Buffer.Write` panics. -/
def Write (h : Heap) (p : Option Nat) (b : List Nat) (a : Alloc) :
    Option (Int × Option Error × Heap) :=
  match deref h p with
  | none => none
  | some part =>
    match ensureActive part, part with
    | some err, _ => some (0, some err, h)
    | none, none => none
    | none, some part =>
      match part.buf.Write b a with
      | none => none
      | some r => some (r.2, none, store h p { part with buf := r.1 })

/-- `partition.WriteAt(b, off)`: the `int` result, the error and the heap. -/
def WriteAt (h : Heap) (p : Option Nat) (b : List Nat) (off : Int) :
    Option (Int × Option Error × Heap) :=
  match deref h p with
  | none => none
  | some part =>
    match ensureActive part, part with
    | some err, _ => some (0, some err, h)
    | none, none => none
    | none, some part =>
      if off < 0 then some (0, some Error.negativeOffset, h)
      else if off > part.buf.Len then some (0, some Error.ErrShortWrite, h)
      else
        let data := part.buf.Bytes
        let idx := off
        if idx + (b.length : Int) > (data.length : Int) then
          some (0, some Error.ErrShortWrite, h)
        else
          let data := queue.copyAt data idx.toNat b
          let buf := { part.buf with buf := part.buf.buf.take part.buf.off ++ data }
          some ((b.length : Int), none, store h p { part with buf := buf })

/-- `partition.Len`. -/
def Len (h : Heap) (p : Option Nat) : Option Int :=
  match deref h p with
  | none => none
  | some none => some 0
  | some (some part) => if part.released then some 0 else some part.buf.Len

/-- `partition.Bytes`. -/
def Bytes (h : Heap) (p : Option Nat) : Option (List Nat) :=
  match deref h p with
  | none => none
  | some none => some []
  | some (some part) => if part.released then some [] else some part.buf.Bytes

/-- `partition.Reset`. -/
def Reset (h : Heap) (p : Option Nat) : Option Heap :=
  match deref h p with
  | none => none
  | some none => some h
  | some (some part) =>
    match part.pool with
    | none => some h
    | some q =>
      if part.released then some h
      else
        let part := { part with buf := part.buf.Reset, released := true }
        match p with
        | none => some h
        | some id => poolPut (store h p part) q id

/-- What a program does with the package: make a pool, acquire a partition,
call a method of a partition; and what the runtime may do: drop the `i`-th
cached partition of a pool. -/
inductive Action
  | newPool (size : Int)
  | newPartition (p : Option Nat) (choice : Option Nat) (a : Alloc)
  | read (part : Option Nat) (n : Nat)
  | write (part : Option Nat) (b : List Nat) (a : Alloc)
  | writeAt (part : Option Nat) (b : List Nat) (off : Int)
  | reset (part : Option Nat)
  | drop (p i : Nat)
deriving DecidableEq, Repr

/-- The heap after an action; `none` when the action does not return. -/
def step (h : Heap) : Action → Option Heap
  | Action.newPool size => some (NewPartitionPool h size).2
  | Action.newPartition p choice a => (NewPartition h p choice a).map fun r => r.2
  | Action.read part n => (Read h part n).map fun r => r.2.2
  | Action.write part b a => (Write h part b a).map fun r => r.2.2
  | Action.writeAt part b off => (WriteAt h part b off).map fun r => r.2.2
  | Action.reset part => Reset h part
  | Action.drop p i =>
    match h.pools[p]? with
    | none => none
    | some P => some { h with pools := h.pools.set p { P with pool := P.pool.eraseIdx i } }

/-- The heap after a history of actions. -/
def exec (h : Heap) : List Action → Option Heap
  | [] => some h
  | a :: as => (step h a).bind fun t => exec t as

end pool

namespace pool

/-- The buffer invariant: the read offset is within the contents and the
contents are within the storage. -/
def Buffer.WF (b : Buffer) : Prop := b.off ≤ b.buf.length ∧ b.buf.length ≤ b.cap

/-- The heap invariant. Every pool has a non-negative size and a cache
without repetition, whose members are released partitions of that pool;
every partition has a well-formed buffer and belongs to a pool of the heap,
and the storage of its buffer is at least the size of that pool. -/
def WF (h : Heap) : Prop :=
  (∀ (q : Nat) (P : PartitionPool), h.pools[q]? = some P →
    0 ≤ P.size ∧ P.pool.Nodup ∧
      ∀ id ∈ P.pool, ∃ part : partition, h.parts[id]? = some part ∧ part.released = true ∧
        part.pool = some q) ∧
  (∀ (id : Nat) (part : partition), h.parts[id]? = some part →
    part.buf.WF ∧ ∃ (q : Nat) (P : PartitionPool), part.pool = some q ∧
      h.pools[q]? = some P ∧ P.size ≤ (part.buf.cap : Int))

end pool

namespace pool

/-- The pools of `h` are pools of `k`, with the same sizes. -/
def Extends (h k : Heap) : Prop :=
  ∀ (q : Nat) (Q : PartitionPool), h.pools[q]? = some Q →
    ∃ R : PartitionPool, k.pools[q]? = some R ∧ R.size = Q.size

end pool
/-! ## Concrete runs for the deque and the partition pool -/

namespace queue

/-- The deque after `PushBack(1)`, `PushBack(2)`, `PopFront()`, `PushBack(3)`
on the zero value: it holds 2, 3 with the 3 wrapped to slot 0, and its
buffer is full. -/
def wrapped : Deque Nat := { buf := [3, 2], head := 1, tail := 1, count := 2 }

/-- The deque of `TestDequeWrapAndGrow` before `PushBack(6)`: it holds
2, 3, 4, 5 starting at slot 2, and its buffer is full. -/
def wrappedFull : Deque Nat := { buf := [4, 5, 2, 3], head := 2, tail := 2, count := 4 }

end queue

namespace pool

/-- The allocator of a linux/amd64 runtime with memory to spare: `limit` is
the runtime's `maxAlloc`, `2^48`, and no request is rounded up. -/
def amd64 : Alloc := { limit := 281474976710656, slack := 0 }

/-- A program that makes a pool of size 4, acquires a partition and writes
three bytes to it. -/
def heldRun : List Action :=
  [Action.newPool 4, Action.newPartition (some 0) none amd64,
    Action.write (some 0) [1, 2, 3] amd64]

/-- The heap after `heldRun`. -/
def held : Heap :=
  { pools := [{ size := 4, pool := [] }],
    parts := [{ pool := some 0, buf := { buf := [1, 2, 3], off := 0, cap := 4 },
                released := false }] }

/-- The program `heldRun` followed by `Reset` of the partition. -/
def releasedRun : List Action := heldRun ++ [Action.reset (some 0)]

/-- The heap after `releasedRun`. -/
def releasedHeap : Heap :=
  { pools := [{ size := 4, pool := [0] }],
    parts := [{ pool := some 0, buf := { buf := [], off := 0, cap := 4 }, released := true }] }

end pool

/-! ## Invariants of the reject-after-close pool -/

/-- An occupied slot `i` of a goroutine table splits the table around it. -/
theorem split_of_getElem? {α : Type} {l : List α} {i : Nat} {a : α} (h : l[i]? = some a) :
    ∃ pre post, l = pre ++ a :: post ∧ ∀ b, l.set i b = pre ++ b :: post := by
  induction l generalizing i with
  | nil => simp at h
  | cons x xs ih =>
    cases i with
    | zero =>
      simp at h
      exact ⟨[], xs, by simp [h], fun b => by simp⟩
    | succ n =>
      simp at h
      obtain ⟨pre, post, h1, h2⟩ := ih h
      exact ⟨x :: pre, post, by simp [h1], fun b => by simp [h2]⟩

namespace workerpool

theorem startIter_iterate (n : Nat) (s : State) :
    (Nat.iterate startIter n s).p.jobs = s.p.jobs ∧
    (Nat.iterate startIter n s).p.stopCh = s.p.stopCh ∧
    (Nat.iterate startIter n s).p.once = s.p.once ∧
    (Nat.iterate startIter n s).p.wg = s.p.wg + n ∧
    (Nat.iterate startIter n s).workers = s.workers ++ List.replicate n Worker.ranging ∧
    (Nat.iterate startIter n s).calls = s.calls ∧
    (Nat.iterate startIter n s).executed = s.executed := by
  induction n generalizing s with
  | zero => simp
  | succ n ih =>
    obtain ⟨h1, h2, h3, h4, h5, h6, h7⟩ := ih (startIter s)
    simp only [Function.iterate_succ, Function.comp_apply]
    refine ⟨by rw [h1]; rfl, by rw [h2]; rfl, by rw [h3]; rfl, ?_, ?_, by rw [h6]; rfl,
      by rw [h7]; rfl⟩
    · rw [h4]; simp [startIter]; ring
    · rw [h5]; simp [startIter, List.replicate_succ]

theorem New_eq (n : Int) :
    New n = { p := { jobs := { buf := [], cap := (max n 1).toNat, closed := false }
                     stopCh := { buf := [], cap := 0, closed := false }
                     wg := max n 1
                     once := Once.fresh }
              workers := List.replicate (max n 1).toNat Worker.ranging
              calls := []
              executed := [] } := by
  have hm : (if n < 1 then 1 else n) = max n 1 := by
    split <;> omega
  obtain ⟨h1, h2, h3, h4, h5, h6, h7⟩ := startIter_iterate (max n 1).toNat
    { p := { jobs := { buf := [], cap := (max n 1).toNat, closed := false }
             stopCh := { buf := [], cap := 0, closed := false }
             wg := 0
             once := Once.fresh }
      workers := [], calls := [], executed := [] }
  simp only [New, start, hm]
  generalize Nat.iterate startIter _ _ = t at *
  obtain ⟨⟨j, st, w, o⟩, ws, cs, ex⟩ := t
  simp at h1 h2 h3 h4 h5 h6 h7
  subst h1 h2 h3 h4 h5 h6 h7
  simp

theorem Invariant_New (n : Int) : Invariant (New n) := by
  rw [New_eq]
  constructor <;> simp [List.countP_replicate, List.count_replicate, Worker.live, Worker.busy]

theorem Step_of_step {s t : State} {a : Action} (hs : step s a = some t) : Step s t := by
  obtain ⟨p, ws, cs, ex⟩ := s
  cases a with
  | submit job =>
    simp only [step, Option.some.injEq] at hs
    subst hs
    exact Step.submit _ job
  | stopWait =>
    simp only [step, Option.some.injEq] at hs
    subst hs
    exact Step.stopWait _
  | call i c =>
    simp only [step] at hs
    cases hci : cs[i]? with
    | none => simp [Submit, StopWait, hci] at hs
    | some cl =>
      obtain ⟨pre, post, rfl, hset⟩ := split_of_getElem? hci
      cases cl with
      | submitEntry job =>
        cases job with
        | none =>
          simp [Submit, StopWait, hci, hset] at hs
          subst hs
          exact Step.nilJob ..
        | some k =>
          simp [Submit, StopWait, hci, hset] at hs
          subst hs
          exact Step.nonNilJob ..
      | submitFirst job =>
        simp [Submit, StopWait, hci, hset] at hs
        split at hs <;> simp at hs <;> subst hs
        · exact Step.firstStop _ _ _ _ _ _ (by assumption)
        · exact Step.firstDefault _ _ _ _ _ _ (by simpa using ‹¬ _ = true›)
      | submitSecond job =>
        cases c with
        | send =>
          simp [Submit, StopWait, hci, hset] at hs
          split at hs
          · simp at hs; subst hs
            exact Step.sendPanic _ _ _ _ _ _ (by assumption)
          · split at hs
            · simp at hs; subst hs
              exact Step.send _ _ _ _ _ _ (by simpa using ‹¬ _ = true›) (by assumption)
            · simp at hs
        | stop =>
          simp [Submit, StopWait, hci, hset] at hs
          obtain ⟨h1, h2⟩ := hs
          subst h2
          exact Step.secondStop _ _ _ _ _ _ h1
      | submitReturned job err => simp [Submit, StopWait, hci, hset] at hs
      | submitPanicked job => simp [Submit, StopWait, hci, hset] at hs
      | stopEntry =>
        simp [Submit, StopWait, hci, hset] at hs
        split at hs
        · simp at hs; subst hs
          exact Step.onceFirst _ _ _ _ _ (by assumption)
        · simp at hs
        · simp at hs; subst hs
          exact Step.onceLater _ _ _ _ _ (by assumption)
      | stopCloseStop =>
        simp [Submit, StopWait, hci, hset] at hs
        split at hs <;> simp at hs <;> subst hs
        · exact Step.closeStopPanic _ _ _ _ _ (by assumption)
        · exact Step.closeStop _ _ _ _ _ (by simpa using ‹¬ _ = true›)
      | stopCloseJobs =>
        simp [Submit, StopWait, hci, hset] at hs
        split at hs <;> simp at hs <;> subst hs
        · exact Step.closeJobsPanic _ _ _ _ _ (by assumption)
        · exact Step.closeJobs _ _ _ _ _ (by simpa using ‹¬ _ = true›)
      | stopWait =>
        simp [Submit, StopWait, hci, hset] at hs
        obtain ⟨h1, h2⟩ := hs
        subst h2
        exact Step.waitDone _ _ _ _ _ h1
      | stopReturned => simp [Submit, StopWait, hci, hset] at hs
      | stopPanicked => simp [Submit, StopWait, hci, hset] at hs
  | worker i =>
    simp only [step, workerStep] at hs
    cases hwi : ws[i]? with
    | none => simp [hwi] at hs
    | some w =>
      obtain ⟨pre, post, rfl, hset⟩ := split_of_getElem? hwi
      cases w with
      | ranging =>
        simp [hwi, hset] at hs
        split at hs
        · rename_i job rest hb
          split at hs <;> simp at hs <;> subst hs
          · exact Step.receive _ _ _ _ _ _ _ hb
          · exact Step.receiveNil _ _ _ _ _ _ hb
        · rename_i hb
          simp at hs
          obtain ⟨h1, h2⟩ := hs
          subst h2
          exact Step.leave _ _ _ _ _ hb h1
      | running k =>
        simp [hwi, hset] at hs
        subst hs
        exact Step.finish ..
      | exited => simp [hwi] at hs

theorem wg_eq_Step {s t : State} (h1 : s.p.wg = (s.workers.countP Worker.live : Int))
    (hs : Step s t) : t.p.wg = (t.workers.countP Worker.live : Int) := by
  cases hs <;> simp_all [List.countP_append, List.countP_cons, Worker.live]
  omega

theorem balance_Step {s t : State}
    (h2 : ∀ k, s.calls.count (Call.submitReturned (some k) none) =
      s.p.jobs.buf.count (some k) + s.workers.count (Worker.running k) + s.executed.count k)
    (hs : Step s t) (k : Nat) : t.calls.count (Call.submitReturned (some k) none) =
      t.p.jobs.buf.count (some k) + t.workers.count (Worker.running k) + t.executed.count k := by
  have h := h2 k
  clear h2
  cases hs <;> simp_all [List.count_append, List.count_cons]
  all_goals split_ifs <;> omega

theorem total_Step {s t : State}
    (h3 : s.calls.countP Call.accepted =
      s.p.jobs.buf.countP Option.isSome + s.workers.countP Worker.busy + s.executed.length)
    (hs : Step s t) : t.calls.countP Call.accepted =
      t.p.jobs.buf.countP Option.isSome + t.workers.countP Worker.busy + t.executed.length := by
  cases hs with
  | send p ws pre post ex job hc hr =>
    cases job <;>
      simp_all [List.countP_append, List.countP_cons, Call.accepted, Worker.busy] <;> omega
  | _ =>
    simp_all [List.countP_append, List.countP_cons, Call.accepted, Worker.busy]
    try omega

theorem drained_Step {s t : State}
    (h4 : 0 < s.workers.count Worker.exited → s.p.jobs.closed = true ∧ s.p.jobs.buf = [])
    (hs : Step s t) :
    0 < t.workers.count Worker.exited → t.p.jobs.closed = true ∧ t.p.jobs.buf = [] := by
  cases hs <;> simp_all [List.count_append, List.count_cons]

theorem shape_Step {s t : State}
    (h5 : s.workers.length = s.p.jobs.cap ∧ 0 < s.p.jobs.cap)
    (h6 : s.p.jobs.buf.length ≤ s.p.jobs.cap) (hs : Step s t) :
    (t.workers.length = t.p.jobs.cap ∧ 0 < t.p.jobs.cap) ∧
      t.p.jobs.buf.length ≤ t.p.jobs.cap := by
  cases hs <;> simp_all <;> omega

theorem once_Step {s t : State}
    (h1 : s.p.wg = (s.workers.countP Worker.live : Int))
    (h7 : s.calls.count Call.stopCloseStop + s.calls.count Call.stopCloseJobs +
      s.calls.count Call.stopWait = if s.p.once = Once.active then 1 else 0)
    (h8 : s.p.stopCh.closed = true ↔
      s.p.once ≠ Once.fresh ∧ s.calls.count Call.stopCloseStop = 0)
    (h9 : s.p.jobs.closed = true ↔
      s.p.once ≠ Once.fresh ∧ s.calls.count Call.stopCloseStop = 0 ∧
        s.calls.count Call.stopCloseJobs = 0)
    (h10 : s.p.once = Once.done → s.p.wg = 0)
    (h11 : 0 < s.calls.count Call.stopReturned → s.p.once = Once.done)
    (h12 : s.calls.count Call.stopPanicked = 0)
    (hs : Step s t) :
    (t.calls.count Call.stopCloseStop + t.calls.count Call.stopCloseJobs +
      t.calls.count Call.stopWait = if t.p.once = Once.active then 1 else 0) ∧
    (t.p.stopCh.closed = true ↔
      t.p.once ≠ Once.fresh ∧ t.calls.count Call.stopCloseStop = 0) ∧
    (t.p.jobs.closed = true ↔
      t.p.once ≠ Once.fresh ∧ t.calls.count Call.stopCloseStop = 0 ∧
        t.calls.count Call.stopCloseJobs = 0) ∧
    (t.p.once = Once.done → t.p.wg = 0) ∧
    (0 < t.calls.count Call.stopReturned → t.p.once = Once.done) ∧
    t.calls.count Call.stopPanicked = 0 := by
  obtain ⟨⟨jobs, stopCh, wg, once⟩, ws, cs, ex⟩ := s
  cases hs <;> cases once <;>
    simp_all [List.count_append, List.count_cons, List.countP_append,
      List.countP_cons, Worker.live]
  all_goals omega

theorem Invariant_Step {s t : State} (h : Invariant s) (hs : Step s t) : Invariant t := by
  obtain ⟨h1, h2, h3, h4, h5, h6, h7, h8, h9, h10, h11, h12⟩ := h
  obtain ⟨k5, k6⟩ := shape_Step h5 h6 hs
  obtain ⟨k7, k8, k9, k10, k11, k12⟩ := once_Step h1 h7 h8 h9 h10 h11 h12 hs
  exact ⟨wg_eq_Step h1 hs, balance_Step h2 hs, total_Step h3 hs, drained_Step h4 hs, k5, k6,
    k7, k8, k9, k10, k11, k12⟩

theorem Invariant_exec {s t : State} (as : List Action) (h : Invariant s)
    (hs : exec s as = some t) : Invariant t := by
  induction as generalizing s with
  | nil =>
    simp only [exec, Option.some.injEq] at hs
    exact hs ▸ h
  | cons a as ih =>
    simp only [exec] at hs
    cases hst : step s a with
    | none => simp [hst] at hs
    | some u =>
      rw [hst] at hs
      exact ih (Invariant_Step h (Step_of_step hst)) (by simpa using hs)

theorem Invariant_reachable {n : Int} {as : List Action} {s : State}
    (hs : exec (New n) as = some s) : Invariant s :=
  Invariant_exec as (Invariant_New n) hs

/-- Once `StopWait` has returned, no worker is left, the queue is empty and
every accepted job has been executed as often as it was accepted. -/
theorem drained_of_returned {s : State} (h : Invariant s) (hret : Call.stopReturned ∈ s.calls) :
    s.p.jobs.buf = [] ∧ (∀ w ∈ s.workers, w = Worker.exited) ∧
    ∀ k, s.executed.count k = s.calls.count (Call.submitReturned (some k) none) := by
  have hdone : s.p.once = Once.done := h.returned_done (List.count_pos_iff.mpr hret)
  have hwg := h.done_wg hdone
  have hlive : s.workers.countP Worker.live = 0 := by
    have := h.wg_eq
    omega
  have hall : ∀ w ∈ s.workers, w = Worker.exited := by
    intro w hw
    have := (List.countP_eq_zero.mp hlive) w hw
    cases w <;> simp_all [Worker.live]
  have hne : s.workers ≠ [] := by
    intro hnil
    have := h.workers_len
    simp [hnil] at this
    omega
  obtain ⟨w, hw⟩ := List.exists_mem_of_ne_nil _ hne
  have hex : 0 < s.workers.count Worker.exited := by
    apply List.count_pos_iff.mpr
    exact hall w hw ▸ hw
  have hbuf := (h.drained hex).2
  refine ⟨hbuf, hall, fun k => ?_⟩
  have hb := h.balance k
  have hrun : s.workers.count (Worker.running k) = 0 := by
    apply List.count_eq_zero.mpr
    intro hmem
    have := hall _ hmem
    simp at this
  rw [hbuf, hrun] at hb
  simp at hb
  omega

end workerpool

/-! ## Invariants of the blocking-always pool -/

namespace serverpool

theorem srv_spawn_iterate (n : Nat) (s : State) :
    (Nat.iterate spawn n s).wp = s.wp ∧
    (Nat.iterate spawn n s).workers = s.workers ++ List.replicate n Worker.ranging ∧
    (Nat.iterate spawn n s).calls = s.calls ∧
    (Nat.iterate spawn n s).executed = s.executed := by
  induction n generalizing s with
  | zero => simp
  | succ n ih =>
    obtain ⟨h1, h2, h3, h4⟩ := ih (spawn s)
    simp only [Function.iterate_succ, Function.comp_apply]
    refine ⟨by rw [h1]; rfl, ?_, by rw [h3]; rfl, by rw [h4]; rfl⟩
    rw [h2]; simp [spawn, List.replicate_succ]

theorem srv_New_eq (n : Int) :
    New n = { wp := { tasks := { buf := [], cap := (max n 1).toNat, closed := false }
                      once := Once.fresh
                      wg := max n 1 }
              workers := List.replicate (max n 1).toNat Worker.ranging
              calls := []
              executed := [] } := by
  have hm : (if n < 1 then 1 else n) = max n 1 := by
    split <;> omega
  obtain ⟨h1, h2, h3, h4⟩ := srv_spawn_iterate (max n 1).toNat
    { wp := { tasks := { buf := [], cap := (max n 1).toNat, closed := false }
              once := Once.fresh
              wg := 0 + max n 1 }
      workers := [], calls := [], executed := [] }
  simp only [New, hm]
  generalize Nat.iterate spawn _ _ = t at *
  obtain ⟨wp, ws, cs, ex⟩ := t
  simp at h1 h2 h3 h4
  subst h1 h2 h3 h4
  simp

theorem srv_Invariant_New (n : Int) : Invariant (New n) := by
  rw [srv_New_eq]
  constructor <;> simp

theorem srv_Step_of_step {s t : State} {a : Action} (hs : step s a = some t) : Step s t := by
  obtain ⟨wp, ws, cs, ex⟩ := s
  cases a with
  | submit task =>
    simp only [step, Option.some.injEq] at hs
    subst hs
    exact Step.submit _ task
  | stopWait =>
    simp only [step, Option.some.injEq] at hs
    subst hs
    exact Step.stopWait _
  | call i =>
    simp only [step] at hs
    cases hci : cs[i]? with
    | none => simp [Submit, StopWait, hci] at hs
    | some cl =>
      obtain ⟨pre, post, rfl, hset⟩ := split_of_getElem? hci
      cases cl with
      | submitEntry task =>
        cases task with
        | none =>
          simp [Submit, StopWait, hci, hset] at hs
          subst hs
          exact Step.nilTask ..
        | some k =>
          simp [Submit, StopWait, hci, hset] at hs
          subst hs
          exact Step.nonNilTask ..
      | submitSend task =>
        simp [Submit, StopWait, hci, hset] at hs
        split at hs
        · simp at hs; subst hs
          exact Step.sendPanic _ _ _ _ _ _ (by assumption)
        · split at hs
          · simp at hs; subst hs
            exact Step.send _ _ _ _ _ _ (by simpa using ‹¬ _ = true›) (by assumption)
          · simp at hs
      | submitReturned task => simp [Submit, StopWait, hci, hset] at hs
      | submitPanicked task => simp [Submit, StopWait, hci, hset] at hs
      | stopEntry =>
        simp [Submit, StopWait, hci, hset] at hs
        split at hs
        · simp at hs; subst hs
          exact Step.onceFirst _ _ _ _ _ (by assumption)
        · simp at hs
        · simp at hs; subst hs
          exact Step.onceLater _ _ _ _ _ (by assumption)
      | stopClose =>
        simp [Submit, StopWait, hci, hset] at hs
        split at hs <;> simp at hs <;> subst hs
        · exact Step.closePanic _ _ _ _ _ (by assumption)
        · exact Step.close _ _ _ _ _ (by simpa using ‹¬ _ = true›)
      | stopWait =>
        simp [Submit, StopWait, hci, hset] at hs
        obtain ⟨h1, h2⟩ := hs
        subst h2
        exact Step.waitDone _ _ _ _ _ h1
      | stopReturned => simp [Submit, StopWait, hci, hset] at hs
      | stopPanicked => simp [Submit, StopWait, hci, hset] at hs
  | worker i =>
    simp only [step, workerStep] at hs
    cases hwi : ws[i]? with
    | none => simp [hwi] at hs
    | some w =>
      obtain ⟨pre, post, rfl, hset⟩ := split_of_getElem? hwi
      cases w with
      | ranging =>
        simp [hwi, hset] at hs
        split at hs
        · rename_i task rest hb
          split at hs <;> simp at hs <;> subst hs
          · exact Step.receive _ _ _ _ _ _ _ hb
          · exact Step.receiveNil _ _ _ _ _ _ hb
        · rename_i hb
          simp at hs
          obtain ⟨h1, h2⟩ := hs
          subst h2
          exact Step.leave _ _ _ _ _ hb h1
      | running k =>
        simp [hwi, hset] at hs
        subst hs
        exact Step.finish ..
      | exited => simp [hwi] at hs

theorem srv_Invariant_Step {s t : State} (h : Invariant s) (hs : Step s t) : Invariant t := by
  obtain ⟨h1, h2, h3, h4⟩ := h
  obtain ⟨⟨tasks, once, wg⟩, ws, cs, ex⟩ := s
  cases hs <;> cases once <;> constructor <;>
    simp_all [List.count_append, List.count_cons]
  all_goals omega

theorem srv_Invariant_exec {s t : State} (as : List Action) (h : Invariant s)
    (hs : exec s as = some t) : Invariant t := by
  induction as generalizing s with
  | nil =>
    simp only [exec, Option.some.injEq] at hs
    exact hs ▸ h
  | cons a as ih =>
    simp only [exec] at hs
    cases hst : step s a with
    | none => simp [hst] at hs
    | some u =>
      rw [hst] at hs
      exact ih (srv_Invariant_Step h (srv_Step_of_step hst)) (by simpa using hs)

theorem srv_Invariant_reachable {n : Int} {as : List Action} {s : State}
    (hs : exec (New n) as = some s) : Invariant s :=
  srv_Invariant_exec as (srv_Invariant_New n) hs

end serverpool

/-! ## The claims about the worker pools -/

namespace workerpool

/-- C1: in every run of a pool made by `New(C)`, under every schedule, once a
call of `StopWait` has returned the job queue is empty, every worker has
returned (so no accepted job is still running), and every job has been
executed exactly as many times as a `Submit` of it returned a nil error: none
dropped, none run twice, queued jobs included. -/
theorem StopWait_completes_accepted_jobs (C : Int) (sched : List Action) (s : State)
    (hrun : exec (New C) sched = some s) (hret : Call.stopReturned ∈ s.calls) :
    s.p.jobs.buf = [] ∧ (∀ w ∈ s.workers, w = Worker.exited) ∧
    ∀ k, s.executed.count k = s.calls.count (Call.submitReturned (some k) none) :=
  drained_of_returned (Invariant_reachable hrun) hret

/-- C1 (witness): the theorem at `drainRun` on `New(1)`, in which job 11 is
still queued when the shutdown begins. -/
theorem StopWait_completes_accepted_jobs_witness :
    exec (New 1) drainRun = some drained ∧ Call.stopReturned ∈ drained.calls ∧
    (drained.p.jobs.buf = [] ∧ (∀ w ∈ drained.workers, w = Worker.exited) ∧
      ∀ k, drained.executed.count k = drained.calls.count (Call.submitReturned (some k) none)) :=
  ⟨by decide, by decide,
    StopWait_completes_accepted_jobs 1 drainRun drained (by decide) (by decide)⟩

end workerpool

theorem getElem?_snoc {α : Type} (l : List α) (a : α) : (l ++ [a])[l.length]? = some a := by
  simp

theorem set_snoc {α : Type} (l : List α) (a b : α) : (l ++ [a]).set l.length b = l ++ [b] := by
  induction l with
  | nil => rfl
  | cons x xs ih => simp [ih]

namespace workerpool

theorem closed_of_returned {s : State} (h : Invariant s) (hret : Call.stopReturned ∈ s.calls) :
    s.p.once = Once.done ∧ s.p.stopCh.closed = true ∧ s.p.jobs.closed = true := by
  have hdone : s.p.once = Once.done := h.returned_done (List.count_pos_iff.mpr hret)
  have h7 := h.in_once
  rw [hdone] at h7
  simp at h7
  refine ⟨hdone, h.stop_closed.mpr ⟨by simp [hdone], ?_⟩,
    h.jobs_closed.mpr ⟨by simp [hdone], ?_, ?_⟩⟩
  · exact h7.1.1
  · exact h7.1.1
  · exact h7.1.2

/-- C2 (as amended): in every run of a pool made by `New(C)`, once a call of
`StopWait` has returned, a call `Submit(job)` with a non-nil job takes its two
steps without blocking (the nil check, then the first `select`, whatever case
is offered), returns `ErrPoolClosed`, and leaves the pool, the job queue
included, as it was. -/
theorem Submit_after_StopWait_is_rejected (C : Int) (sched : List Action) (s : State) (k : Nat)
    (c₁ c₂ : SelectCase) (hrun : exec (New C) sched = some s)
    (hret : Call.stopReturned ∈ s.calls) :
    exec s [Action.submit (some k), Action.call s.calls.length c₁,
        Action.call s.calls.length c₂] =
      some { s with
        calls := s.calls ++ [Call.submitReturned (some k) (some Err.ErrPoolClosed)] } := by
  obtain ⟨-, hstop, -⟩ := closed_of_returned (Invariant_reachable hrun) hret
  simp [exec, step, Submit, getElem?_snoc, set_snoc, hstop]

/-- C2 (witness): the amended claim on the pool of `drainRun`, where `StopWait`
has returned, for the job 12. -/
theorem Submit_after_StopWait_is_rejected_witness :
    exec (New 1) drainRun = some drained ∧ Call.stopReturned ∈ drained.calls ∧
    exec drained [Action.submit (some 12), Action.call drained.calls.length SelectCase.send,
        Action.call drained.calls.length SelectCase.stop] =
      some { drained with
        calls := drained.calls ++ [Call.submitReturned (some 12) (some Err.ErrPoolClosed)] } :=
  ⟨by decide, by decide,
    Submit_after_StopWait_is_rejected 1 drainRun drained 12 SelectCase.send SelectCase.stop
      (by decide) (by decide)⟩

/-- C2 (counterexample): on the pool of `drainRun`, where `StopWait` has
returned, the call `Submit(nil)` returns a nil error, not `ErrPoolClosed`. -/
theorem Submit_nil_after_StopWait_succeeds :
    exec (New 1) drainRun = some drained ∧ Call.stopReturned ∈ drained.calls ∧
    exec drained [Action.submit none, Action.call 3 SelectCase.send] =
      some { drained with calls := drained.calls ++ [Call.submitReturned none none] } := by
  decide

end workerpool

/-- C3: in every state of either pool (running, closing or closed), a call
`Submit(nil)` takes its one step without blocking and returns (a nil error in
the reject-after-close pool); the pool, with its job queue and its lifecycle
state, the workers and the execution log are unchanged: only the record of
the call itself is added. -/
theorem Submit_nil_is_noop (s : workerpool.State) (c : SelectCase) (t : serverpool.State) :
    workerpool.exec s [workerpool.Action.submit none,
        workerpool.Action.call s.calls.length c] =
      some { s with calls := s.calls ++ [workerpool.Call.submitReturned none none] } ∧
    serverpool.exec t [serverpool.Action.submit none, serverpool.Action.call t.calls.length] =
      some { t with calls := t.calls ++ [serverpool.Call.submitReturned none] } := by
  constructor
  · simp [workerpool.exec, workerpool.step, workerpool.Submit, getElem?_snoc, set_snoc]
  · simp [serverpool.exec, serverpool.step, serverpool.Submit, getElem?_snoc, set_snoc]

/-- C4: in every run of either pool no call of `StopWait` ever panics (no
channel is closed twice) and at most one call is inside the once function;
and once a call of `StopWait` has returned, a further call takes its one step
without blocking and returns, leaving the pool, the workers and the execution
log exactly as the first call left them: only the record of the call itself
is added. -/
theorem StopWait_is_idempotent (C : Int) (sched : List workerpool.Action) (s : workerpool.State)
    (D : Int) (sched' : List serverpool.Action) (t : serverpool.State)
    (hs : workerpool.exec (workerpool.New C) sched = some s)
    (ht : serverpool.exec (serverpool.New D) sched' = some t) :
    (workerpool.Call.stopPanicked ∉ s.calls ∧
      s.calls.count workerpool.Call.stopCloseStop + s.calls.count workerpool.Call.stopCloseJobs +
        s.calls.count workerpool.Call.stopWait ≤ 1 ∧
      (workerpool.Call.stopReturned ∈ s.calls → ∀ c,
        workerpool.exec s [workerpool.Action.stopWait,
            workerpool.Action.call s.calls.length c] =
          some { s with calls := s.calls ++ [workerpool.Call.stopReturned] })) ∧
    (serverpool.Call.stopPanicked ∉ t.calls ∧
      t.calls.count serverpool.Call.stopClose + t.calls.count serverpool.Call.stopWait ≤ 1 ∧
      (serverpool.Call.stopReturned ∈ t.calls →
        serverpool.exec t [serverpool.Action.stopWait,
            serverpool.Action.call t.calls.length] =
          some { t with calls := t.calls ++ [serverpool.Call.stopReturned] })) := by
  have hI := workerpool.Invariant_reachable hs
  have hJ := serverpool.srv_Invariant_reachable ht
  refine ⟨⟨List.count_eq_zero.mp hI.no_stop_panic, ?_, ?_⟩,
    ⟨List.count_eq_zero.mp hJ.no_stop_panic, ?_, ?_⟩⟩
  · have := hI.in_once
    split at this <;> omega
  · intro hret c
    have hdone := (workerpool.closed_of_returned hI hret).1
    simp [workerpool.exec, workerpool.step, workerpool.Submit, workerpool.StopWait,
      getElem?_snoc, set_snoc, hdone]
  · have := hJ.in_once
    split at this <;> omega
  · intro hret
    have hdone := hJ.returned_done.mp (List.count_pos_iff.mpr hret)
    simp [serverpool.exec, serverpool.step, serverpool.Submit, serverpool.StopWait,
      getElem?_snoc, set_snoc, hdone]

/-- C4 (witness): the theorem at the runs `drainRun` of both pools, after
which `StopWait` has returned. -/
theorem StopWait_is_idempotent_witness :
    workerpool.exec (workerpool.New 1) workerpool.drainRun = some workerpool.drained ∧
    serverpool.exec (serverpool.New 1) serverpool.drainRun = some serverpool.drained ∧
    (workerpool.Call.stopPanicked ∉ workerpool.drained.calls ∧
      workerpool.drained.calls.count workerpool.Call.stopCloseStop +
        workerpool.drained.calls.count workerpool.Call.stopCloseJobs +
        workerpool.drained.calls.count workerpool.Call.stopWait ≤ 1 ∧
      (workerpool.Call.stopReturned ∈ workerpool.drained.calls → ∀ c,
        workerpool.exec workerpool.drained [workerpool.Action.stopWait,
            workerpool.Action.call workerpool.drained.calls.length c] =
          some { workerpool.drained with
            calls := workerpool.drained.calls ++ [workerpool.Call.stopReturned] })) ∧
    (serverpool.Call.stopPanicked ∉ serverpool.drained.calls ∧
      serverpool.drained.calls.count serverpool.Call.stopClose +
        serverpool.drained.calls.count serverpool.Call.stopWait ≤ 1 ∧
      (serverpool.Call.stopReturned ∈ serverpool.drained.calls →
        serverpool.exec serverpool.drained [serverpool.Action.stopWait,
            serverpool.Action.call serverpool.drained.calls.length] =
          some { serverpool.drained with
            calls := serverpool.drained.calls ++ [serverpool.Call.stopReturned] })) :=
  ⟨by decide, by decide, StopWait_is_idempotent 1 workerpool.drainRun workerpool.drained
    1 serverpool.drainRun serverpool.drained (by decide) (by decide)⟩

namespace workerpool

/-- The call `New(n)` returns the pool `New n` when `make` can allocate the
channel, and panics otherwise. -/
theorem NewCall_eq (limit : Nat) (n : Int) :
    NewCall limit n =
      if (limit : Int) < max n 1 then Except.error "makechan: size out of range"
      else Except.ok (New n) := by
  have hm : (if n < 1 then 1 else n) = max n 1 := by
    split <;> omega
  simp only [NewCall, New, hm, makechan]
  by_cases hl : (limit : Int) < max n 1
  · have h1 : max n 1 < 0 ∨ (limit : Int) < max n 1 := Or.inr hl
    simp only [if_pos h1, if_pos hl]
    rfl
  · have h1 : ¬ (max n 1 < 0 ∨ (limit : Int) < max n 1) := by omega
    have h2 : ¬ ((0 : Int) < 0 ∨ (limit : Int) < 0) := by omega
    simp only [if_neg h1, if_neg hl, if_neg h2]
    rfl

end workerpool

namespace serverpool

theorem srv_NewCall_eq (limit : Nat) (n : Int) :
    NewCall limit n =
      if (limit : Int) < max n 1 then Except.error "makechan: size out of range"
      else Except.ok (New n) := by
  have hm : (if n < 1 then 1 else n) = max n 1 := by
    split <;> omega
  simp only [NewCall, New, hm, makechan]
  by_cases hl : (limit : Int) < max n 1
  · have h1 : max n 1 < 0 ∨ (limit : Int) < max n 1 := Or.inr hl
    simp only [if_pos h1, if_pos hl]
    rfl
  · have h1 : ¬ (max n 1 < 0 ∨ (limit : Int) < max n 1) := by omega
    simp only [if_neg h1, if_neg hl]
    rfl

end serverpool

/-- C5 (amended): for every integer `n` and both pools. When the runtime can
make a channel of capacity `max(n, 1)`, the call `New(n)` returns, and the
pool it returns is `New n`; when it cannot, the call panics in `make` with
"makechan: size out of range" and returns no pool. The pool `New n` is one on
which no shutdown has begun (the once is unused, no channel is closed), whose
job queue is empty with capacity `max(n, 1)`, with exactly `max(n, 1)`
workers, all waiting at the receive, a wait-group counter of `max(n, 1)`, and
no call made or job executed yet. -/
theorem New_is_running (limit : Nat) (n : Int) :
    (max n 1 ≤ (limit : Int) →
      workerpool.NewCall limit n = Except.ok (workerpool.New n) ∧
      serverpool.NewCall limit n = Except.ok (serverpool.New n)) ∧
    ((limit : Int) < max n 1 →
      workerpool.NewCall limit n = Except.error "makechan: size out of range" ∧
      serverpool.NewCall limit n = Except.error "makechan: size out of range") ∧
    ((workerpool.New n).p.once = Once.fresh ∧
      (workerpool.New n).p.stopCh.closed = false ∧
      (workerpool.New n).p.jobs.closed = false ∧
      (workerpool.New n).p.jobs.buf = [] ∧
      ((workerpool.New n).p.jobs.cap : Int) = max n 1 ∧
      (workerpool.New n).workers = List.replicate (max n 1).toNat Worker.ranging ∧
      ((workerpool.New n).workers.length : Int) = max n 1 ∧
      (workerpool.New n).p.wg = max n 1 ∧
      (workerpool.New n).calls = [] ∧ (workerpool.New n).executed = []) ∧
    ((serverpool.New n).wp.once = Once.fresh ∧
      (serverpool.New n).wp.tasks.closed = false ∧
      (serverpool.New n).wp.tasks.buf = [] ∧
      ((serverpool.New n).wp.tasks.cap : Int) = max n 1 ∧
      (serverpool.New n).workers = List.replicate (max n 1).toNat Worker.ranging ∧
      ((serverpool.New n).workers.length : Int) = max n 1 ∧
      (serverpool.New n).wp.wg = max n 1 ∧
      (serverpool.New n).calls = [] ∧ (serverpool.New n).executed = []) := by
  refine ⟨fun hl => ?_, fun hl => ?_, ?_⟩
  · rw [workerpool.NewCall_eq, serverpool.srv_NewCall_eq]
    exact ⟨if_neg (not_lt.mpr hl), if_neg (not_lt.mpr hl)⟩
  · rw [workerpool.NewCall_eq, serverpool.srv_NewCall_eq]
    exact ⟨if_pos hl, if_pos hl⟩
  · rw [workerpool.New_eq, serverpool.srv_New_eq]
    simp

/-- C5 (witness): the amended claim for `New(0)` and `New(3)` on a runtime
that makes channels of up to `chanLimit64` elements. -/
theorem New_is_running_witness :
    max (0 : Int) 1 ≤ (chanLimit64 : Int) ∧
    (workerpool.NewCall chanLimit64 0 = Except.ok (workerpool.New 0) ∧
      serverpool.NewCall chanLimit64 0 = Except.ok (serverpool.New 0)) ∧
    ((workerpool.New 3).workers.length = 3 ∧ (workerpool.New 3).p.jobs.cap = 3) :=
  ⟨by decide, (New_is_running chanLimit64 0).1 (by decide), by decide⟩

/-- C5 (counterexample): `New(math.MaxInt64)` of either pool does not return a
pool: `make(chan func(), math.MaxInt64)` panics with
"makechan: size out of range", on every 64-bit platform. -/
theorem New_panics_for_MaxInt64 :
    workerpool.NewCall chanLimit64 MaxInt64 =
      Except.error "makechan: size out of range" ∧
    serverpool.NewCall chanLimit64 MaxInt64 =
      Except.error "makechan: size out of range" :=
  ⟨rfl, rfl⟩


/-! ### A client that makes its calls one after the other -/

namespace workerpool

theorem inFlight_of_finished (cs : List Call) (h : cs.all Call.finished = true) :
    inFlight cs = 0 := by
  induction cs with
  | nil => rfl
  | cons c cs ih =>
    simp only [List.all_cons, Bool.and_eq_true] at h
    have := ih h.2
    have hc := h.1
    unfold inFlight at *
    cases c <;> simp_all [Call.finished, Call.atEntry, Call.atFirst, Call.atSecond,
      List.countP_cons, List.count_cons]

theorem SeqInvariant_Step {s t : State}
    (hjs : s.p.jobs.closed = true → s.p.stopCh.closed = true) (h : SeqInvariant s)
    (hs : Step s t) (hidle : t.calls.length = s.calls.length ∨ inFlight s.calls = 0) :
    SeqInvariant t := by
  obtain ⟨h1, h2, h3, h4⟩ := h
  obtain ⟨⟨⟨jb, jc, jcl⟩, ⟨sb, sc, scl⟩, wg, once⟩, ws, cs, ex⟩ := s
  unfold inFlight at *
  cases hs <;> cases scl <;> cases jcl <;> refine ⟨?_, ?_, ?_, ?_⟩ <;>
    simp only [List.count_append, List.count_cons, List.countP_append, List.countP_cons,
      List.length_append, List.length_cons, List.length_nil, List.count_nil, List.countP_nil,
      Call.atEntry, Call.atFirst, Call.atSecond, Call.crashed, Call.failed,
      beq_iff_eq, reduceCtorEq, if_true, if_false, ite_true, ite_false,
      Bool.false_eq_true, Bool.true_eq_false, imp_false, implies_true, not_lt, forall_const, false_implies,
      true_implies, not_true_eq_false, not_false_eq_true, Nat.le_zero_eq, inFlight]
        at * <;>
    omega

theorem SeqInvariant_New (n : Int) : SeqInvariant (New n) := by
  rw [New_eq]
  constructor <;> simp [inFlight]

theorem length_of_Submit {s t : State} {i : Nat} {c : SelectCase}
    (h : Submit s i c = some t) : t.calls.length = s.calls.length := by
  unfold Submit at h
  repeat' split at h
  all_goals first
    | (simp only [Option.some.injEq] at h; subst h; simp)
    | simp at h

theorem length_of_StopWait {s t : State} {i : Nat}
    (h : StopWait s i = some t) : t.calls.length = s.calls.length := by
  unfold StopWait at h
  repeat' split at h
  all_goals first
    | (simp only [Option.some.injEq] at h; subst h; simp)
    | simp at h

theorem length_of_workerStep {s t : State} {i : Nat}
    (h : workerStep s i = some t) : t.calls.length = s.calls.length := by
  unfold workerStep at h
  repeat' split at h
  all_goals first
    | (simp only [Option.some.injEq] at h; subst h; simp)
    | simp at h

theorem Step_of_stepSeq {s t : State} {a : Action} (h : stepSeq s a = some t) :
    Step s t ∧ (t.calls.length = s.calls.length ∨ inFlight s.calls = 0) := by
  cases a with
  | submit job =>
    simp only [stepSeq] at h
    split at h
    · exact ⟨Step_of_step h, Or.inr (inFlight_of_finished _ (by assumption))⟩
    · simp at h
  | stopWait =>
    simp only [stepSeq] at h
    split at h
    · exact ⟨Step_of_step h, Or.inr (inFlight_of_finished _ (by assumption))⟩
    · simp at h
  | call i c =>
    simp only [stepSeq] at h
    refine ⟨Step_of_step h, Or.inl ?_⟩
    simp only [step] at h
    cases hS : Submit s i c with
    | some u =>
      simp [hS] at h
      subst h
      exact length_of_Submit hS
    | none =>
      simp [hS] at h
      exact length_of_StopWait h
  | worker i =>
    simp only [stepSeq] at h
    exact ⟨Step_of_step h, Or.inl (length_of_workerStep h)⟩

theorem closed_order {s : State} (h : Invariant s) :
    s.p.jobs.closed = true → s.p.stopCh.closed = true := fun hj =>
  h.stop_closed.mpr ⟨(h.jobs_closed.mp hj).1, (h.jobs_closed.mp hj).2.1⟩

theorem SeqInvariant_execSeq {s t : State} (as : List Action) (hI : Invariant s)
    (h : SeqInvariant s) (hs : execSeq s as = some t) : Invariant t ∧ SeqInvariant t := by
  induction as generalizing s with
  | nil =>
    simp only [execSeq, Option.some.injEq] at hs
    exact hs ▸ ⟨hI, h⟩
  | cons a as ih =>
    simp only [execSeq] at hs
    cases hst : stepSeq s a with
    | none => simp [hst] at hs
    | some u =>
      rw [hst] at hs
      obtain ⟨hS, hidle⟩ := Step_of_stepSeq hst
      exact ih (Invariant_Step hI hS) (SeqInvariant_Step (closed_order hI) h hS hidle)
        (by simpa using hs)

end workerpool
namespace serverpool

theorem srv_inFlight_of_finished (cs : List Call) (h : cs.all Call.finished = true) :
    inFlight cs = 0 := by
  induction cs with
  | nil => rfl
  | cons c cs ih =>
    simp only [List.all_cons, Bool.and_eq_true] at h
    have := ih h.2
    have hc := h.1
    unfold inFlight at *
    cases c <;> simp_all [Call.finished, Call.atEntry, Call.atEntryNil, Call.atSend,
      List.countP_cons, List.count_cons]

theorem srv_SeqInvariant_Step {s t : State}
    (h5 : s.calls.count Call.stopClose + s.calls.count Call.stopWait =
      if s.wp.once = Once.active then 1 else 0)
    (h6 : s.wp.tasks.closed = true → s.wp.once ≠ Once.fresh)
    (h7 : s.wp.once = Once.done → 0 < s.calls.count Call.stopReturned)
    (h : SeqInvariant s) (hs : Step s t)
    (hidle : t.calls.length = s.calls.length ∨ inFlight s.calls = 0)
    (hlate : t.calls.countP Call.atEntry ≤ s.calls.countP Call.atEntry ∨
      s.calls.count Call.stopReturned = 0) :
    SeqInvariant t := by
  obtain ⟨h1, h2, h3⟩ := h
  obtain ⟨⟨⟨tb, tc, tcl⟩, once, wg⟩, ws, cs, ex⟩ := s
  unfold inFlight at *
  cases hs with
  | submit _ task =>
    cases task <;> cases tcl <;> cases once <;> refine ⟨?_, ?_, ?_⟩ <;>
    simp only [List.count_append, List.count_cons, List.countP_append, List.countP_cons,
      List.length_append, List.length_cons, List.length_nil, List.count_nil, List.countP_nil,
      Call.atEntry, Call.atEntryNil, Call.atSend, Call.crashed,
      beq_iff_eq, reduceCtorEq, if_true, if_false, ite_true, ite_false,
      Bool.false_eq_true, Bool.true_eq_false, imp_false, implies_true, not_lt, forall_const,
      false_implies, true_implies, not_true_eq_false, not_false_eq_true, Nat.le_zero_eq,
      ne_eq, inFlight] at * <;>
    omega
  | _ =>
    cases tcl <;> cases once <;> refine ⟨?_, ?_, ?_⟩ <;>
    simp only [List.count_append, List.count_cons, List.countP_append, List.countP_cons,
      List.length_append, List.length_cons, List.length_nil, List.count_nil, List.countP_nil,
      Call.atEntry, Call.atEntryNil, Call.atSend, Call.crashed,
      beq_iff_eq, reduceCtorEq, if_true, if_false, ite_true, ite_false,
      Bool.false_eq_true, Bool.true_eq_false, imp_false, implies_true, not_lt, forall_const,
      false_implies, true_implies, not_true_eq_false, not_false_eq_true, Nat.le_zero_eq,
      ne_eq, inFlight] at * <;>
    omega

theorem srv_SeqInvariant_New (n : Int) : SeqInvariant (New n) := by
  rw [srv_New_eq]
  constructor <;> simp [inFlight]

theorem srv_length_of_Submit {s t : State} {i : Nat}
    (h : Submit s i = some t) : t.calls.length = s.calls.length ∧
      t.calls.countP Call.atEntry ≤ s.calls.countP Call.atEntry := by
  unfold Submit at h
  cases hci : s.calls[i]? with
  | none => simp [hci] at h
  | some cl =>
    obtain ⟨pre, post, hc, hset⟩ := split_of_getElem? hci
    rw [hci] at h
    repeat' split at h
    all_goals first
      | (simp only [Option.some.injEq] at h; subst h
         simp_all [List.countP_append, List.countP_cons, Call.atEntry]
         try omega)
      | simp at h

theorem srv_length_of_StopWait {s t : State} {i : Nat}
    (h : StopWait s i = some t) : t.calls.length = s.calls.length ∧
      t.calls.countP Call.atEntry ≤ s.calls.countP Call.atEntry := by
  unfold StopWait at h
  cases hci : s.calls[i]? with
  | none => simp [hci] at h
  | some cl =>
    obtain ⟨pre, post, hc, hset⟩ := split_of_getElem? hci
    rw [hci] at h
    repeat' split at h
    all_goals first
      | (simp only [Option.some.injEq] at h; subst h
         simp_all [List.countP_append, List.countP_cons, Call.atEntry]
         try omega)
      | simp at h

theorem srv_length_of_workerStep {s t : State} {i : Nat}
    (h : workerStep s i = some t) : t.calls = s.calls := by
  unfold workerStep at h
  repeat' split at h
  all_goals first
    | (simp only [Option.some.injEq] at h; subst h; simp)
    | simp at h

theorem srv_Step_of_stepSeq {s t : State} {a : Action} (h : stepSeq s a = some t) :
    Step s t ∧ (t.calls.length = s.calls.length ∨ inFlight s.calls = 0) ∧
      (t.calls.countP Call.atEntry ≤ s.calls.countP Call.atEntry ∨
        s.calls.count Call.stopReturned = 0) := by
  cases a with
  | submit task =>
    cases task with
    | none =>
      simp only [stepSeq] at h
      split at h
      · refine ⟨srv_Step_of_step h, Or.inr (srv_inFlight_of_finished _ (by assumption)), Or.inl ?_⟩
        simp only [step, Option.some.injEq] at h
        subst h
        simp [List.countP_append, Call.atEntry]
      · simp at h
    | some k =>
      simp only [stepSeq] at h
      split at h
      · rename_i hg
        exact ⟨srv_Step_of_step h, Or.inr (srv_inFlight_of_finished _ hg.1),
          Or.inr (List.count_eq_zero.mpr hg.2)⟩
      · simp at h
  | stopWait =>
    simp only [stepSeq] at h
    split at h
    · refine ⟨srv_Step_of_step h, Or.inr (srv_inFlight_of_finished _ (by assumption)), Or.inl ?_⟩
      simp only [step, Option.some.injEq] at h
      subst h
      simp [List.countP_append, Call.atEntry]
    · simp at h
  | call i =>
    simp only [stepSeq] at h
    refine ⟨srv_Step_of_step h, ?_⟩
    simp only [step] at h
    cases hS : Submit s i with
    | some u =>
      simp [hS] at h
      subst h
      exact ⟨Or.inl (srv_length_of_Submit hS).1, Or.inl (srv_length_of_Submit hS).2⟩
    | none =>
      simp [hS] at h
      exact ⟨Or.inl (srv_length_of_StopWait h).1, Or.inl (srv_length_of_StopWait h).2⟩
  | worker i =>
    simp only [stepSeq] at h
    have hc := srv_length_of_workerStep h
    exact ⟨srv_Step_of_step h, Or.inl (by rw [hc]), Or.inl (by rw [hc])⟩

theorem srv_SeqInvariant_execSeq {s t : State} (as : List Action) (hI : Invariant s)
    (h : SeqInvariant s) (hs : execSeq s as = some t) : Invariant t ∧ SeqInvariant t := by
  induction as generalizing s with
  | nil =>
    simp only [execSeq, Option.some.injEq] at hs
    exact hs ▸ ⟨hI, h⟩
  | cons a as ih =>
    simp only [execSeq] at hs
    cases hst : stepSeq s a with
    | none => simp [hst] at hs
    | some u =>
      rw [hst] at hs
      obtain ⟨hS, hidle, hlate⟩ := srv_Step_of_stepSeq hst
      exact ih (srv_Invariant_Step hI hS)
        (srv_SeqInvariant_Step hI.in_once (fun hc => (hI.tasks_closed.mp hc).1)
          hI.returned_done.mpr h hS hidle hlate)
        (by simpa using hs)

end serverpool

/-- C6 (as amended): a client that makes its calls one after the other never
makes a call panic. On the reject-after-close pool no `Submit` and no
`StopWait` panics, and a `Submit` returns a non-nil error only when `stopCh`
is closed, and then the error is `ErrPoolClosed`. On the blocking-always pool
the same holds (there is no error to return) as long as the client calls
`Submit` with a non-nil task only before its first `StopWait`. -/
theorem sequential_calls_do_not_panic (C : Int) (sched : List workerpool.Action)
    (s : workerpool.State) (D : Int) (sched' : List serverpool.Action) (t : serverpool.State)
    (hs : workerpool.execSeq (workerpool.New C) sched = some s)
    (ht : serverpool.execSeq (serverpool.New D) sched' = some t) :
    ((∀ c ∈ s.calls, c ≠ workerpool.Call.stopPanicked ∧
        ∀ job, c ≠ workerpool.Call.submitPanicked job) ∧
      (∀ job e, workerpool.Call.submitReturned job (some e) ∈ s.calls →
        e = workerpool.Err.ErrPoolClosed ∧ s.p.stopCh.closed = true)) ∧
    (∀ c ∈ t.calls, c ≠ serverpool.Call.stopPanicked ∧
      ∀ task, c ≠ serverpool.Call.submitPanicked task) := by
  obtain ⟨hI, hS⟩ := workerpool.SeqInvariant_execSeq sched (workerpool.Invariant_New C)
    (workerpool.SeqInvariant_New C) hs
  obtain ⟨hJ, hT⟩ := serverpool.srv_SeqInvariant_execSeq sched' (serverpool.srv_Invariant_New D)
    (serverpool.srv_SeqInvariant_New D) ht
  refine ⟨⟨fun c hc => ⟨?_, fun job hj => ?_⟩, fun job e he => ⟨?_, ?_⟩⟩,
    fun c hc => ⟨?_, fun task hj => ?_⟩⟩
  · rintro rfl
    exact List.count_eq_zero.mp hI.no_stop_panic hc
  · subst hj
    have := List.countP_eq_zero.mp hS.no_crash _ hc
    simp [workerpool.Call.crashed] at this
  · cases e; rfl
  · apply hS.failed_closed
    exact List.countP_pos_iff.mpr ⟨_, he, by simp [workerpool.Call.failed]⟩
  · rintro rfl
    exact List.count_eq_zero.mp hJ.no_stop_panic hc
  · subst hj
    have := List.countP_eq_zero.mp hT.no_crash _ hc
    simp [serverpool.Call.crashed] at this

/-- C6 (witness): the theorem at the sequential runs `seqRun` of both pools. -/
theorem sequential_calls_do_not_panic_witness :
    workerpool.execSeq (workerpool.New 1) workerpool.seqRun = some workerpool.seqEnd ∧
    serverpool.execSeq (serverpool.New 1) serverpool.seqRun = some serverpool.seqEnd ∧
    (((∀ c ∈ workerpool.seqEnd.calls, c ≠ workerpool.Call.stopPanicked ∧
        ∀ job, c ≠ workerpool.Call.submitPanicked job) ∧
      (∀ job e, workerpool.Call.submitReturned job (some e) ∈ workerpool.seqEnd.calls →
        e = workerpool.Err.ErrPoolClosed ∧ workerpool.seqEnd.p.stopCh.closed = true)) ∧
    (∀ c ∈ serverpool.seqEnd.calls, c ≠ serverpool.Call.stopPanicked ∧
      ∀ task, c ≠ serverpool.Call.submitPanicked task)) :=
  ⟨by decide, by decide, sequential_calls_do_not_panic 1 workerpool.seqRun workerpool.seqEnd
    1 serverpool.seqRun serverpool.seqEnd (by decide) (by decide)⟩

/-- C6 (counterexample): on the blocking-always pool the sequential calls
`New(1)`, `StopWait()` (which returns), `Submit(7)` end with the `Submit`
panicking on its send on the closed `tasks`. -/
theorem Submit_after_StopWait_panics :
    (serverpool.exec (serverpool.New 1) serverpool.lateSubmit).map (fun s => s.calls) =
      some [serverpool.Call.stopReturned, serverpool.Call.submitPanicked (some 7)] := by
  decide

namespace workerpool

/-- C7 (the failing run): `raceRun` on `New(1)` ends in `raced`, where
`stopCh` is closed and `Submit(7)` is at its second `select`; there the send
case can proceed, and taking it panics on the closed `jobs`. One step of
`StopWait` earlier `stopCh` is closed and `jobs` is not, and the send case
enqueues the job and returns a nil error. -/
theorem Submit_racing_StopWait_can_panic :
    exec (New 1) raceRun = some raced ∧ raced.p.stopCh.closed = true ∧
    (step raced (Action.call 0 SelectCase.send)).map (fun s => s.calls) =
      some [Call.submitPanicked (some 7), Call.stopWait] ∧
    ((exec (New 1) raceRun.dropLast).bind fun s =>
        (step s (Action.call 0 SelectCase.send)).map fun u =>
          (s.p.stopCh.closed, s.p.jobs.closed, u.calls, u.p.jobs.buf)) =
      some (true, false, [Call.submitReturned (some 7) none, Call.stopCloseJobs], [some 7]) := by
  decide

theorem cap_Step {s t : State} (hs : Step s t) : t.p.jobs.cap = s.p.jobs.cap := by
  cases hs <;> rfl

theorem cap_exec {s t : State} (as : List Action) (hs : exec s as = some t) :
    t.p.jobs.cap = s.p.jobs.cap := by
  induction as generalizing s with
  | nil =>
    simp only [exec, Option.some.injEq] at hs
    rw [hs]
  | cons a as ih =>
    simp only [exec] at hs
    cases hst : step s a with
    | none => simp [hst] at hs
    | some u =>
      rw [hst] at hs
      rw [ih (by simpa using hs), cap_Step (Step_of_step hst)]

/-- The queue is full when twice the capacity in jobs has been accepted and
none has finished. -/
theorem full_of_accepted {s : State} (h : Invariant s)
    (hacc : s.calls.countP Call.accepted = 2 * s.p.jobs.cap) (hnone : s.executed = []) :
    s.p.jobs.buf.length = s.p.jobs.cap := by
  have h3 := h.total
  have h5 := h.workers_len.1
  have h6 := h.room
  have hb : s.p.jobs.buf.countP Option.isSome ≤ s.p.jobs.buf.length := List.countP_le_length _
  have hw : s.workers.countP Worker.busy ≤ s.workers.length := List.countP_le_length _
  rw [hnone] at h3
  simp only [List.length_nil] at h3
  omega

/-- C8 (as amended): on a pool made by `New(C)` on which no shutdown has
begun, once `2 * max(C, 1)` jobs have been accepted and none has finished
(`max(C, 1)` are running and `max(C, 1)` fill the queue), one more `Submit` of
a non-nil job passes its nil check and its first `select` and then blocks at
its second `select`: no case can proceed, so it neither fails nor returns.
It stays there until a slot is free: in a state where it is still at that
`select`, `jobs` is open and the queue has room, the send proceeds and the
call returns a nil error. -/
theorem Submit_blocks_on_full_queue (C : Int) (sched : List Action) (s : State) (k : Nat)
    (c₁ c₂ : SelectCase) (hrun : exec (New C) sched = some s)
    (hacc : s.calls.countP Call.accepted = 2 * (max C 1).toNat) (hnone : s.executed = [])
    (hopen : s.p.stopCh.closed = false) :
    exec s [Action.submit (some k), Action.call s.calls.length c₁,
        Action.call s.calls.length c₂] =
      some { s with calls := s.calls ++ [Call.submitSecond (some k)] } ∧
    (∀ c, step { s with calls := s.calls ++ [Call.submitSecond (some k)] }
      (Action.call s.calls.length c) = none) ∧
    (∀ u : State, u.calls = s.calls ++ [Call.submitSecond (some k)] →
      u.p.jobs.closed = false → u.p.jobs.buf.length < u.p.jobs.cap →
      (step u (Action.call s.calls.length SelectCase.send)).map (fun v => v.calls) =
        some (s.calls ++ [Call.submitReturned (some k) none])) := by
  have hI := Invariant_reachable hrun
  have hcap : s.p.jobs.cap = (max C 1).toNat := by
    rw [cap_exec sched hrun, New_eq]
  have hfull := full_of_accepted hI (by rw [hcap]; exact hacc) hnone
  have hjobs : s.p.jobs.closed = false := by
    cases hj : s.p.jobs.closed with
    | false => rfl
    | true => rw [closed_order hI hj] at hopen; cases hopen
  refine ⟨?_, ?_, ?_⟩
  · simp [exec, step, Submit, getElem?_snoc, set_snoc, hopen]
  · intro c
    cases c <;> simp [step, Submit, StopWait, getElem?_snoc, hopen, hjobs, hfull]
  · intro u hu hc hr
    have hget : u.calls[s.calls.length]? = some (Call.submitSecond (some k)) := by
      rw [hu]; exact getElem?_snoc _ _
    simp [step, Submit, hget, hc, hr, hu, set_snoc]

/-- C8 (witness): the amended claim at `eagerRun` on `New(1)`, after which two
jobs are accepted and none has finished, for a `Submit` of job 3. -/
theorem Submit_blocks_on_full_queue_witness :
    exec (New 1) eagerRun = some eager ∧
    eager.calls.countP Call.accepted = 2 * (max (1 : Int) 1).toNat ∧ eager.executed = [] ∧
    eager.p.stopCh.closed = false ∧
    (exec eager [Action.submit (some 3), Action.call eager.calls.length SelectCase.send,
        Action.call eager.calls.length SelectCase.send] =
      some { eager with calls := eager.calls ++ [Call.submitSecond (some 3)] } ∧
    (∀ c, step { eager with calls := eager.calls ++ [Call.submitSecond (some 3)] }
      (Action.call eager.calls.length c) = none) ∧
    (∀ u : State, u.calls = eager.calls ++ [Call.submitSecond (some 3)] →
      u.p.jobs.closed = false → u.p.jobs.buf.length < u.p.jobs.cap →
      (step u (Action.call eager.calls.length SelectCase.send)).map (fun v => v.calls) =
        some (eager.calls ++ [Call.submitReturned (some 3) none]))) :=
  ⟨by decide, by decide, by decide, by decide,
    Submit_blocks_on_full_queue 1 eagerRun eager 3 SelectCase.send SelectCase.send
      (by decide) (by decide) (by decide) (by decide)⟩

/-- C8 (counterexample): on `New(1)`, after the one long-running job 1 has
been submitted and started, `Submit(2)` does not block: it returns a nil error
while job 1 is still running; job 2 sits in the queue and nothing has been
executed yet. -/
theorem Submit_returns_while_workers_busy :
    exec (New 1) eagerRun = some eager ∧
    eager.calls = [Call.submitReturned (some 1) none, Call.submitReturned (some 2) none] ∧
    eager.workers = [Worker.running 1] ∧ eager.executed = [] := by
  decide

end workerpool

/-! ## The deque -/

namespace queue

theorem mod_wrap (x n : Nat) (hx : x < 2 * n) : x % n = if x < n then x else x - n := by
  split
  · exact Nat.mod_eq_of_lt (by assumption)
  · rw [Nat.mod_eq_sub_mod (by omega), Nat.mod_eq_of_lt (by omega)]

theorem toList_length {T : Type} [Inhabited T] (d : Deque T) :
    (toList d).length = d.count.toNat := by
  simp [toList]

theorem Inv_zero {T : Type} : Inv (Deque.zero : Deque T) := by
  simp [Inv, Deque.zero, len]

theorem grow_full {T : Type} [Inhabited T] (buf : List T) (hd : Nat)
    (hhd : hd < buf.length ∨ (hd = 0 ∧ buf.length = 0)) :
    grow { buf := buf, head := hd, tail := ((hd + buf.length) % buf.length : Nat),
           count := buf.length } =
      Except.ok { buf := buf.drop hd ++ buf.take hd ++ List.replicate (max 1 buf.length) default
                  head := 0, tail := buf.length, count := buf.length } := by
  rcases hhd with hlt | ⟨h0, hn⟩
  · have htl : (hd + buf.length) % buf.length = hd := by
      rw [Nat.add_mod_right, Nat.mod_eq_of_lt hlt]
    rw [htl]
    have hpos : (0 : Int) < (buf.length : Int) := by omega
    simp only [grow, slice, len, copyAt]
    have hcap : (if (buf.length : Int) = 0 then (1 : Int) else (buf.length : Int) * 2).toNat
        = 2 * buf.length := by
      rw [if_neg (by omega)]
      omega
    have hne : ¬ ((buf.length : Int) ≤ 0) := by omega
    have hmax : max 1 buf.length = buf.length := by omega
    have hdrop : List.take (buf.length - hd) (List.drop hd buf) = List.drop hd buf :=
      List.take_of_length_le (by simp)
    simp [hpos, hcap, hlt.le, hdrop, hmax, bind, Except.bind]
    have h1 : List.take (2 * buf.length) (List.drop hd buf) = List.drop hd buf :=
      List.take_of_length_le (by simp; omega)
    have h2 : List.take (2 * buf.length - (buf.length - hd)) (List.take hd buf) = List.take hd buf :=
      List.take_of_length_le (by simp; omega)
    have h3 : min (2 * buf.length) (buf.length - hd) = buf.length - hd := by omega
    rw [h1, h2, h3, List.drop_append_eq_append_drop]
    have h4 : List.drop (buf.length - hd + hd) (List.drop hd buf) = [] :=
      List.drop_of_length_le (by simp)
    have h5 : 2 * buf.length - (buf.length - hd) - hd = buf.length := by omega
    rw [h4]
    simp [pure, Except.pure, h5]
  · subst h0
    have : buf = [] := List.length_eq_zero.mp hn
    subst this
    simp [grow, len, copyAt]
    rfl


theorem int_mod_wrap (x n : Int) (h0 : 0 ≤ x) (hx : x < 2 * n) :
    x % n = if x < n then x else x - n := by
  split
  · exact Int.emod_eq_of_lt h0 (by assumption)
  · rw [Int.emod_eq_sub_self_emod, Int.emod_eq_of_lt (by omega) (by omega)]

/-- The invariant without the remainder: `tail` is `head + count`, less
`len(buf)` when that is reached. -/
theorem Inv_iff {T : Type} (d : Deque T) :
    Inv d ↔ 0 ≤ d.count ∧ d.count ≤ len d.buf ∧
      (len d.buf = 0 → d.head = 0 ∧ d.tail = 0) ∧
      (0 < len d.buf → 0 ≤ d.head ∧ d.head < len d.buf ∧
        (d.head + d.count < len d.buf → d.tail = d.head + d.count) ∧
        (len d.buf ≤ d.head + d.count → d.tail = d.head + d.count - len d.buf)) := by
  unfold Inv
  constructor
  · rintro ⟨h1, h2, h3, h4⟩
    refine ⟨h1, h2, fun h => ⟨(h3 h).1, (h3 h).2.1⟩, fun h => ?_⟩
    obtain ⟨a, b, c, e, f⟩ := h4 h
    have := int_mod_wrap (d.head + d.count) (len d.buf) (by omega) (by omega)
    rw [this] at f
    refine ⟨a, b, ?_, ?_⟩ <;> intro hh
    · rw [f, if_pos hh]
    · rw [f, if_neg (by omega)]
  · rintro ⟨h1, h2, h3, h4⟩
    refine ⟨h1, h2, fun h => ⟨(h3 h).1, (h3 h).2, by omega⟩, fun h => ?_⟩
    obtain ⟨a, b, c, e⟩ := h4 h
    have := int_mod_wrap (d.head + d.count) (len d.buf) (by omega) (by omega)
    rw [this]
    refine ⟨a, b, ?_, ?_, ?_⟩
    · by_cases hh : d.head + d.count < len d.buf
      · have := c hh; omega
      · have := e (by omega); omega
    · by_cases hh : d.head + d.count < len d.buf
      · have := c hh; omega
      · have := e (by omega); omega
    · split
      · exact c (by assumption)
      · exact e (by omega)

theorem getD_set {T : Type} (l : List T) (i j : Nat) (v dflt : T) :
    (l.set i v).getD j dflt = if i = j ∧ i < l.length then v else l.getD j dflt := by
  simp only [List.getD_eq_getElem?_getD, List.getElem?_set]
  by_cases h : i = j
  · subst h
    by_cases h2 : i < l.length
    · simp [h2]
    · simp [h2, List.getElem?_eq_none (Nat.le_of_not_lt h2)]
  · simp [h]

/-- Two deques have the same logical sequence when they hold as many elements
and agree position by position. -/
theorem toList_ext {T : Type} [Inhabited T] (d e : Deque T)
    (hc : e.count.toNat = d.count.toNat)
    (h : ∀ i < d.count.toNat,
      e.buf.getD ((e.head.toNat + i) % e.buf.length) default =
        d.buf.getD ((d.head.toNat + i) % d.buf.length) default) :
    toList e = toList d := by
  unfold toList
  rw [hc]
  apply List.map_congr_left
  intro i hi
  exact h i (List.mem_range.mp hi)

theorem toList_snoc {T : Type} [Inhabited T] (d e : Deque T) (v : T)
    (hc : e.count.toNat = d.count.toNat + 1)
    (h : ∀ i < d.count.toNat,
      e.buf.getD ((e.head.toNat + i) % e.buf.length) default =
        d.buf.getD ((d.head.toNat + i) % d.buf.length) default)
    (hv : e.buf.getD ((e.head.toNat + d.count.toNat) % e.buf.length) default = v) :
    toList e = toList d ++ [v] := by
  unfold toList
  rw [hc, List.range_succ, List.map_append]
  congr 1
  · apply List.map_congr_left
    intro i hi
    exact h i (List.mem_range.mp hi)
  · simp only [List.map_cons, List.map_nil]
    rw [hv]

theorem toList_cons {T : Type} [Inhabited T] (d e : Deque T) (v : T)
    (hc : d.count.toNat = e.count.toNat + 1)
    (h : ∀ i < e.count.toNat,
      d.buf.getD ((d.head.toNat + (i + 1)) % d.buf.length) default =
        e.buf.getD ((e.head.toNat + i) % e.buf.length) default)
    (hv : d.buf.getD (d.head.toNat % d.buf.length) default = v) :
    toList d = v :: toList e := by
  unfold toList
  rw [hc, List.range_succ_eq_map, List.map_cons, List.map_map]
  have h0 : d.buf.getD ((d.head.toNat + 0) % d.buf.length) default = v := by
    rw [Nat.add_zero]
    exact hv
  rw [h0]
  congr 1
  apply List.map_congr_left
  intro i hi
  exact h i (List.mem_range.mp hi)


theorem index_ok {T : Type} (buf : List T) (i : Int) (h0 : 0 ≤ i) (h1 : i < len buf) :
    ∃ h : i.toNat < buf.length, index buf i = Except.ok (buf[i.toNat]) := by
  have hlt : i.toNat < buf.length := by
    simp only [len] at h1
    omega
  refine ⟨hlt, ?_⟩
  simp [index, h0, List.getElem?_eq_getElem hlt]

theorem getD_of_lt {T : Type} (buf : List T) (i : Nat) (dflt : T) (h : i < buf.length) :
    buf.getD i dflt = buf[i] := by
  simp [List.getD_eq_getElem?_getD, List.getElem?_eq_getElem h]

theorem PopFront_spec {T : Type} [Inhabited T] (d : Deque T) (h : Inv d) (hc : d.count ≠ 0) :
    ∃ v e, PopFront d = Except.ok (v, e) ∧ Inv e ∧ toList d = v :: toList e ∧
      e.count = d.count - 1 ∧ e.buf.length = d.buf.length ∧
      Front d = Except.ok v := by
  obtain ⟨buf, head, tail, count⟩ := d
  rw [Inv_iff] at h
  simp only [len] at h hc
  obtain ⟨h1, h2, h3, h4⟩ := h
  have hn : (0 : Int) < buf.length := by omega
  obtain ⟨g1, g2, g3, g4⟩ := h4 hn
  obtain ⟨hlt, hidx⟩ := index_ok buf head g1 (by simpa [len] using g2)
  refine ⟨buf[head.toNat],
    { buf := buf.set head.toNat default
      head := if head + 1 = (buf.length : Int) then 0 else head + 1
      tail := tail, count := count - 1 }, ?_, ?_, ?_, rfl, ?_, ?_⟩
  · simp only [PopFront, hidx, assign, len]
    simp [hc, g1, g2, bind, Except.bind, pure, Except.pure]
  · rw [Inv_iff]
    simp only [len, List.length_set]
    refine ⟨by omega, by omega, by omega, fun _ => ?_⟩
    split_ifs <;> omega
  · apply toList_cons
    · simp only
      omega
    · intro i hi
      simp only at hi ⊢
      simp only [List.length_set, getD_set]
      have key : ((if head + 1 = (buf.length : Int) then 0 else head + 1).toNat + i) % buf.length
          = (head.toNat + (i + 1)) % buf.length := by
        rw [mod_wrap _ _ (by split_ifs <;> omega), mod_wrap _ _ (by omega)]
        split_ifs <;> omega
      have ne : ¬ (head.toNat = (head.toNat + (i + 1)) % buf.length ∧ head.toNat < buf.length) := by
        rw [mod_wrap _ _ (by omega)]
        split_ifs <;> omega
      rw [key, if_neg ne]
    · simp only
      rw [Nat.mod_eq_of_lt hlt]
      exact getD_of_lt _ _ _ hlt
  · simp
  · simp [Front, hc, hidx]


theorem PopBack_spec {T : Type} [Inhabited T] (d : Deque T) (h : Inv d) (hc : d.count ≠ 0) :
    ∃ v e, PopBack d = Except.ok (v, e) ∧ Inv e ∧ toList d = toList e ++ [v] ∧
      e.count = d.count - 1 ∧ e.buf.length = d.buf.length ∧ Back d = Except.ok v := by
  obtain ⟨buf, head, tail, count⟩ := d
  rw [Inv_iff] at h
  simp only [len] at h hc
  obtain ⟨h1, h2, h3, h4⟩ := h
  have hn : (0 : Int) < buf.length := by omega
  obtain ⟨g1, g2, g3, g4⟩ := h4 hn
  obtain ⟨t, et, ht0, ht1, ht2, ht3⟩ : ∃ t : Int,
      (if tail - 1 < 0 then (buf.length : Int) - 1 else tail - 1) = t ∧ 0 ≤ t ∧
        t < buf.length ∧ (1 ≤ tail → t = tail - 1) ∧ (tail < 1 → t = buf.length - 1) :=
    ⟨_, rfl, by split_ifs <;> omega, by split_ifs <;> omega,
      fun h => by rw [if_neg (by omega)], fun h => by rw [if_pos (by omega)]⟩
  obtain ⟨hlt, hidx⟩ := index_ok buf t ht0 (by simpa [len] using ht1)
  refine ⟨buf[t.toNat],
    { buf := buf.set t.toNat default, head := head, tail := t, count := count - 1 },
    ?_, ?_, ?_, rfl, ?_, ?_⟩
  · simp only [PopBack, len, et, hidx, assign]
    simp [hc, ht0, ht1, bind, Except.bind, pure, Except.pure]
  · rw [Inv_iff]
    simp only [len, List.length_set]
    refine ⟨by omega, by omega, by omega, fun _ => ⟨by omega, by omega, ?_, ?_⟩⟩ <;>
      intro hh <;> by_cases h5 : head + count < buf.length <;> by_cases h6 : 1 ≤ tail <;>
      first
        | (have k1 := g3 h5; have k2 := ht2 h6; omega)
        | (have k1 := g3 h5; have k2 := ht3 (by omega); omega)
        | (have k1 := g4 (by omega); have k2 := ht2 h6; omega)
        | (have k1 := g4 (by omega); have k2 := ht3 (by omega); omega)
  · have key : (head.toNat + (count - 1).toNat) % buf.length = t.toNat := by
      rw [mod_wrap _ _ (by omega)]
      by_cases h5 : head + count < buf.length <;> by_cases h6 : 1 ≤ tail <;> split_ifs <;>
      first
        | (have k1 := g3 h5; have k2 := ht2 h6; omega)
        | (have k1 := g3 h5; have k2 := ht3 (by omega); omega)
        | (have k1 := g4 (by omega); have k2 := ht2 h6; omega)
        | (have k1 := g4 (by omega); have k2 := ht3 (by omega); omega)
    apply toList_snoc
    · simp only
      omega
    · intro i hi
      simp only at hi ⊢
      simp only [List.length_set, getD_set]
      have ne : ¬ (t.toNat = (head.toNat + i) % buf.length ∧ t.toNat < buf.length) := by
        rw [← key, mod_wrap _ _ (by omega), mod_wrap _ _ (by omega)]
        split_ifs <;> omega
      rw [if_neg ne]
    · simp only
      rw [key]
      exact getD_of_lt _ _ _ hlt
  · simp
  · simp only [Back, len, et, hidx]
    simp [hc]


theorem rotate_getD {T : Type} (buf R : List T) (hd i : Nat) (dflt : T)
    (hhd : hd ≤ buf.length) (hi : i < buf.length) :
    (buf.drop hd ++ buf.take hd ++ R).getD i dflt = buf.getD ((hd + i) % buf.length) dflt := by
  rw [mod_wrap _ _ (by omega)]
  simp only [List.getD_eq_getElem?_getD]
  congr 1
  by_cases h : hd + i < buf.length
  · rw [if_pos h, List.append_assoc, List.getElem?_append_left (by simp; omega),
      List.getElem?_drop]
  · rw [if_neg h, List.append_assoc, List.getElem?_append_right (by simp; omega),
      List.getElem?_append_left (by simp; omega), List.getElem?_take_of_lt (by simp; omega)]
    congr 1
    simp
    omega

theorem PushBack_spec {T : Type} [Inhabited T] (d : Deque T) (h : Inv d) (v : T) :
    ∃ e, PushBack d v = Except.ok e ∧ Inv e ∧ toList e = toList d ++ [v] ∧
      e.count = d.count + 1 := by
  obtain ⟨buf, head, tail, count⟩ := d
  rw [Inv_iff] at h
  simp only [len] at h
  obtain ⟨h1, h2, h3, h4⟩ := h
  by_cases hfull : count = buf.length
  · -- the buffer is full, so grow runs first
    have hhd : head = (head.toNat : Int) := by
      by_cases hn : (buf.length : Int) = 0
      · have := h3 hn; omega
      · have := h4 (by omega); omega
    have htl : tail = (((head.toNat + buf.length) % buf.length : Nat) : Int) := by
      by_cases hn : buf.length = 0
      · have := h3 (by omega)
        rw [hn]
        simp
        omega
      · have := h4 (by omega)
        rw [Nat.add_mod_right, Nat.mod_eq_of_lt (by omega)]
        omega
    have hlt : head.toNat < buf.length ∨ (head.toNat = 0 ∧ buf.length = 0) := by
      by_cases hn : buf.length = 0
      · have := h3 (by omega); right; omega
      · have := h4 (by omega); left; omega
    have hg := grow_full buf head.toNat hlt
    rw [← htl, ← hhd, ← hfull] at hg
    obtain ⟨M, hM, hM1⟩ : ∃ M, max 1 buf.length = M ∧ 1 ≤ M ∧ buf.length ≤ M :=
      ⟨_, rfl, by omega, by omega⟩
    rw [hM] at hg
    have hBlen : (buf.drop head.toNat ++ buf.take head.toNat ++
        List.replicate M (default : T)).length = buf.length + M := by
      simp
      omega
    generalize hB : buf.drop head.toNat ++ buf.take head.toNat ++
        List.replicate M (default : T) = B at hg hBlen
    refine ⟨{ buf := B.set buf.length v, head := 0
              tail := if (buf.length : Int) + 1 = B.length then 0 else (buf.length : Int) + 1
              count := count + 1 }, ?_, ?_, ?_, rfl⟩
    · simp only [PushBack, len, hfull, if_true, bind, Except.bind]
      rw [← hfull, hg]
      simp only [assign, len, hfull]
      have hMpos : 0 < M := by omega
      simp [hBlen, pure, Except.pure, hMpos]
    · rw [Inv_iff]
      simp only [len, List.length_set, hBlen]
      refine ⟨by omega, by omega, by omega, fun _ => ?_⟩
      push_cast
      split_ifs <;> refine ⟨trivial, by omega, fun hh => by omega, fun hh => by omega⟩
    · apply toList_snoc
      · simp only
        omega
      · intro i hi
        simp only at hi ⊢
        simp only [List.length_set, getD_set, hBlen, Int.toNat_zero, Nat.zero_add]
        rw [Nat.mod_eq_of_lt (by omega), if_neg (by omega), ← hB]
        exact rotate_getD buf _ head.toNat i default (by omega) (by omega)
      · simp only [List.length_set, getD_set, hBlen, Int.toNat_zero, Nat.zero_add]
        have : count.toNat = buf.length := by omega
        rw [this, Nat.mod_eq_of_lt (by omega), if_pos ⟨rfl, by omega⟩]
  · -- there is room, the element goes to the slot at tail
    have hn : (0 : Int) < buf.length := by omega
    obtain ⟨g1, g2, g3, g4⟩ := h4 hn
    have ht0 : 0 ≤ tail := by
      by_cases h5 : head + count < buf.length
      · have := g3 h5; omega
      · have := g4 (by omega); omega
    have ht1 : tail < buf.length := by
      by_cases h5 : head + count < buf.length
      · have := g3 h5; omega
      · have := g4 (by omega); omega
    have key : (head.toNat + count.toNat) % buf.length = tail.toNat := by
      rw [mod_wrap _ _ (by omega)]
      by_cases h5 : head + count < buf.length
      · have := g3 h5; rw [if_pos (by omega)]; omega
      · have := g4 (by omega); rw [if_neg (by omega)]; omega
    refine ⟨{ buf := buf.set tail.toNat v, head := head
              tail := if tail + 1 = (buf.length : Int) then 0 else tail + 1
              count := count + 1 }, ?_, ?_, ?_, rfl⟩
    · simp only [PushBack, len, hfull, if_false, bind, Except.bind, pure, Except.pure, assign]
      simp [ht0, ht1]
    · rw [Inv_iff]
      simp only [len, List.length_set]
      refine ⟨by omega, by omega, by omega, fun _ => ⟨g1, g2, ?_, ?_⟩⟩ <;> intro hh <;>
        by_cases h5 : head + count < buf.length <;> split_ifs <;>
        first
          | (have k1 := g3 h5; omega)
          | (have k1 := g4 (by omega); omega)
    · apply toList_snoc
      · simp only
        omega
      · intro i hi
        simp only at hi ⊢
        simp only [List.length_set, getD_set]
        have ne : ¬ (tail.toNat = (head.toNat + i) % buf.length ∧ tail.toNat < buf.length) := by
          rw [← key, mod_wrap _ _ (by omega), mod_wrap _ _ (by omega)]
          split_ifs <;> omega
        rw [if_neg ne]
      · simp only [List.length_set, getD_set]
        rw [key, if_pos ⟨rfl, by omega⟩]


theorem clearIter_ok {T : Type} [Inhabited T] (head : Int) (buf : List T) (i : Nat)
    (h0 : 0 ≤ head) (hn : 0 < buf.length) :
    ∃ b, clearIter head buf i = Except.ok b ∧ b.length = buf.length := by
  have hpos : (0 : Int) < len buf := by
    simp only [len]
    omega
  have h1 : 0 ≤ Int.tmod (head + (i : Int)) (len buf) := Int.tmod_nonneg _ (by omega)
  have h2 : Int.tmod (head + (i : Int)) (len buf) < len buf := Int.tmod_lt_of_pos _ hpos
  refine ⟨buf.set (Int.tmod (head + (i : Int)) (len buf)).toNat default, ?_, by simp⟩
  simp only [clearIter, rem, assign, bind, Except.bind]
  rw [if_neg (by omega)]
  simp only
  rw [if_pos ⟨h1, h2⟩]

theorem clearLoop_ok {T : Type} [Inhabited T] (head : Int) (k : Nat) (buf : List T)
    (h0 : 0 ≤ head) (hn : 0 < buf.length) :
    ∃ b, (List.range k).foldlM (clearIter head) buf = Except.ok b ∧
      b.length = buf.length := by
  induction k with
  | zero => exact ⟨buf, rfl, rfl⟩
  | succ k ih =>
    obtain ⟨b, hb, hl⟩ := ih
    obtain ⟨c, hc, hl'⟩ := clearIter_ok head b k h0 (by omega)
    refine ⟨c, ?_, by omega⟩
    rw [List.range_succ, List.foldlM_append, hb]
    simp only [bind, Except.bind, List.foldlM, hc]
    rfl

theorem Clear_spec {T : Type} [Inhabited T] (d : Deque T) (h : Inv d) :
    ∃ e, Clear d = Except.ok e ∧ Inv e ∧ toList e = [] ∧ e.count = 0 := by
  obtain ⟨buf, head, tail, count⟩ := d
  by_cases hc : count = 0
  · subst hc
    refine ⟨_, ?_, h, ?_, rfl⟩
    · simp [Clear]
      rfl
    · simp [toList]
  · rw [Inv_iff] at h
    simp only [len] at h
    obtain ⟨h1, h2, h3, h4⟩ := h
    obtain ⟨g1, g2, -, -⟩ := h4 (by omega)
    obtain ⟨b, hb, hl⟩ := clearLoop_ok head count.toNat buf g1 (by omega)
    refine ⟨{ buf := b, head := 0, tail := 0, count := 0 }, ?_, ?_, ?_, rfl⟩
    · simp only [Clear, hc, if_false, bind, Except.bind, hb]
      rfl
    · rw [Inv_iff]
      simp only [len]
      refine ⟨by omega, by omega, fun _ => by simp,
        fun _ => ⟨by omega, by omega, ?_, ?_⟩⟩ <;> intro hh <;> omega
    · simp [toList]

/-- A reachable deque satisfies the invariant and its logical sequence is the
one its history gives. -/
theorem Holds_sound {T : Type} [Inhabited T] {d : Deque T} {s : List T} (h : Holds d s) :
    Inv d ∧ toList d = s := by
  induction h with
  | zero => exact ⟨Inv_zero, by simp [toList, Deque.zero]⟩
  | pushBack v _ hp ih =>
    obtain ⟨e, he, hi, ht, -⟩ := PushBack_spec _ ih.1 v
    rw [he] at hp
    cases hp
    exact ⟨hi, by rw [ht, ih.2]⟩
  | @popFront d e s v _ hp ih =>
    have hc : d.count ≠ 0 := by
      intro h0
      simp [PopFront, h0] at hp
      cases hp
    obtain ⟨w, f, hf, hi, ht, -⟩ := PopFront_spec _ ih.1 hc
    rw [hf] at hp
    cases hp
    refine ⟨hi, ?_⟩
    rw [← ih.2, ht]
    rfl
  | @popBack d e s v _ hp ih =>
    have hc : d.count ≠ 0 := by
      intro h0
      simp [PopBack, h0] at hp
      cases hp
    obtain ⟨w, f, hf, hi, ht, -⟩ := PopBack_spec _ ih.1 hc
    rw [hf] at hp
    cases hp
    refine ⟨hi, ?_⟩
    rw [← ih.2, ht]
    simp
  | clear _ hp ih =>
    obtain ⟨e, he, hi, ht, -⟩ := Clear_spec _ ih.1
    rw [he] at hp
    cases hp
    exact ⟨hi, ht⟩


theorem pushAll_spec {T : Type} [Inhabited T] (xs : List T) (d : Deque T) (h : Inv d) :
    ∃ e, pushAll d xs = Except.ok e ∧ Inv e ∧ toList e = toList d ++ xs ∧
      e.count = d.count + xs.length := by
  induction xs generalizing d with
  | nil => exact ⟨d, rfl, h, by simp, by simp⟩
  | cons x xs ih =>
    obtain ⟨e, he, hi, ht, hc⟩ := PushBack_spec d h x
    obtain ⟨f, hf, hj, hu, hk⟩ := ih e hi
    refine ⟨f, ?_, hj, ?_, ?_⟩
    · simp only [pushAll, bind, Except.bind, he, hf]
    · rw [hu, ht]
      simp
    · rw [hk, hc]
      simp
      omega

theorem popFrontN_spec {T : Type} [Inhabited T] (n : Nat) (d : Deque T) (h : Inv d)
    (hn : d.count = n) :
    ∃ e, popFrontN d n = Except.ok (toList d, e) ∧ Inv e ∧ e.count = 0 := by
  induction n generalizing d with
  | zero =>
    refine ⟨d, ?_, h, by simpa using hn⟩
    have : toList d = [] := by simp [toList, hn]
    rw [this]
    rfl
  | succ n ih =>
    have hc : d.count ≠ 0 := by omega
    obtain ⟨v, e, he, hi, ht, hk, -⟩ := PopFront_spec d h hc
    obtain ⟨f, hf, hj, hz⟩ := ih e hi (by rw [hk, hn]; simp)
    refine ⟨f, ?_, hj, hz⟩
    simp only [popFrontN, bind, Except.bind, he, hf, ht]
    rfl

/-- C9: the deque is first-in first-out under `PushBack` and `PopFront`. For
a deque reachable from the zero value that holds the sequence `s`, and every
list `xs`: `PushBack` of each element of `xs` in order succeeds, `Len()` is
then `len(s) + len(xs)`, that many calls of `PopFront` succeed and return the
elements of `s` followed by those of `xs`, in order, and `Len()` is then 0. -/
theorem PushBack_PopFront_is_fifo {T : Type} [Inhabited T] (d : Deque T) (s xs : List T)
    (h : Holds d s) :
    ∃ d₁ d₂, pushAll d xs = Except.ok d₁ ∧ Len d₁ = (s.length : Int) + xs.length ∧
      popFrontN d₁ (s.length + xs.length) = Except.ok (s ++ xs, d₂) ∧ Len d₂ = 0 := by
  obtain ⟨hi, hs⟩ := Holds_sound h
  obtain ⟨e, he, hj, ht, hc⟩ := pushAll_spec xs d hi
  have hlen : d.count = (s.length : Int) := by
    have := toList_length d
    rw [hs] at this
    rw [Inv_iff] at hi
    omega
  have hn : e.count = ((s.length + xs.length : Nat) : Int) := by
    rw [hc, hlen]
    simp
  obtain ⟨f, hf, -, hz⟩ := popFrontN_spec _ e hj hn
  refine ⟨e, f, he, ?_, ?_, hz⟩
  · simp only [Len]
    rw [hc, hlen]
  · rw [hf, ht, hs]

/-- C9 (witness): the theorem for the deque that holds `[5]` after one
`PushBack(5)` on the zero value, and `xs = [6, 7]`. -/
theorem PushBack_PopFront_is_fifo_witness :
    Holds ({ buf := [5], head := 0, tail := 0, count := 1 } : Deque Nat) [5] ∧
    ∃ d₁ d₂, pushAll ({ buf := [5], head := 0, tail := 0, count := 1 } : Deque Nat) [6, 7] =
        Except.ok d₁ ∧
      Len d₁ = (([5] : List Nat).length : Int) + ([6, 7] : List Nat).length ∧
      popFrontN d₁ (([5] : List Nat).length + ([6, 7] : List Nat).length) =
        Except.ok ([5] ++ [6, 7], d₂) ∧ Len d₂ = 0 :=
  ⟨Holds.pushBack 5 Holds.zero rfl,
    PushBack_PopFront_is_fifo _ [5] [6, 7] (Holds.pushBack 5 Holds.zero rfl)⟩

/-- C10: on a deque reachable from the zero value, `PopFront`, `PopBack`,
`Front` and `Back` abort exactly when `Len()` is 0: then each of them panics
with its own message (also on the zero value, which has no buffer), and
otherwise each of them returns a result, without a panic and without an index
out of range. -/
theorem pop_and_peek_panic_iff_empty {T : Type} [Inhabited T] (d : Deque T) (s : List T)
    (h : Holds d s) :
    (Len d = 0 →
      PopFront d = Except.error (Panic.message "queue: PopFront called on empty deque") ∧
      PopBack d = Except.error (Panic.message "queue: PopBack called on empty deque") ∧
      Front d = Except.error (Panic.message "queue: Front called on empty deque") ∧
      Back d = Except.error (Panic.message "queue: Back called on empty deque")) ∧
    (Len d ≠ 0 →
      (PopFront d).isOk = true ∧ (PopBack d).isOk = true ∧ (Front d).isOk = true ∧
        (Back d).isOk = true) := by
  obtain ⟨hi, -⟩ := Holds_sound h
  constructor
  · intro h0
    simp only [Len] at h0
    simp [PopFront, PopBack, Front, Back, h0]
    refine ⟨rfl, rfl, rfl, rfl⟩
  · intro h0
    simp only [Len] at h0
    obtain ⟨v, e, h1, -, -, -, -, h2⟩ := PopFront_spec d hi h0
    obtain ⟨w, f, h3, -, -, -, -, h4⟩ := PopBack_spec d hi h0
    rw [h1, h2, h3, h4]
    exact ⟨rfl, rfl, rfl, rfl⟩

/-- C10 (witness): the theorem for the zero value. -/
theorem pop_and_peek_panic_iff_empty_witness :
    Holds (Deque.zero : Deque Nat) [] ∧
    ((Len (Deque.zero : Deque Nat) = 0 →
      PopFront (Deque.zero : Deque Nat) =
        Except.error (Panic.message "queue: PopFront called on empty deque") ∧
      PopBack (Deque.zero : Deque Nat) =
        Except.error (Panic.message "queue: PopBack called on empty deque") ∧
      Front (Deque.zero : Deque Nat) =
        Except.error (Panic.message "queue: Front called on empty deque") ∧
      Back (Deque.zero : Deque Nat) =
        Except.error (Panic.message "queue: Back called on empty deque")) ∧
    (Len (Deque.zero : Deque Nat) ≠ 0 →
      (PopFront (Deque.zero : Deque Nat)).isOk = true ∧
      (PopBack (Deque.zero : Deque Nat)).isOk = true ∧
      (Front (Deque.zero : Deque Nat)).isOk = true ∧
      (Back (Deque.zero : Deque Nat)).isOk = true)) :=
  ⟨Holds.zero, pop_and_peek_panic_iff_empty Deque.zero [] Holds.zero⟩

end queue
namespace queue

theorem Holds_wrapped : Holds wrapped [2, 3] := by
  have h1 : Holds ({ buf := [1], head := 0, tail := 0, count := 1 } : Deque Nat) [1] :=
    Holds.pushBack 1 Holds.zero rfl
  have h2 : Holds ({ buf := [1, 2], head := 0, tail := 0, count := 2 } : Deque Nat) [1, 2] :=
    Holds.pushBack 2 h1 rfl
  have h3 : Holds ({ buf := [0, 2], head := 1, tail := 0, count := 1 } : Deque Nat) [2] :=
    Holds.popFront (v := 1) h2 rfl
  exact Holds.pushBack 3 h3 rfl

theorem Inv_wrappedFull : Inv wrappedFull := by
  simp [Inv, wrappedFull, len]

/-- What `grow` does to a full deque: the sequence stays, it starts at slot 0
of a buffer of twice the length (of length 1 for the empty buffer). -/
theorem grow_spec {T : Type} [Inhabited T] (d : Deque T) (h : Inv d)
    (hf : d.count = len d.buf) :
    ∃ e, grow d = Except.ok e ∧ Inv e ∧ toList e = toList d ∧ e.head = 0 ∧
      e.tail = d.count ∧ e.count = d.count ∧ len e.buf = max 1 (2 * len d.buf) := by
  obtain ⟨buf, head, tail, count⟩ := d
  rw [Inv_iff] at h
  simp only [len] at h hf
  obtain ⟨h1, h2, h3, h4⟩ := h
  subst hf
  have hhd : head = (head.toNat : Int) := by
    by_cases hn : (buf.length : Int) = 0
    · have := h3 hn; omega
    · have := h4 (by omega); omega
  have htl : tail = (((head.toNat + buf.length) % buf.length : Nat) : Int) := by
    by_cases hn : buf.length = 0
    · have := h3 (by omega)
      rw [hn]
      simp
      omega
    · have := h4 (by omega)
      rw [Nat.add_mod_right, Nat.mod_eq_of_lt (by omega)]
      omega
  have hlt : head.toNat < buf.length ∨ (head.toNat = 0 ∧ buf.length = 0) := by
    by_cases hn : buf.length = 0
    · have := h3 (by omega); right; omega
    · have := h4 (by omega); left; omega
  have hg := grow_full buf head.toNat hlt
  rw [← htl, ← hhd] at hg
  obtain ⟨M, hM, hM1, hM2⟩ : ∃ M, max 1 buf.length = M ∧ 1 ≤ M ∧
      (buf.length : Int) + M = max 1 (2 * (buf.length : Int)) := by
    refine ⟨_, rfl, by omega, ?_⟩
    rcases Nat.eq_zero_or_pos buf.length with h0 | h0
    · rw [h0]; rfl
    · rw [max_eq_right (by omega), max_eq_right (by omega)]
      omega
  rw [hM] at hg
  have hBlen : (buf.drop head.toNat ++ buf.take head.toNat ++
      List.replicate M (default : T)).length = buf.length + M := by
    simp
    omega
  refine ⟨_, hg, ?_, ?_, rfl, rfl, rfl, ?_⟩
  · rw [Inv_iff]
    simp only [len, hBlen]
    refine ⟨by omega, by omega, by omega, fun _ => ?_⟩
    push_cast
    refine ⟨trivial, by omega, fun hh => by omega, fun hh => by omega⟩
  · apply toList_ext
    · rfl
    · intro i hi
      simp only at hi ⊢
      simp only [hBlen, Int.toNat_zero, Nat.zero_add]
      rw [Nat.mod_eq_of_lt (by omega)]
      exact rotate_getD buf _ head.toNat i default (by omega) (by omega)
  · simp only [len, hBlen]
    rw [← hM2]
    push_cast
    rfl

end queue
namespace queue

/-- C11: `Clear` removes all elements. For every deque reachable from the
zero value (holding any sequence `s`, wrapped or not), `Clear` returns without
a panic, `Len()` is then 0 and the deque holds the empty sequence; and for
every `v`, `PushBack(v)` on the cleared deque succeeds, after which `Front()`
returns `v` and `Len()` is 1. -/
theorem Clear_removes_all_elements {T : Type} [Inhabited T] (d : Deque T) (s : List T)
    (h : Holds d s) :
    ∃ e, Clear d = Except.ok e ∧ Len e = 0 ∧ Holds e [] ∧
      ∀ v, ∃ f, PushBack e v = Except.ok f ∧ Front f = Except.ok v ∧ Len f = 1 := by
  obtain ⟨hi, -⟩ := Holds_sound h
  obtain ⟨e, he, hj, ht, hc⟩ := Clear_spec d hi
  refine ⟨e, he, hc, Holds.clear h he, fun v => ?_⟩
  obtain ⟨f, hf, hk, hs, hn⟩ := PushBack_spec e hj v
  have hne : f.count ≠ 0 := by omega
  obtain ⟨w, g, -, -, hw, -, -, hfr⟩ := PopFront_spec f hk hne
  rw [hs, ht, List.nil_append] at hw
  have hv : v = w := by
    have := congrArg List.head? hw
    simpa using this
  refine ⟨f, hf, ?_, ?_⟩
  · rw [hfr, hv]
  · simp only [Len]
    omega

/-- C11 (witness): the theorem for the wrapped, full deque `wrapped`. -/
theorem Clear_removes_all_elements_witness :
    Holds wrapped [2, 3] ∧
    ∃ e, Clear wrapped = Except.ok e ∧ Len e = 0 ∧ Holds e [] ∧
      ∀ v, ∃ f, PushBack e v = Except.ok f ∧ Front f = Except.ok v ∧ Len f = 1 :=
  ⟨Holds_wrapped, Clear_removes_all_elements wrapped [2, 3] Holds_wrapped⟩

/-- C14: growing and wrap-around preserve order. For every deque that
satisfies the ring-buffer invariant and whose buffer is full, `grow` returns a
deque with the same sequence of elements, front to back, with `head` 0, `tail`
equal to `count`, the same `count` and a buffer of length
`max(1, 2 * len(buf))`; and `PushBack(v)` on it, which grows, puts `v` at the
back of that sequence, wherever `head` is. In the run of
`TestDequeWrapAndGrow`, pushing 0, 1, 2, popping two, pushing 3 to 9 (the
push of 6 grows the full buffer `wrappedFull`, whose `head` is 2) and popping
eight times returns 2 to 9 in order. -/
theorem grow_preserves_order {T : Type} [Inhabited T] (d : Deque T) (h : Inv d)
    (hf : d.count = len d.buf) :
    (∃ e, grow d = Except.ok e ∧ toList e = toList d ∧ e.head = 0 ∧ e.tail = d.count ∧
      e.count = d.count ∧ len e.buf = max 1 (2 * len d.buf)) ∧
    (∀ v, ∃ f, PushBack d v = Except.ok f ∧ toList f = toList d ++ [v]) ∧
    (∃ d₁ d₂ d₃ d₄ d₅ : Deque Nat, pushAll Deque.zero [0, 1, 2] = Except.ok d₁ ∧
      popFrontN d₁ 2 = Except.ok ([0, 1], d₂) ∧
      pushAll d₂ [3, 4, 5] = Except.ok wrappedFull ∧ wrappedFull.head = 2 ∧
      wrappedFull.count = len wrappedFull.buf ∧
      PushBack wrappedFull 6 = Except.ok d₃ ∧ len d₃.buf = 8 ∧
      pushAll d₃ [7, 8, 9] = Except.ok d₄ ∧
      popFrontN d₄ 8 = Except.ok ([2, 3, 4, 5, 6, 7, 8, 9], d₅) ∧ Len d₅ = 0) := by
  refine ⟨?_, fun v => ?_, ?_⟩
  · obtain ⟨e, he, -, h1, h2, h3, h4, h5⟩ := grow_spec d h hf
    exact ⟨e, he, h1, h2, h3, h4, h5⟩
  · obtain ⟨f, hf1, -, hf2, -⟩ := PushBack_spec d h v
    exact ⟨f, hf1, hf2⟩
  · exact ⟨_, _, _, _, _, rfl, rfl, rfl, rfl, rfl, rfl, rfl, rfl, rfl, rfl⟩

/-- C14 (witness): the theorem for the full deque `wrappedFull`, whose
elements wrap around the end of the buffer. -/
theorem grow_preserves_order_witness :
    Inv wrappedFull ∧ wrappedFull.count = len wrappedFull.buf ∧ wrappedFull.head ≠ 0 ∧
    (∃ e, grow wrappedFull = Except.ok e ∧ toList e = toList wrappedFull ∧ e.head = 0 ∧
      e.tail = wrappedFull.count ∧ e.count = wrappedFull.count ∧
      len e.buf = max 1 (2 * len wrappedFull.buf)) :=
  ⟨Inv_wrappedFull, rfl, by decide, (grow_preserves_order wrappedFull Inv_wrappedFull rfl).1⟩

/-- C15: `Front` and `Back` are pure peeks. For every non-empty deque
reachable from the zero value, holding the sequence `s`: `Front()` returns the
first element of `s`, which is the value the next `PopFront` returns, and
`Back()` returns the last element of `s`, which is the value the next
`PopBack` returns. `Front` and `Back` return a value only: they assign to no
field of the deque, so its contents and `Len()` are those before the call. -/
theorem Front_Back_are_pure_peeks {T : Type} [Inhabited T] (d : Deque T) (s : List T)
    (h : Holds d s) (hn : Len d ≠ 0) :
    ∃ a b e f, s.head? = some a ∧ s.getLast? = some b ∧
      Front d = Except.ok a ∧ PopFront d = Except.ok (a, e) ∧
      Back d = Except.ok b ∧ PopBack d = Except.ok (b, f) := by
  obtain ⟨hi, hs⟩ := Holds_sound h
  simp only [Len] at hn
  obtain ⟨a, e, h1, -, h2, -, -, h3⟩ := PopFront_spec d hi hn
  obtain ⟨b, f, h4, -, h5, -, -, h6⟩ := PopBack_spec d hi hn
  refine ⟨a, b, e, f, ?_, ?_, h3, h1, h6, h4⟩
  · rw [← hs, h2]
    rfl
  · rw [← hs, h5]
    simp

/-- C15 (witness): the theorem for the wrapped deque `wrapped`. -/
theorem Front_Back_are_pure_peeks_witness :
    Holds wrapped [2, 3] ∧ Len wrapped ≠ 0 ∧
    ∃ a b e f, ([2, 3] : List Nat).head? = some a ∧ ([2, 3] : List Nat).getLast? = some b ∧
      Front wrapped = Except.ok a ∧ PopFront wrapped = Except.ok (a, e) ∧
      Back wrapped = Except.ok b ∧ PopBack wrapped = Except.ok (b, f) :=
  ⟨Holds_wrapped, by decide,
    Front_Back_are_pure_peeks wrapped [2, 3] Holds_wrapped (by decide)⟩

/-- C16: the ring-buffer invariant. Every deque reachable from the zero value
by `PushBack`, `PopFront`, `PopBack`, `Front`, `Back` and `Clear` has
`0 <= count <= len(buf)`; if `len(buf) == 0` then `head`, `tail` and `count`
are 0; if `len(buf) > 0` then `0 <= head < len(buf)`, `0 <= tail < len(buf)`
and `tail == (head + count) mod len(buf)`. Hence no index is out of range:
`PushBack` and `Clear` return without a panic, and so do `PopFront`,
`PopBack`, `Front` and `Back` on a non-empty deque. -/
theorem ring_buffer_invariant {T : Type} [Inhabited T] (d : Deque T) (s : List T)
    (h : Holds d s) :
    (0 ≤ d.count ∧ d.count ≤ len d.buf) ∧
    (len d.buf = 0 → d.head = 0 ∧ d.tail = 0 ∧ d.count = 0) ∧
    (0 < len d.buf → 0 ≤ d.head ∧ d.head < len d.buf ∧ 0 ≤ d.tail ∧ d.tail < len d.buf ∧
      d.tail = (d.head + d.count) % len d.buf) ∧
    (∀ v, (PushBack d v).isOk = true) ∧ (Clear d).isOk = true ∧
    (Len d ≠ 0 → (PopFront d).isOk = true ∧ (PopBack d).isOk = true ∧
      (Front d).isOk = true ∧ (Back d).isOk = true) := by
  obtain ⟨hi, -⟩ := Holds_sound h
  have hi' := hi
  obtain ⟨h1, h2, h3, h4⟩ := hi'
  refine ⟨⟨h1, h2⟩, h3, h4, fun v => ?_, ?_, fun hn => ?_⟩
  · obtain ⟨e, he, -⟩ := PushBack_spec d hi v
    rw [he]
    rfl
  · obtain ⟨e, he, -⟩ := Clear_spec d hi
    rw [he]
    rfl
  · simp only [Len] at hn
    obtain ⟨v, e, g1, -, -, -, -, g2⟩ := PopFront_spec d hi hn
    obtain ⟨w, f, g3, -, -, -, -, g4⟩ := PopBack_spec d hi hn
    rw [g1, g2, g3, g4]
    exact ⟨rfl, rfl, rfl, rfl⟩

/-- C16 (witness): the theorem for the wrapped deque `wrapped`. -/
theorem ring_buffer_invariant_witness :
    Holds wrapped [2, 3] ∧
    ((0 ≤ wrapped.count ∧ wrapped.count ≤ len wrapped.buf) ∧
    (len wrapped.buf = 0 → wrapped.head = 0 ∧ wrapped.tail = 0 ∧ wrapped.count = 0) ∧
    (0 < len wrapped.buf → 0 ≤ wrapped.head ∧ wrapped.head < len wrapped.buf ∧
      0 ≤ wrapped.tail ∧ wrapped.tail < len wrapped.buf ∧
      wrapped.tail = (wrapped.head + wrapped.count) % len wrapped.buf) ∧
    (∀ v, (PushBack wrapped v).isOk = true) ∧ (Clear wrapped).isOk = true ∧
    (Len wrapped ≠ 0 → (PopFront wrapped).isOk = true ∧ (PopBack wrapped).isOk = true ∧
      (Front wrapped).isOk = true ∧ (Back wrapped).isOk = true)) :=
  ⟨Holds_wrapped, ring_buffer_invariant wrapped [2, 3] Holds_wrapped⟩

/-- C17: `PopBack` undoes `PushBack`. For every deque `d` reachable from the
zero value, holding the sequence `s`, and every `v`: `PushBack(v)` succeeds
(also when it grows the buffer or wraps the tail index to 0), the `PopBack()`
that follows returns `v`, and the deque then holds the sequence `s` again and
has the `Len()` of `d`. -/
theorem PopBack_undoes_PushBack {T : Type} [Inhabited T] (d : Deque T) (s : List T)
    (h : Holds d s) (v : T) :
    ∃ e f, PushBack d v = Except.ok e ∧ PopBack e = Except.ok (v, f) ∧
      toList f = toList d ∧ Holds f s ∧ Len f = Len d := by
  obtain ⟨hi, hs⟩ := Holds_sound h
  obtain ⟨e, he, hj, ht, hc⟩ := PushBack_spec d hi v
  have hi' := hi
  obtain ⟨h0, -⟩ := hi'
  have hne : e.count ≠ 0 := by omega
  obtain ⟨w, f, hf, hk, hu, hn, -, -⟩ := PopBack_spec e hj hne
  rw [ht] at hu
  have hsplit := List.append_inj' hu (by simp)
  have hw : w = v := by
    have := hsplit.2
    simp only [List.cons.injEq, and_true] at this
    exact this.symm
  subst hw
  refine ⟨e, f, he, hf, hsplit.1.symm, ?_, ?_⟩
  · have := Holds.popBack (Holds.pushBack w h he) hf
    simpa using this
  · simp only [Len]
    omega

/-- C17 (witness): the theorem for the full deque `wrapped`, on which
`PushBack` grows the buffer, and the value 7. -/
theorem PopBack_undoes_PushBack_witness :
    Holds wrapped [2, 3] ∧
    ∃ e f, PushBack wrapped 7 = Except.ok e ∧ PopBack e = Except.ok (7, f) ∧
      toList f = toList wrapped ∧ Holds f [2, 3] ∧ Len f = Len wrapped :=
  ⟨Holds_wrapped, PopBack_undoes_PushBack wrapped [2, 3] Holds_wrapped 7⟩

end queue
namespace pool

theorem buffer_WF_zero : Buffer.zero.WF := by
  simp [Buffer.WF, Buffer.zero]

theorem buffer_WF_Reset (b : Buffer) : b.Reset.WF := by
  simp [Buffer.WF, Buffer.Reset]

/-- What `grow` guarantees when it returns: the unread bytes stay, the
storage does not shrink, the buffer stays well formed and `n` more bytes
fit. -/
theorem buffer_grow_spec (b c : Buffer) (n : Nat) (a : Alloc) (h : b.WF)
    (hg : b.grow n a = some c) :
    c.Bytes = b.Bytes ∧ b.cap ≤ c.cap ∧ c.WF ∧ c.buf.length + n ≤ c.cap := by
  obtain ⟨buf, off, cap⟩ := b
  simp only [Buffer.WF] at h
  obtain ⟨h1, h2⟩ := h
  simp only [Buffer.grow, Buffer.Reset] at hg
  by_cases he : buf.length - off = 0 ∧ off ≠ 0
  · have hb : List.drop off buf = [] := List.drop_of_length_le (by omega)
    rw [if_pos he] at hg
    simp only [List.length_nil, Nat.sub_zero] at hg
    split_ifs at hg <;> simp only [Option.some.injEq, reduceCtorEq] at hg <;> subst hg <;>
      simp [Buffer.Bytes, Buffer.WF, hb] <;> omega
  · rw [if_neg he] at hg
    simp only at hg
    split_ifs at hg <;> simp only [Option.some.injEq, reduceCtorEq] at hg <;> subst hg <;>
      simp [Buffer.Bytes, Buffer.WF] <;> omega

/-- On the zero buffer `grow(n)` for `n > 0` allocates: it returns storage of
`n + slack` bytes when that is within the limit, and panics otherwise. -/
theorem buffer_grow_zero (n : Nat) (a : Alloc) (hn : 0 < n) :
    Buffer.zero.grow n a =
      if a.limit < n + a.slack then none
      else some { buf := [], off := 0, cap := n + a.slack } := by
  simp only [Buffer.grow, Buffer.zero]
  have h1 : ¬ n ≤ 0 := by omega
  simp [h1]

theorem buffer_Write_spec (b c : Buffer) (p : List Nat) (a : Alloc) (m : Int) (h : b.WF)
    (hw : b.Write p a = some (c, m)) :
    c.Bytes = b.Bytes ++ p ∧ b.cap ≤ c.cap ∧ c.WF ∧ m = (p.length : Int) := by
  simp only [Buffer.Write] at hw
  by_cases hr : p.length ≤ b.cap - b.buf.length
  · rw [if_pos hr] at hw
    simp only [Option.map_some', Option.some.injEq, Prod.mk.injEq] at hw
    obtain ⟨rfl, rfl⟩ := hw
    simp only [Buffer.WF] at h
    refine ⟨?_, le_refl _, ⟨?_, ?_⟩, rfl⟩
    · simp [Buffer.Bytes, List.drop_append_of_le_length h.1]
    · simp; omega
    · simp; omega
  · rw [if_neg hr] at hw
    obtain ⟨g, hg, e⟩ := Option.map_eq_some'.mp hw
    simp only [Prod.mk.injEq] at e
    obtain ⟨rfl, rfl⟩ := e
    obtain ⟨g1, g2, g3, g4⟩ := buffer_grow_spec b g p.length a h hg
    simp only [Buffer.WF] at g3
    refine ⟨?_, g2, ⟨?_, ?_⟩, rfl⟩
    · simp only [Buffer.Bytes] at g1 ⊢
      rw [List.drop_append_of_le_length g3.1, g1]
    · simp; omega
    · simp; omega

theorem buffer_Read_spec (b : Buffer) (n : Nat) (h : b.WF) :
    (b.Read n).1.WF ∧ (b.Read n).1.cap = b.cap := by
  simp only [Buffer.Read]
  split_ifs
  · exact ⟨buffer_WF_Reset b, rfl⟩
  · exact ⟨buffer_WF_Reset b, rfl⟩
  · simp only [Buffer.WF] at h ⊢
    simp
    omega

end pool
namespace pool

theorem not_cached_of_active {h : Heap} (hw : WF h) {id : Nat} {part : partition}
    (hp : h.parts[id]? = some part) (hr : part.released = false)
    {q : Nat} {P : PartitionPool} (hq : h.pools[q]? = some P) : id ∉ P.pool := by
  intro hm
  obtain ⟨part', h1, h2, -⟩ := (hw.1 q P hq).2.2 id hm
  rw [hp] at h1
  cases h1
  rw [hr] at h2
  cases h2

/-- Replacing a partition by one of the same pool with a well-formed buffer on
storage that is not smaller keeps the heap invariant, if the new one is
released or the partition is in no cache. -/
theorem WF_store {h : Heap} (hw : WF h) {id : Nat} {part part' : partition}
    (hp : h.parts[id]? = some part) (hpool : part'.pool = part.pool)
    (hbuf : part'.buf.WF) (hcap : part.buf.cap ≤ part'.buf.cap)
    (hrel : part'.released = true ∨
      ∀ (q : Nat) (P : PartitionPool), h.pools[q]? = some P → id ∉ P.pool) :
    WF { h with parts := h.parts.set id part' } := by
  have hlt : id < h.parts.length := (List.getElem?_eq_some.mp hp).1
  refine ⟨fun q P hq => ?_, fun id' part1 h1 => ?_⟩
  · obtain ⟨a, b, c⟩ := hw.1 q P hq
    refine ⟨a, b, fun id' hm => ?_⟩
    obtain ⟨part0, g1, g2, g3⟩ := c id' hm
    by_cases he : id = id'
    · subst he
      rw [hp] at g1
      cases g1
      rcases hrel with hr | hn
      · exact ⟨part', by simp [hlt], hr, by rw [hpool, g3]⟩
      · exact absurd hm (hn q P hq)
    · exact ⟨part0, by simp [List.getElem?_set, he, g1], g2, g3⟩
  · simp only [List.getElem?_set] at h1
    by_cases he : id = id'
    · subst he
      simp [hlt] at h1
      subst h1
      obtain ⟨-, q, P, g1, g2, g3⟩ := hw.2 id part hp
      exact ⟨hbuf, q, P, by rw [hpool, g1], g2, by omega⟩
    · simp [he] at h1
      exact hw.2 id' part1 h1

/-- Replacing the cache of a pool keeps the heap invariant, if the new cache
has no repetition and holds released partitions of that pool. -/
theorem WF_cache {h : Heap} (hw : WF h) {q : Nat} {P : PartitionPool}
    (hq : h.pools[q]? = some P) (c : List Nat) (hnd : c.Nodup)
    (hmem : ∀ id ∈ c, ∃ part : partition, h.parts[id]? = some part ∧ part.released = true ∧
      part.pool = some q) :
    WF { h with pools := h.pools.set q { P with pool := c } } := by
  have hlt : q < h.pools.length := (List.getElem?_eq_some.mp hq).1
  refine ⟨fun q' P' hq' => ?_, fun id part hp => ?_⟩
  · simp only [List.getElem?_set] at hq'
    by_cases he : q = q'
    · subst he
      simp [hlt] at hq'
      subst hq'
      exact ⟨(hw.1 q P hq).1, hnd, hmem⟩
    · simp [he] at hq'
      exact hw.1 q' P' hq'
  · obtain ⟨a, q0, P0, g1, g2, g3⟩ := hw.2 id part hp
    refine ⟨a, q0, ?_⟩
    by_cases he : q = q0
    · subst he
      rw [hq] at g2
      cases g2
      exact ⟨{ P with pool := c }, g1, by simp [hlt], g3⟩
    · exact ⟨P0, g1, by simp [List.getElem?_set, he, g2], g3⟩

theorem WF_empty : WF Heap.empty := by
  simp [WF, Heap.empty]

theorem WF_NewPartitionPool {h : Heap} (hw : WF h) (size : Int) :
    WF (NewPartitionPool h size).2 := by
  simp only [NewPartitionPool]
  refine ⟨fun q P hq => ?_, fun id part hp => ?_⟩
  · simp only [List.getElem?_append] at hq
    split at hq
    · exact hw.1 q P hq
    · rename_i hge
      have : q - h.pools.length = 0 := by
        by_contra hne
        rw [List.getElem?_eq_none (by simp; omega)] at hq
        cases hq
      rw [this] at hq
      simp at hq
      subst hq
      refine ⟨by simp only; split_ifs <;> omega, by simp, by simp⟩
  · obtain ⟨a, q0, P0, g1, g2, g3⟩ := hw.2 id part hp
    have hlt : q0 < h.pools.length := (List.getElem?_eq_some.mp g2).1
    exact ⟨a, q0, P0, g1, by simp only; rw [List.getElem?_append_left hlt]; exact g2, g3⟩

end pool
namespace pool

theorem Extends_refl (h : Heap) : Extends h h := fun _ Q hq => ⟨Q, hq, rfl⟩

theorem Extends_trans {h k l : Heap} (a : Extends h k) (b : Extends k l) : Extends h l := by
  intro q Q hq
  obtain ⟨R, h1, h2⟩ := a q Q hq
  obtain ⟨S, h3, h4⟩ := b q R h1
  exact ⟨S, h3, by rw [h4, h2]⟩

theorem Extends_parts (h : Heap) (ps : List partition) :
    Extends h { h with parts := ps } := fun _ Q hq => ⟨Q, hq, rfl⟩

theorem Extends_cache {h : Heap} {q : Nat} {P : PartitionPool} (hq : h.pools[q]? = some P)
    (c : List Nat) : Extends h { h with pools := h.pools.set q { P with pool := c } } := by
  have hlt : q < h.pools.length := (List.getElem?_eq_some.mp hq).1
  intro q' Q hq'
  by_cases he : q = q'
  · subst he
    rw [hq] at hq'
    cases hq'
    exact ⟨{ P with pool := c }, by simp [hlt], rfl⟩
  · exact ⟨Q, by simp [List.getElem?_set, he, hq'], rfl⟩

theorem not_mem_eraseIdx_of_nodup {l : List Nat} (hn : l.Nodup) {i a : Nat}
    (hi : l[i]? = some a) : a ∉ l.eraseIdx i := by
  intro hm
  obtain ⟨j, hj, hja⟩ := List.mem_eraseIdx_iff_getElem?.mp hm
  obtain ⟨h1, h2⟩ := List.getElem?_eq_some.mp hi
  obtain ⟨h3, h4⟩ := List.getElem?_eq_some.mp hja
  exact hj ((hn.getElem_inj_iff).mp (h4.trans h2.symm))

/-- Adding a partition of an existing pool, with a well-formed buffer on
enough storage, keeps the heap invariant. -/
theorem WF_alloc {h : Heap} (hw : WF h) {part : partition} {q : Nat} {P : PartitionPool}
    (hbuf : part.buf.WF) (hpool : part.pool = some q) (hq : h.pools[q]? = some P)
    (hcap : P.size ≤ (part.buf.cap : Int)) :
    WF { h with parts := h.parts ++ [part] } := by
  refine ⟨fun q' P' hq' => ?_, fun id part1 h1 => ?_⟩
  · obtain ⟨a, b, c⟩ := hw.1 q' P' hq'
    refine ⟨a, b, fun id hm => ?_⟩
    obtain ⟨part0, g1, g2, g3⟩ := c id hm
    have hlt : id < h.parts.length := (List.getElem?_eq_some.mp g1).1
    exact ⟨part0, by simp only; rw [List.getElem?_append_left hlt]; exact g1, g2, g3⟩
  · simp only [List.getElem?_append] at h1
    split at h1
    · exact hw.2 id part1 h1
    · have : id - h.parts.length = 0 := by
        by_contra hne
        rw [List.getElem?_eq_none (by simp; omega)] at h1
        cases h1
      rw [this] at h1
      simp at h1
      subst h1
      exact ⟨hbuf, q, P, hpool, hq, hcap⟩

/-- The function `New` of a pool: when the pool has size 0 or its buffer can
be allocated it returns a new active partition on storage of at least the
size; otherwise it panics. -/
theorem poolNew_spec {h : Heap} {p : Nat} {P : PartitionPool}
    (hsz : 0 ≤ P.size) (a : Alloc) :
    (P.size = 0 ∨ P.size + (a.slack : Int) ≤ (a.limit : Int) →
      ∃ part : partition, poolNew h p P.size a =
          some (h.parts.length, { h with parts := h.parts ++ [part] }) ∧
        part.pool = some p ∧ part.released = false ∧ part.buf.WF ∧
        P.size ≤ (part.buf.cap : Int)) ∧
    (¬ (P.size = 0 ∨ P.size + (a.slack : Int) ≤ (a.limit : Int)) →
      poolNew h p P.size a = none) := by
  simp only [poolNew]
  by_cases hs : P.size > 0
  · rw [if_pos hs]
    have hg : Buffer.zero.Grow P.size a =
        if a.limit < P.size.toNat + a.slack then none
        else some { buf := [], off := 0, cap := P.size.toNat + a.slack } := by
      simp only [Buffer.Grow]
      rw [if_neg (by omega)]
      exact buffer_grow_zero _ a (by omega)
    rw [hg]
    constructor
    · intro hf
      have hfit : ¬ a.limit < P.size.toNat + a.slack := by omega
      rw [if_neg hfit]
      refine ⟨_, rfl, rfl, rfl, ?_, ?_⟩
      · simp only [Buffer.WF, List.length_nil]
        omega
      · simp only
        omega
    · intro hf
      have hfit : a.limit < P.size.toNat + a.slack := by omega
      rw [if_pos hfit]
      rfl
  · rw [if_neg hs]
    constructor
    · intro _
      refine ⟨_, rfl, rfl, rfl, buffer_WF_zero, ?_⟩
      simp only [Buffer.zero]
      omega
    · intro hf
      exact absurd (Or.inl (by omega)) hf

/-- What `sync.Pool.Get` returns: a partition of the pool that is in no cache
any more, new or released before. It returns when it takes a cached
partition or `New` returns, and panics otherwise. -/
theorem poolGet_spec {h : Heap} (hw : WF h) {p : Nat} {P : PartitionPool}
    (hp : h.pools[p]? = some P) (choice : Option Nat) (a : Alloc) :
    ((∃ i id, choice = some i ∧ P.pool[i]? = some id) ∨ P.size = 0 ∨
        P.size + (a.slack : Int) ≤ (a.limit : Int) →
      ∃ (id : Nat) (k : Heap) (part : partition), poolGet h p choice a = some (id, k) ∧
        WF k ∧ Extends h k ∧ k.parts[id]? = some part ∧ part.pool = some p ∧
        (∀ (q : Nat) (Q : PartitionPool), k.pools[q]? = some Q → id ∉ Q.pool) ∧
        (h.parts[id]? = none ∨ (h.parts[id]? = some part ∧ part.released = true)) ∧
        (∀ j, j ≠ id → k.parts[j]? = h.parts[j]?)) ∧
    (¬ ((∃ i id, choice = some i ∧ P.pool[i]? = some id) ∨ P.size = 0 ∨
        P.size + (a.slack : Int) ≤ (a.limit : Int)) →
      poolGet h p choice a = none) := by
  obtain ⟨hsz, hnd, hmem⟩ := hw.1 p P hp
  simp only [poolGet, hp]
  cases hc : (choice.bind fun i => P.pool[i]?.map fun id => (i, id)) with
  | none =>
    have hno : ¬ ∃ i id, choice = some i ∧ P.pool[i]? = some id := by
      rintro ⟨i, id, rfl, hid⟩
      simp [hid] at hc
    obtain ⟨s1, s2⟩ := poolNew_spec (h := h) (p := p) hsz a
    constructor
    · intro hserved
      obtain ⟨part, h1, h2, h3, h4, h5⟩ := s1 (hserved.resolve_left hno)
      simp only [h1]
      have hk := WF_alloc hw h4 h2 hp h5
      refine ⟨_, _, part, rfl, hk, Extends_parts _ _, by simp, h2, fun q Q hq hm => ?_,
        Or.inl (by simp), fun j hj => ?_⟩
      · obtain ⟨part0, g1, -, -⟩ := (hw.1 q Q hq).2.2 _ hm
        have := (List.getElem?_eq_some.mp g1).1
        omega
      · simp only [List.getElem?_append]
        split
        · rfl
        · rw [List.getElem?_eq_none (by simp; omega), List.getElem?_eq_none (by omega)]
    · intro hn
      exact s2 fun hf => hn (Or.inr hf)
  | some r =>
    obtain ⟨i, id⟩ := r
    obtain ⟨i', hi', hr⟩ := Option.bind_eq_some.mp hc
    obtain ⟨id', hid, hr2⟩ := Option.map_eq_some'.mp hr
    cases hr2
    simp only
    constructor
    · intro _
      have hm : id ∈ P.pool := List.mem_iff_getElem?.mpr ⟨i, hid⟩
      obtain ⟨part, g1, g2, g3⟩ := hmem id hm
      have hk : WF { h with pools := h.pools.set p { P with pool := P.pool.eraseIdx i } } :=
        WF_cache hw hp _ (hnd.eraseIdx i) fun j hj => hmem j (List.mem_of_mem_eraseIdx hj)
      have hlt : p < h.pools.length := (List.getElem?_eq_some.mp hp).1
      refine ⟨id, _, part, rfl, hk, Extends_cache hp _, g1, g3, fun q Q hq hm' => ?_,
        Or.inr ⟨g1, g2⟩, fun j _ => rfl⟩
      simp only [List.getElem?_set] at hq
      by_cases he : p = q
      · subst he
        simp [hlt] at hq
        subst hq
        exact not_mem_eraseIdx_of_nodup hnd hid hm'
      · simp [he] at hq
        obtain ⟨part1, f1, -, f3⟩ := (hw.1 q Q hq).2.2 id hm'
        rw [g1] at f1
        cases f1
        rw [g3] at f3
        cases f3
        exact he rfl
    · intro hn
      exact absurd (Or.inl ⟨i, id, hi', hid⟩) hn

end pool
namespace pool

/-- What `PartitionPool.get` returns: an active, empty partition of the pool
on storage of at least the size of the pool, which was not active before. It
returns when `sync.Pool.Get` does, and panics otherwise. -/
theorem get_spec {h : Heap} (hw : WF h) {p : Nat} {P : PartitionPool}
    (hp : h.pools[p]? = some P) (choice : Option Nat) (a : Alloc) :
    ((∃ i id, choice = some i ∧ P.pool[i]? = some id) ∨ P.size = 0 ∨
        P.size + (a.slack : Int) ≤ (a.limit : Int) →
      ∃ (id : Nat) (k : Heap) (part : partition), get h p choice a = some (id, k) ∧
        WF k ∧ Extends h k ∧ k.parts[id]? = some part ∧ part.released = false ∧
        part.pool = some p ∧ part.buf.buf = [] ∧ part.buf.off = 0 ∧
        P.size ≤ (part.buf.cap : Int) ∧
        (h.parts[id]? = none ∨
          ∃ part0 : partition, h.parts[id]? = some part0 ∧ part0.released = true)) ∧
    (¬ ((∃ i id, choice = some i ∧ P.pool[i]? = some id) ∨ P.size = 0 ∨
        P.size + (a.slack : Int) ≤ (a.limit : Int)) →
      get h p choice a = none) := by
  obtain ⟨s1, s2⟩ := poolGet_spec hw hp choice a
  constructor
  · intro hserved
    obtain ⟨id, k1, part, e1, w1, x1, g1, g2, g3, g4, -⟩ := s1 hserved
    obtain ⟨b1, q, Q, b2, b3, b4⟩ := w1.2 id part g1
    rw [g2] at b2
    cases b2
    obtain ⟨R, r1, r2⟩ := x1 p P hp
    rw [b3] at r1
    cases r1
    rw [r2] at b4
    have hlt : id < k1.parts.length := (List.getElem?_eq_some.mp g1).1
    have hcb : (part.buf.Reset).capBytes = (part.buf.cap : Int) := by
      simp [Buffer.capBytes, Buffer.Reset]
    refine ⟨id,
      { k1 with
        parts := k1.parts.set id
          { part with pool := some p, released := false, buf := part.buf.Reset } },
      { part with pool := some p, released := false, buf := part.buf.Reset }, ?_, ?_,
      Extends_trans x1 (Extends_parts _ _), by simp [hlt], rfl, rfl, rfl, rfl, b4, ?_⟩
    · simp only [get, hp, e1, g1, hcb]
      split_ifs
      · omega
      · rfl
      · rfl
    · exact WF_store w1 g1 (by simp only; rw [g2]) (buffer_WF_Reset _) (le_refl _) (Or.inr g3)
    · rcases g4 with g | ⟨g, hr⟩
      · exact Or.inl g
      · exact Or.inr ⟨part, g, hr⟩
  · intro hn
    simp only [get, hp, s2 hn]

/-- What `Reset` does to an active partition: the buffer is emptied, the
partition is marked released and its reference is put into the cache of its
pool, where it was not before. -/
theorem Reset_spec {h : Heap} (hw : WF h) {id : Nat} {part : partition}
    (hp : h.parts[id]? = some part) (hr : part.released = false) :
    ∃ (q : Nat) (P : PartitionPool), part.pool = some q ∧ h.pools[q]? = some P ∧
      id ∉ P.pool ∧
      Reset h (some id) = some
        { pools := h.pools.set q { P with pool := id :: P.pool }
          parts := h.parts.set id { part with buf := part.buf.Reset, released := true } } ∧
      WF { pools := h.pools.set q { P with pool := id :: P.pool }
           parts := h.parts.set id { part with buf := part.buf.Reset, released := true } } := by
  obtain ⟨b1, q, P, b2, b3, b4⟩ := hw.2 id part hp
  have hnc := not_cached_of_active hw hp hr b3
  have hlt : id < h.parts.length := (List.getElem?_eq_some.mp hp).1
  refine ⟨q, P, b2, b3, hnc, ?_, ?_⟩
  · simp [Reset, deref, hp, b2, hr, store, poolPut, b3]
  · have w1 : WF { h with
        parts := h.parts.set id { part with buf := part.buf.Reset, released := true } } :=
      WF_store hw hp rfl (buffer_WF_Reset _) (le_refl _) (Or.inl rfl)
    have := WF_cache (q := q) (P := P) w1 b3 (id :: P.pool)
      (List.nodup_cons.mpr ⟨hnc, (hw.1 q P b3).2.1⟩) (fun j hj => by
        rcases List.mem_cons.mp hj with rfl | hj
        · exact ⟨{ part with buf := part.buf.Reset, released := true }, by simp [hlt], rfl, b2⟩
        · exact (w1.1 q P b3).2.2 j hj)
    exact this

end pool
namespace pool

theorem copyAt_fits (dst src : List Nat) (s : Nat) (h : s + src.length ≤ dst.length) :
    queue.copyAt dst s src = dst.take s ++ src ++ dst.drop (s + src.length) := by
  simp only [queue.copyAt]
  have : src.take (dst.length - s) = src := List.take_of_length_le (by omega)
  rw [this]

theorem WF_setbuf {h : Heap} (hw : WF h) {id : Nat} {part : partition}
    (hp : h.parts[id]? = some part) (hr : part.released = false) {b : Buffer}
    (hb : b.WF) (hcap : part.buf.cap ≤ b.cap) :
    WF { h with parts := h.parts.set id { part with buf := b } } :=
  WF_store hw hp rfl hb hcap (Or.inr fun _ _ hq => not_cached_of_active hw hp hr hq)

/-- The heap after `Read`: unchanged, or the buffer of an active partition
replaced by the buffer after the read. -/
theorem Read_cases {h : Heap} {p : Option Nat} {n : Nat}
    {r : List Nat × Option Error × Heap} (hr : Read h p n = some r) :
    r.2.2 = h ∨ ∃ (id : Nat) (part : partition), p = some id ∧ h.parts[id]? = some part ∧
      part.released = false ∧
      r.2.2 = { h with parts := h.parts.set id { part with buf := (part.buf.Read n).1 } } := by
  cases p with
  | none =>
    simp [Read, deref, ensureActive] at hr
    subst hr
    exact Or.inl rfl
  | some id =>
    cases hp : h.parts[id]? with
    | none => simp [Read, deref, hp] at hr
    | some part =>
      obtain ⟨pl, buf, released⟩ := part
      cases released with
      | true =>
        simp [Read, deref, hp, ensureActive] at hr
        subst hr
        exact Or.inl rfl
      | false =>
        cases pl with
        | none =>
          simp [Read, deref, hp, ensureActive] at hr
          subst hr
          exact Or.inl rfl
        | some q =>
          simp [Read, deref, hp, ensureActive, store] at hr
          subst hr
          exact Or.inr ⟨id, _, rfl, hp, rfl, rfl⟩

/-- The heap after `Write`: unchanged, or the buffer of an active partition
replaced by the one `bytes.Buffer.Write` returns. -/
theorem Write_cases {h : Heap} {p : Option Nat} {b : List Nat} {a : Alloc}
    {r : Int × Option Error × Heap} (hr : Write h p b a = some r) :
    r.2.2 = h ∨ ∃ (id : Nat) (part : partition) (c : Buffer) (m : Int), p = some id ∧
      h.parts[id]? = some part ∧ part.released = false ∧
      part.buf.Write b a = some (c, m) ∧
      r.2.2 = { h with parts := h.parts.set id { part with buf := c } } := by
  cases p with
  | none =>
    simp [Write, deref, ensureActive] at hr
    subst hr
    exact Or.inl rfl
  | some id =>
    cases hp : h.parts[id]? with
    | none => simp [Write, deref, hp] at hr
    | some part =>
      obtain ⟨pl, buf, released⟩ := part
      cases released with
      | true =>
        simp [Write, deref, hp, ensureActive] at hr
        subst hr
        exact Or.inl rfl
      | false =>
        cases pl with
        | none =>
          simp [Write, deref, hp, ensureActive] at hr
          subst hr
          exact Or.inl rfl
        | some q =>
          cases hb : buf.Write b a with
          | none => simp [Write, deref, hp, ensureActive, hb] at hr
          | some cm =>
            obtain ⟨c, m⟩ := cm
            simp [Write, deref, hp, ensureActive, store, hb] at hr
            subst hr
            exact Or.inr ⟨id, _, c, m, rfl, hp, rfl, hb, rfl⟩

end pool
namespace pool

/-- The buffer that a `WriteAt` in range leaves: `p` stands at `off` in the
unread portion, the other bytes and the length stay. -/
theorem overwrite_spec (b : Buffer) (off : Nat) (p : List Nat) (hb : b.WF)
    (hfit : off + p.length ≤ b.Bytes.length) (c : Buffer)
    (hc : c = { b with buf := b.buf.take b.off ++ queue.copyAt b.Bytes off p }) :
    c.Bytes = b.Bytes.take off ++ p ++ b.Bytes.drop (off + p.length) ∧
      c.WF ∧ c.cap = b.cap ∧ c.Len = b.Len := by
  subst hc
  simp only [Buffer.WF] at hb
  have hlen : (queue.copyAt b.Bytes off p).length = b.Bytes.length := by
    rw [copyAt_fits _ _ _ hfit]
    simp
    omega
  have hbl : b.Bytes.length = b.buf.length - b.off := by simp [Buffer.Bytes]
  have htake : (b.buf.take b.off).length = b.off := by simp; omega
  refine ⟨?_, ?_, rfl, ?_⟩
  · simp only [Buffer.Bytes]
    rw [List.drop_append_of_le_length (by omega), List.drop_of_length_le (by omega)]
    simp only [List.nil_append]
    exact copyAt_fits _ _ _ hfit
  · simp only [Buffer.WF, List.length_append, hlen, htake]
    omega
  · simp only [Buffer.Len, List.length_append, hlen, htake]
    omega

/-- `WriteAt` on an active partition: in range it overwrites, out of range it
fails and changes nothing. -/
theorem WriteAt_spec {h : Heap} {id : Nat} {part : partition}
    (hp : h.parts[id]? = some part) (hr : part.released = false)
    (hpool : part.pool ≠ none) (hb : part.buf.WF) (b : List Nat) (off : Int) :
    (0 ≤ off ∧ off + (b.length : Int) ≤ (part.buf.Bytes.length : Int) →
      WriteAt h (some id) b off = some ((b.length : Int), none,
        { h with parts := h.parts.set id { part with buf := { part.buf with
          buf := part.buf.buf.take part.buf.off ++
            queue.copyAt part.buf.Bytes off.toNat b } } })) ∧
    (¬ (0 ≤ off ∧ off + (b.length : Int) ≤ (part.buf.Bytes.length : Int)) →
      ∃ err, WriteAt h (some id) b off = some (0, some err, h)) := by
  obtain ⟨pl, buf, released⟩ := part
  simp only [Buffer.WF] at hr hpool hb
  subst hr
  obtain ⟨q, rfl⟩ := Option.ne_none_iff_exists'.mp hpool
  have hbl : (buf.Bytes.length : Int) = ((buf.buf.length - buf.off : Nat) : Int) := by
    simp [Buffer.Bytes]
  simp only
  constructor
  · rintro ⟨h0, h1⟩
    have h2 : ¬ off > buf.Len := by
      simp only [Buffer.Len]
      omega
    simp only [WriteAt, deref, hp, Option.map_some', ensureActive, store]
    have h3 : ¬ off < 0 := by omega
    have h4 : ¬ (buf.Bytes.length : Int) < off + (b.length : Int) := by omega
    simp [h2, h3, h4]
  · intro hn
    simp only [WriteAt, deref, hp, Option.map_some', ensureActive]
    by_cases h0 : off < 0
    · exact ⟨Error.negativeOffset, by simp [h0]⟩
    · by_cases h2 : off > buf.Len
      · exact ⟨Error.ErrShortWrite, by simp [h0, h2]⟩
      · have h3 : off + (b.length : Int) > (buf.Bytes.length : Int) := by omega
        exact ⟨Error.ErrShortWrite, by simp [h0, h2, h3]⟩

theorem WriteAt_cases {h : Heap} (hw : WF h) {p : Option Nat} {b : List Nat} {off : Int}
    {r : Int × Option Error × Heap} (hr : WriteAt h p b off = some r) :
    r.2.2 = h ∨ ∃ (id : Nat) (part : partition) (buf : Buffer), p = some id ∧
      h.parts[id]? = some part ∧ part.released = false ∧ buf.WF ∧ buf.cap = part.buf.cap ∧
      r.2.2 = { h with parts := h.parts.set id { part with buf := buf } } := by
  cases p with
  | none =>
    simp [WriteAt, deref, ensureActive] at hr
    subst hr
    exact Or.inl rfl
  | some id =>
    cases hp : h.parts[id]? with
    | none => simp [WriteAt, deref, hp] at hr
    | some part =>
      by_cases hrel : part.released = true
      · simp [WriteAt, deref, hp, ensureActive, hrel] at hr
        subst hr
        exact Or.inl rfl
      · have hrel' : part.released = false := by simpa using hrel
        by_cases hpl : part.pool = none
        · simp [WriteAt, deref, hp, ensureActive, hrel', hpl] at hr
          subst hr
          exact Or.inl rfl
        · obtain ⟨s1, s2⟩ := WriteAt_spec hp hrel' hpl (hw.2 id part hp).1 b off
          by_cases hin : 0 ≤ off ∧ off + (b.length : Int) ≤ (part.buf.Bytes.length : Int)
          · rw [s1 hin] at hr
            cases hr
            obtain ⟨-, g2, g3, -⟩ := overwrite_spec part.buf off.toNat b (hw.2 id part hp).1
              (by omega) _ rfl
            exact Or.inr ⟨id, part, _, rfl, hp, hrel', g2, g3, rfl⟩
          · obtain ⟨err, he⟩ := s2 hin
            rw [he] at hr
            cases hr
            exact Or.inl rfl

end pool
namespace pool

theorem Extends_NewPartitionPool (h : Heap) (size : Int) :
    Extends h (NewPartitionPool h size).2 := by
  intro q Q hq
  have hlt : q < h.pools.length := (List.getElem?_eq_some.mp hq).1
  refine ⟨Q, ?_, rfl⟩
  simp only [NewPartitionPool]
  rw [List.getElem?_append_left hlt]
  exact hq

theorem Reset_cases {h : Heap} (hw : WF h) {p : Option Nat} {k : Heap}
    (hr : Reset h p = some k) : WF k ∧ Extends h k := by
  cases p with
  | none =>
    simp [Reset, deref] at hr
    subst hr
    exact ⟨hw, Extends_refl _⟩
  | some id =>
    cases hp : h.parts[id]? with
    | none => simp [Reset, deref, hp] at hr
    | some part =>
      by_cases hrel : part.released = true
      · have : Reset h (some id) = some h := by
          simp only [Reset, deref, hp, Option.map_some']
          cases part.pool <;> simp [hrel]
        rw [this] at hr
        cases hr
        exact ⟨hw, Extends_refl _⟩
      · have hrel' : part.released = false := by simpa using hrel
        obtain ⟨q, P, -, hq, -, e, w⟩ := Reset_spec hw hp hrel'
        rw [e] at hr
        cases hr
        refine ⟨w, ?_⟩
        have a := Extends_parts h
          (h.parts.set id { part with buf := part.buf.Reset, released := true })
        have b := Extends_cache
          (h := { h with
            parts := h.parts.set id { part with buf := part.buf.Reset, released := true } })
          (q := q) (P := P) hq (id :: P.pool)
        exact Extends_trans a b

/-- Every action keeps the heap well formed and the pools with their sizes. -/
theorem step_WF {h k : Heap} (hw : WF h) (a : Action) (hs : step h a = some k) :
    WF k ∧ Extends h k := by
  cases a with
  | newPool size =>
    simp only [step, Option.some.injEq] at hs
    subst hs
    exact ⟨WF_NewPartitionPool hw size, Extends_NewPartitionPool h size⟩
  | newPartition p choice al =>
    cases p with
    | none =>
      simp only [step, NewPartition, Option.map_some', Option.some.injEq] at hs
      subst hs
      exact ⟨hw, Extends_refl _⟩
    | some p =>
      cases hp : h.pools[p]? with
      | none => simp [step, NewPartition, get, hp] at hs
      | some P =>
        obtain ⟨s1, s2⟩ := get_spec hw hp choice al
        by_cases hserved : (∃ i id, choice = some i ∧ P.pool[i]? = some id) ∨ P.size = 0 ∨
            P.size + (al.slack : Int) ≤ (al.limit : Int)
        · obtain ⟨id, k', part, e, w, x, -⟩ := s1 hserved
          simp only [step, NewPartition, e, Option.map_some', Option.some.injEq] at hs
          subst hs
          exact ⟨w, x⟩
        · simp [step, NewPartition, s2 hserved] at hs
  | read part n =>
    simp only [step, Option.map_eq_some'] at hs
    obtain ⟨r, hr, rfl⟩ := hs
    rcases Read_cases hr with e | ⟨id, pt, -, hp, hrel, e⟩
    · rw [e]
      exact ⟨hw, Extends_refl _⟩
    · rw [e]
      obtain ⟨g1, g2⟩ := buffer_Read_spec pt.buf n (hw.2 id pt hp).1
      exact ⟨WF_setbuf hw hp hrel g1 (le_of_eq g2.symm), Extends_parts _ _⟩
  | write part b a =>
    simp only [step, Option.map_eq_some'] at hs
    obtain ⟨r, hr, rfl⟩ := hs
    rcases Write_cases hr with e | ⟨id, pt, c, m, -, hp, hrel, hb, e⟩
    · rw [e]
      exact ⟨hw, Extends_refl _⟩
    · rw [e]
      obtain ⟨-, g2, g3, -⟩ := buffer_Write_spec pt.buf c b a m (hw.2 id pt hp).1 hb
      exact ⟨WF_setbuf hw hp hrel g3 g2, Extends_parts _ _⟩
  | writeAt part b off =>
    simp only [step, Option.map_eq_some'] at hs
    obtain ⟨r, hr, rfl⟩ := hs
    rcases WriteAt_cases hw hr with e | ⟨id, pt, buf, -, hp, hrel, g1, g2, e⟩
    · rw [e]
      exact ⟨hw, Extends_refl _⟩
    · rw [e]
      exact ⟨WF_setbuf hw hp hrel g1 (le_of_eq g2.symm), Extends_parts _ _⟩
  | reset part => exact Reset_cases hw hs
  | drop p i =>
    cases hp : h.pools[p]? with
    | none => simp [step, hp] at hs
    | some P =>
      simp only [step, hp, Option.some.injEq] at hs
      subst hs
      obtain ⟨-, nd, mem⟩ := hw.1 p P hp
      exact ⟨WF_cache hw hp _ (nd.sublist (List.eraseIdx_sublist _ _))
        (fun id hm => mem id (List.mem_of_mem_eraseIdx hm)), Extends_cache hp _⟩

/-- Every history keeps the heap well formed and the pools with their sizes. -/
theorem exec_WF {h k : Heap} (hw : WF h) (as : List Action) (he : exec h as = some k) :
    WF k ∧ Extends h k := by
  induction as generalizing h with
  | nil =>
    simp only [exec, Option.some.injEq] at he
    subst he
    exact ⟨hw, Extends_refl _⟩
  | cons a as ih =>
    simp only [exec, Option.bind_eq_some] at he
    obtain ⟨t, h1, h2⟩ := he
    obtain ⟨w1, x1⟩ := step_WF hw a h1
    obtain ⟨w2, x2⟩ := ih w1 h2
    exact ⟨w2, Extends_trans x1 x2⟩

end pool
namespace pool

/-- The heap after any history from the empty heap is well formed. -/
theorem WF_of_exec {as : List Action} {h : Heap} (he : exec Heap.empty as = some h) : WF h :=
  (exec_WF WF_empty as he).1

theorem Reset_released {h : Heap} {id : Nat} {part : partition}
    (hp : h.parts[id]? = some part) (hr : part.released = true) :
    Reset h (some id) = some h := by
  simp only [Reset, deref, hp, Option.map_some']
  cases part.pool <;> simp [hr]

theorem getElem?_set_same {α : Type} (l : List α) (i : Nat) (a b : α) (h : l[i]? = some a) :
    (l.set i b)[i]? = some b := by
  have hlt : i < l.length := (List.getElem?_eq_some.mp h).1
  simp [List.getElem?_set, hlt]

theorem heldRun_exec : exec Heap.empty heldRun = some held := rfl

theorem releasedRun_exec : exec Heap.empty releasedRun = some releasedHeap := rfl

/-- C12 (amended): what each use of a released partition does. For every
heap reached by a history of the package's operations and every partition in
it that is released (`Reset` was called on it and it was not acquired again;
`Reset` on an active partition of the heap does set the flag): `Read`, `Write`
and `WriteAt` return 0 and the error "pool: use after reset"; `Len` returns 0,
`Bytes` returns nil and `Reset` returns, all three without signalling a
failure; and none of the six changes the heap, so the buffer contents stay. -/
theorem released_partition_use (as : List Action) (h : Heap)
    (he : exec Heap.empty as = some h) (id : Nat) (part : partition)
    (hp : h.parts[id]? = some part) :
    (part.released = true →
      (∀ n, Read h (some id) n = some ([], some Error.useAfterReset, h)) ∧
      (∀ b slack, Write h (some id) b slack = some (0, some Error.useAfterReset, h)) ∧
      (∀ b off, WriteAt h (some id) b off = some (0, some Error.useAfterReset, h)) ∧
      Len h (some id) = some 0 ∧ Bytes h (some id) = some [] ∧
      Reset h (some id) = some h) ∧
    (part.released = false →
      ∃ k part', Reset h (some id) = some k ∧ k.parts[id]? = some part' ∧
        part'.released = true) := by
  constructor
  · intro hr
    refine ⟨fun n => ?_, fun b slack => ?_, fun b off => ?_, ?_, ?_, Reset_released hp hr⟩
    · simp [Read, deref, hp, ensureActive, hr]
    · simp [Write, deref, hp, ensureActive, hr]
    · simp [WriteAt, deref, hp, ensureActive, hr]
    · simp [Len, deref, hp, hr]
    · simp [Bytes, deref, hp, hr]
  · intro hr
    obtain ⟨q, P, -, -, -, e, -⟩ := Reset_spec (WF_of_exec he) hp hr
    exact ⟨_, _, e, getElem?_set_same _ _ _ _ hp, rfl⟩

/-- C12 (witness): the amended claim for the partition of `releasedRun`, on
which `Reset` has been called after three bytes were written. -/
theorem released_partition_use_witness :
    exec Heap.empty releasedRun = some releasedHeap ∧
    (∀ n, Read releasedHeap (some 0) n = some ([], some Error.useAfterReset, releasedHeap)) ∧
    (∀ b slack, Write releasedHeap (some 0) b slack =
      some (0, some Error.useAfterReset, releasedHeap)) ∧
    (∀ b off, WriteAt releasedHeap (some 0) b off =
      some (0, some Error.useAfterReset, releasedHeap)) ∧
    Len releasedHeap (some 0) = some 0 ∧ Bytes releasedHeap (some 0) = some [] ∧
    Reset releasedHeap (some 0) = some releasedHeap :=
  ⟨rfl, (released_partition_use releasedRun releasedHeap rfl 0
    { pool := some 0, buf := { buf := [], off := 0, cap := 4 }, released := true } rfl).1 rfl⟩

/-- C12 (counterexample): after `releasedRun` the partition 0 has been
released by `Reset` and not acquired again, and on it `Len` returns 0, `Bytes`
returns nil and a second `Reset` returns with the heap as it was: normal
results, no error and no abort. -/
theorem Len_Bytes_Reset_tolerate_released :
    exec Heap.empty releasedRun = some releasedHeap ∧
    (releasedHeap.parts[0]?.map fun part => part.released) = some true ∧
    Len releasedHeap (some 0) = some 0 ∧ Bytes releasedHeap (some 0) = some [] ∧
    Reset releasedHeap (some 0) = some releasedHeap :=
  ⟨rfl, rfl, rfl, rfl, rfl⟩

/-- C13 (amended): what `NewPartition` returns. Let the pool `p` be created by
`NewPartitionPool(size)` in a heap reached by any history, and let any
history of acquisitions, reads, writes, releases and cache drops follow; the
pool then still has the size `max(size, 0)`. If `sync.Pool` hands out a
cached partition, or `max(size, 0)` is 0, or the runtime can allocate the
buffer of `max(size, 0)` bytes for a new partition, then `NewPartition(p)`
returns a partition that is active (not released, backed by `p`, so
`ensureActive` gives no error) and empty (`Len()` is 0 and `Bytes()` is
empty), whose buffer has capacity at least `max(size, 0)`. Otherwise, when a
new partition is needed and its buffer cannot be allocated, `NewPartition(p)`
panics in `buf.Grow` and returns nothing. `NewPartition(nil)` returns nil and
changes nothing. -/
theorem NewPartition_returns_active_empty (as₁ as₂ : List Action) (h₁ h : Heap) (size : Int)
    (choice : Option Nat) (a : Alloc)
    (e1 : exec Heap.empty as₁ = some h₁)
    (e2 : exec (NewPartitionPool h₁ size).2 as₂ = some h) :
    ∃ R : PartitionPool, h.pools[(NewPartitionPool h₁ size).1]? = some R ∧
      R.size = max size 0 ∧
      ((∃ i id, choice = some i ∧ R.pool[i]? = some id) ∨ max size 0 = 0 ∨
          max size 0 + (a.slack : Int) ≤ (a.limit : Int) →
        ∃ id k part, NewPartition h (some (NewPartitionPool h₁ size).1) choice a =
            some (some id, k) ∧
          k.parts[id]? = some part ∧ part.released = false ∧
          part.pool = some (NewPartitionPool h₁ size).1 ∧
          ensureActive (some part) = none ∧
          Len k (some id) = some 0 ∧ Bytes k (some id) = some [] ∧
          max size 0 ≤ part.buf.capBytes ∧ max size 0 ≤ (part.buf.cap : Int)) ∧
      (¬ ((∃ i id, choice = some i ∧ R.pool[i]? = some id) ∨ max size 0 = 0 ∨
          max size 0 + (a.slack : Int) ≤ (a.limit : Int)) →
        NewPartition h (some (NewPartitionPool h₁ size).1) choice a = none) ∧
      NewPartition h none choice a = some (none, h) := by
  have w1 := WF_NewPartitionPool (WF_of_exec e1) size
  obtain ⟨w, x⟩ := exec_WF w1 as₂ e2
  have hq : (NewPartitionPool h₁ size).2.pools[(NewPartitionPool h₁ size).1]? =
      some { size := if size < 0 then 0 else size, pool := [] } := by
    simp [NewPartitionPool]
  obtain ⟨R, hR, hsz⟩ := x _ _ hq
  have hmax : R.size = max size 0 := by
    rw [hsz]
    simp only
    split_ifs with hs
    · exact (max_eq_right (le_of_lt hs)).symm
    · exact (max_eq_left (by omega)).symm
  obtain ⟨s1, s2⟩ := get_spec w hR choice a
  rw [hmax] at s1 s2
  refine ⟨R, hR, hmax, fun hserved => ?_, fun hn => ?_, rfl⟩
  · obtain ⟨id, k, part, g, -, -, hp, hrel, hpool, hbuf, hoff, hcap, -⟩ := s1 hserved
    refine ⟨id, k, part, ?_, hp, hrel, hpool, ?_, ?_, ?_, ?_, hcap⟩
    · simp [NewPartition, g]
    · simp [ensureActive, hrel, hpool]
    · simp [Len, deref, hp, hrel, Buffer.Len, hbuf, hoff]
    · simp [Bytes, deref, hp, hrel, Buffer.Bytes, hbuf]
    · simp only [Buffer.capBytes, hoff]
      simpa using hcap
  · simp [NewPartition, s2 hn]

/-- C13 (witness): the amended claim for the pool of size 4 made in the empty
heap, after a holder wrote three bytes to a partition and released it, when
`sync.Pool` hands out that cached partition. -/
theorem NewPartition_returns_active_empty_witness :
    exec Heap.empty [] = some Heap.empty ∧
    exec (NewPartitionPool Heap.empty 4).2 [Action.newPartition (some 0) none amd64,
      Action.write (some 0) [1, 2, 3] amd64, Action.reset (some 0)] = some releasedHeap ∧
    ∃ R : PartitionPool, releasedHeap.pools[(NewPartitionPool Heap.empty 4).1]? = some R ∧
      R.size = max 4 0 ∧
      ((∃ i id, some 0 = some i ∧ R.pool[i]? = some id) ∨ max (4 : Int) 0 = 0 ∨
          max (4 : Int) 0 + (amd64.slack : Int) ≤ (amd64.limit : Int) →
        ∃ id k part, NewPartition releasedHeap (some (NewPartitionPool Heap.empty 4).1)
            (some 0) amd64 = some (some id, k) ∧
          k.parts[id]? = some part ∧ part.released = false ∧
          part.pool = some (NewPartitionPool Heap.empty 4).1 ∧
          ensureActive (some part) = none ∧
          Len k (some id) = some 0 ∧ Bytes k (some id) = some [] ∧
          max 4 0 ≤ part.buf.capBytes ∧ max 4 0 ≤ (part.buf.cap : Int)) ∧
      (¬ ((∃ i id, some 0 = some i ∧ R.pool[i]? = some id) ∨ max (4 : Int) 0 = 0 ∨
          max (4 : Int) 0 + (amd64.slack : Int) ≤ (amd64.limit : Int)) →
        NewPartition releasedHeap (some (NewPartitionPool Heap.empty 4).1) (some 0) amd64 =
          none) ∧
      NewPartition releasedHeap none (some 0) amd64 = some (none, releasedHeap) :=
  ⟨rfl, rfl, NewPartition_returns_active_empty []
    [Action.newPartition (some 0) none amd64, Action.write (some 0) [1, 2, 3] amd64,
      Action.reset (some 0)] Heap.empty releasedHeap 4 (some 0) amd64 rfl rfl⟩

/-- C13 (counterexample): for the pool made by `NewPartitionPool(math.MaxInt64)`
in the empty heap, `NewPartition` does not return on a linux/amd64 runtime:
the cache is empty, so `New` runs, and `buf.Grow(math.MaxInt64)` cannot
allocate and panics. -/
theorem NewPartition_panics_for_MaxInt64 :
    exec Heap.empty [] = some Heap.empty ∧
    exec (NewPartitionPool Heap.empty MaxInt64).2 [] =
      some (NewPartitionPool Heap.empty MaxInt64).2 ∧
    NewPartition (NewPartitionPool Heap.empty MaxInt64).2
      (some (NewPartitionPool Heap.empty MaxInt64).1) none amd64 = none :=
  ⟨rfl, rfl, by decide⟩

end pool
namespace pool

/-- C18: `WriteAt` overwrites in place and never extends. For every heap
reached by a history of the package's operations, every active partition in
it with unread contents `data`, every `b` and every `off`: if `0 <= off` and
`off + len(b) <= len(data)` then `WriteAt(b, off)` returns `(len(b), nil)`,
the contents become `data[:off]`, then `b`, then `data[off+len(b):]`, `Len()`
is unchanged and nothing else in the heap changes; otherwise it returns 0 with
a non-nil error and the heap, so the contents, is unchanged. -/
theorem WriteAt_overwrites_in_place (as : List Action) (h : Heap)
    (he : exec Heap.empty as = some h) (id : Nat) (part : partition)
    (hp : h.parts[id]? = some part) (hr : part.released = false) (b : List Nat) (off : Int) :
    Bytes h (some id) = some part.buf.Bytes ∧
    (0 ≤ off ∧ off + (b.length : Int) ≤ (part.buf.Bytes.length : Int) →
      ∃ k, WriteAt h (some id) b off = some ((b.length : Int), none, k) ∧
        Bytes k (some id) = some (part.buf.Bytes.take off.toNat ++ b ++
          part.buf.Bytes.drop (off.toNat + b.length)) ∧
        Len k (some id) = Len h (some id) ∧ k.pools = h.pools ∧
        ∀ j, j ≠ id → k.parts[j]? = h.parts[j]?) ∧
    (¬ (0 ≤ off ∧ off + (b.length : Int) ≤ (part.buf.Bytes.length : Int)) →
      ∃ err, WriteAt h (some id) b off = some (0, some err, h)) := by
  have hw := WF_of_exec he
  obtain ⟨hbw, q, P, hpool, -, -⟩ := hw.2 id part hp
  obtain ⟨s1, s2⟩ := WriteAt_spec hp hr (by rw [hpool]; simp) hbw b off
  refine ⟨by simp [Bytes, deref, hp, hr], fun hin => ?_, s2⟩
  obtain ⟨g1, -, -, g4⟩ := overwrite_spec part.buf off.toNat b hbw (by omega) _ rfl
  refine ⟨_, s1 hin, ?_, ?_, rfl, fun j hj => ?_⟩
  · simp only [Bytes, deref, getElem?_set_same _ _ _ _ hp, Option.map_some', hr]
    simp only [Bool.false_eq_true, if_false, Option.some.injEq]
    exact g1
  · simp only [Len, deref, getElem?_set_same _ _ _ _ hp, Option.map_some', hr, hp]
    simp only [Bool.false_eq_true, if_false, Option.some.injEq]
    exact g4
  · simp only
    rw [List.getElem?_set_ne (Ne.symm hj)]

/-- C18 (witness): the theorem for the partition of `heldRun`, which holds
1, 2, 3, with `b = [9]` and `off = 1`. -/
theorem WriteAt_overwrites_in_place_witness :
    exec Heap.empty heldRun = some held ∧
    Bytes held (some 0) = some [1, 2, 3] ∧
    WriteAt held (some 0) [9] 1 = some (1, none,
      { held with parts := [{ pool := some 0, buf := { buf := [1, 9, 3], off := 0, cap := 4 },
                              released := false }] }) ∧
    (∃ err, WriteAt held (some 0) [9, 9, 9] 1 = some (0, some err, held)) :=
  ⟨rfl, rfl, rfl,
    (WriteAt_overwrites_in_place heldRun held rfl 0
      { pool := some 0, buf := { buf := [1, 2, 3], off := 0, cap := 4 }, released := false }
      rfl rfl [9, 9, 9] 1).2.2 (by decide)⟩

/-- C19: release happens at most once per acquisition. In every heap reached
by a history of the package's operations: the first `Reset` of an active
partition empties it, marks it released and puts it into the cache of its
backing pool, where it then stands exactly once, and the `Reset` after that
changes nothing; `Reset` of a released partition changes nothing; no cache
holds a partition twice; every cached partition is released; and a partition
returned by `NewPartition` was not active before the call (it is new or was
released), and after the call it is active and in no cache, so no second
acquisition returns it before its `Reset`. -/
theorem Reset_releases_at_most_once (as : List Action) (h : Heap)
    (he : exec Heap.empty as = some h) :
    (∀ (id : Nat) (part : partition), h.parts[id]? = some part → part.released = false →
      ∃ (q : Nat) (P P' : PartitionPool) (k : Heap) (part' : partition),
        part.pool = some q ∧ h.pools[q]? = some P ∧ Reset h (some id) = some k ∧
        k.parts[id]? = some part' ∧ part'.released = true ∧ part'.buf.Bytes = [] ∧
        k.pools[q]? = some P' ∧ P'.pool = id :: P.pool ∧ P'.pool.count id = 1 ∧
        Reset k (some id) = some k) ∧
    (∀ (id : Nat) (part : partition), h.parts[id]? = some part → part.released = true →
      Reset h (some id) = some h) ∧
    (∀ (q : Nat) (P : PartitionPool), h.pools[q]? = some P → P.pool.Nodup ∧
      ∀ id ∈ P.pool, ∃ part : partition, h.parts[id]? = some part ∧ part.released = true) ∧
    (∀ (p : Nat) (choice : Option Nat) (a : Alloc) (id : Option Nat) (k : Heap),
      NewPartition h (some p) choice a = some (id, k) →
      ∃ (i : Nat) (part : partition), id = some i ∧
        (h.parts[i]? = none ∨ ∃ old : partition, h.parts[i]? = some old ∧ old.released = true) ∧
        k.parts[i]? = some part ∧ part.released = false ∧
        ∀ (q : Nat) (Q : PartitionPool), k.pools[q]? = some Q → i ∉ Q.pool) := by
  have hw := WF_of_exec he
  refine ⟨fun id part hp hr => ?_, fun id part hp hr => Reset_released hp hr,
    fun q P hq => ?_, fun p choice a id k hn => ?_⟩
  · obtain ⟨q, P, hpool, hq, hnot, e, -⟩ := Reset_spec hw hp hr
    have hk := getElem?_set_same h.parts id part
      { part with buf := part.buf.Reset, released := true } hp
    refine ⟨q, P, { P with pool := id :: P.pool }, _, _, hpool, hq, e, hk, rfl, rfl,
      getElem?_set_same _ _ _ _ hq, rfl, ?_, Reset_released hk rfl⟩
    simp [List.count_cons, List.count_eq_zero_of_not_mem hnot]
  · obtain ⟨-, nd, mem⟩ := hw.1 q P hq
    refine ⟨nd, fun id hm => ?_⟩
    obtain ⟨part, h1, h2, -⟩ := mem id hm
    exact ⟨part, h1, h2⟩
  · cases hp : h.pools[p]? with
    | none => simp [NewPartition, get, hp] at hn
    | some P =>
      obtain ⟨s1, s2⟩ := get_spec hw hp choice a
      by_cases hserved : (∃ i id, choice = some i ∧ P.pool[i]? = some id) ∨ P.size = 0 ∨
          P.size + (a.slack : Int) ≤ (a.limit : Int)
      · obtain ⟨i, k', part, g, w, -, hk, hrel, -, -, -, -, hold⟩ := s1 hserved
        simp only [NewPartition, g, Option.map_some', Option.some.injEq, Prod.mk.injEq] at hn
        obtain ⟨rfl, rfl⟩ := hn
        exact ⟨i, part, rfl, hold, hk, hrel, fun q Q hq => not_cached_of_active w hk hrel hq⟩
      · simp [NewPartition, s2 hserved] at hn

/-- C19 (witness): the theorem for the heap of `heldRun`, whose partition 0 is
acquired and not yet released. -/
theorem Reset_releases_at_most_once_witness :
    exec Heap.empty heldRun = some held ∧
    Reset held (some 0) = some releasedHeap ∧
    Reset releasedHeap (some 0) = some releasedHeap ∧
    (∀ (q : Nat) (P : PartitionPool), held.pools[q]? = some P → P.pool.Nodup ∧
      ∀ id ∈ P.pool, ∃ part : partition, held.parts[id]? = some part ∧
        part.released = true) :=
  ⟨rfl, rfl, rfl, (Reset_releases_at_most_once heldRun held rfl).2.2.1⟩

end pool
